import Mathlib

/-!
# LlamaV2 step pipeline: embedding overlay, logits projection, sampling dispatch

A shallow embedding of `src/turbomind/models/llama/LlamaV2.cc`.

Conventions of the embedding.

* A raw pointer is a region of memory addressed by an integer element offset; a region is a
  total function `Int → α` (device buffers, the host mask) and a write updates the function.
  Offsets are counted in elements of the model type `T`, so `byte_size / sizeof(T)` is the
  length of a copy and `off_src * hidden_units_ * sizeof(T)` bytes is `off_src * hidden_units_`
  elements.
* C++ `int` values of `updateEmbedding` are unbounded integers (`Int`); `hidden_units_` is a
  `size_t` and is a natural number.
* `std::vector::operator[]` outside the vector is an error: the embedding returns `none`.
-/

namespace turbomind

/-! ## Definitions -/

/-- Modelled from the spec: the `Sequence` record of the sequence manager (its header is not
among the sources). Only the three fields read by `updateEmbedding` are kept: the number of
cached tokens, the stored embedding vectors (each the region behind `data()`), and their
ranges `[begin, end)` in absolute token positions. -/
structure Sequence (α : Type) where
  cache_len : Int
  input_embeddings : List (Int → α)
  input_embedding_ranges : List (Int × Int)

/-- One `cudaMemcpyAsync(dst_ptr, src_ptr, byte_size, cudaMemcpyDefault, stream_)` call of
`updateEmbedding`. `dst` is `dst_ptr` as an element offset from the `decoder_input` argument,
`src` is the region `embeddings[j].data()`, `src_off` the element offset added to it and
`count` is `byte_size / sizeof(T)`. -/
structure Memcpy (α : Type) where
  dst : Int
  src : Int → α
  src_off : Int
  count : Int

/-- Element offsets written by a copy: `[dst, dst + count)`. -/
def Memcpy.covers {α : Type} (cp : Memcpy α) (x : Int) : Prop :=
  cp.dst ≤ x ∧ x < cp.dst + cp.count

instance {α : Type} (cp : Memcpy α) (x : Int) : Decidable (cp.covers x) := by
  unfold Memcpy.covers; infer_instance

/-- Effect of one copy on the destination region: the covered offsets receive the source
elements in order, every other offset keeps its value. -/
def applyCopy {α : Type} (buf : Int → α) (cp : Memcpy α) : Int → α :=
  fun x => if cp.covers x then cp.src (cp.src_off + (x - cp.dst)) else buf x

/-- Effect of a list of copies issued on one stream: they take effect in issue order. -/
def applyCopies {α : Type} (buf : Int → α) (cps : List (Memcpy α)) : Int → α :=
  cps.foldl applyCopy buf

/-- The call `std::fill_n(first, n, value)` on the host mask: writes `value` to the `n` cells
from `first` on, and nothing when `n ≤ 0`. -/
def fill_n (mask : Int → Int) (first n value : Int) : Int → Int :=
  fun t => if first ≤ t ∧ t < first + n then value else mask t

/-- What the body of the range loop does with one range. -/
inductive RangeAction where
  | skip
  | stop
  | copy (off_dst off_src begin_ end_ : Int)
deriving DecidableEq, Repr

/-- Lines 138-150 of `updateEmbedding`: the two guards (`continue`, `break`) and the offsets
and clipped bounds of the copy. -/
def rangeAction (cache_len h_input_length : Int) (range : Int × Int) : RangeAction :=
  let begin_ := range.1
  let end_ := range.2
  if cache_len + h_input_length - 1 < begin_ then RangeAction.skip
  else if end_ ≤ cache_len then RangeAction.stop
  else
    let off_dst := max 0 (begin_ - cache_len)
    let off_src := max 0 (cache_len - begin_)
    let begin1 := max begin_ cache_len
    let end1 := min end_ (cache_len + h_input_length)
    RangeAction.copy off_dst off_src begin1 end1

/-- State threaded through the loops of `updateEmbedding`: the copies issued so far (in issue
order), the host mask vector and the `*have_embeddings` flag. -/
structure UpdateState (α : Type) where
  copies : List (Memcpy α)
  mask : Int → Int
  have_embeddings : Bool

/-- Lines 151-154: the arguments of the `cudaMemcpyAsync` call of one range; `decoder_input`
is the destination cursor of the current sequence. -/
def rangeCopy {α : Type} (hidden_units : Nat) (decoder_input : Int) (emb : Int → α)
    (off_dst off_src begin_ end_ : Int) : Memcpy α :=
  { dst := decoder_input + off_dst * hidden_units
    src := emb
    src_off := off_src * hidden_units
    count := (end_ - begin_) * hidden_units }

/-- Lines 151-158: the copy of one range and, when a mask was requested, the mask fill and the
flag. `decoder_input` and `mask_ptr` are the two cursors of the current sequence. -/
def issueCopy {α : Type} (hidden_units : Nat) (lora_mask : Bool) (decoder_input mask_ptr : Int)
    (emb : Int → α) (off_dst off_src begin_ end_ : Int) (st : UpdateState α) : UpdateState α :=
  let cp : Memcpy α := rangeCopy hidden_units decoder_input emb off_dst off_src begin_ end_
  let st1 : UpdateState α := { st with copies := st.copies ++ [cp] }
  if lora_mask then
    { st1 with mask := fill_n st1.mask (mask_ptr + off_dst) (end_ - begin_) 1
               have_embeddings := true }
  else st1

/-- The loop `for (int j = embeddings.size() - 1; j >= 0; j--)` of one sequence; the first
numeric argument is `j + 1`, the number of ranges still to visit. -/
def scanRanges {α : Type} (hidden_units : Nat) (lora_mask : Bool) (cache_len h_input_length : Int)
    (embeddings : List (Int → α)) (ranges : List (Int × Int)) (decoder_input mask_ptr : Int) :
    Nat → UpdateState α → Option (UpdateState α)
  | 0, st => some st
  | j + 1, st =>
    match embeddings[j]?, ranges[j]? with
    | some emb, some range =>
      match rangeAction cache_len h_input_length range with
      | RangeAction.skip =>
        scanRanges hidden_units lora_mask cache_len h_input_length embeddings ranges
          decoder_input mask_ptr j st
      | RangeAction.stop => some st
      | RangeAction.copy off_dst off_src begin_ end_ =>
        scanRanges hidden_units lora_mask cache_len h_input_length embeddings ranges
          decoder_input mask_ptr j
          (issueCopy hidden_units lora_mask decoder_input mask_ptr emb off_dst off_src
            begin_ end_ st)
    | _, _ => none

/-- The loop `for (int i = 0; i < bsz; i++)`: `n` iterations remain, `i` is the current index,
`decoder_input` and `mask_ptr` are the cursors, advanced after each sequence. -/
def seqLoop {α : Type} (hidden_units : Nat) (lora_mask : Bool) (h_input_length : Nat → Int)
    (sequences : Nat → Sequence α) :
    Nat → Nat → Int → Int → UpdateState α → Option (UpdateState α)
  | 0, _, _, _, st => some st
  | n + 1, i, decoder_input, mask_ptr, st =>
    let seq := sequences i
    match scanRanges hidden_units lora_mask seq.cache_len (h_input_length i)
        seq.input_embeddings seq.input_embedding_ranges decoder_input mask_ptr
        seq.input_embeddings.length st with
    | none => none
    | some st1 =>
      seqLoop hidden_units lora_mask h_input_length sequences n (i + 1)
        (decoder_input + h_input_length i * hidden_units) (mask_ptr + h_input_length i) st1

/-- The function `LlamaV2<T>::updateEmbedding`, up to the end of the sequence loop.
`lora_mask` tells whether the mask pointer is non-null, `tuning` is `isTuning()`; the state
passed in holds the caller's `*have_embeddings`. -/
def updateEmbedding {α : Type} (hidden_units : Nat) (tuning : Bool) (bsz : Int)
    (h_input_length : Nat → Int) (sequences : Nat → Sequence α) (lora_mask : Bool)
    (have_embeddings : Bool) : Option (UpdateState α) :=
  if tuning then some { copies := [], mask := fun _ => 0, have_embeddings := have_embeddings }
  else
    seqLoop hidden_units lora_mask h_input_length sequences bsz.toNat 0 0 0
      { copies := [], mask := fun _ => 0, have_embeddings := false }

/-- Sum of the token counts of the sequences before sequence `i`: the token index at which
the slice of sequence `i` starts in the input buffer and in the mask. -/
def tokenOffset (h_input_length : Nat → Int) : Nat → Int
  | 0 => 0
  | i + 1 => tokenOffset h_input_length i + h_input_length i

/-- Copies issued by the scan of one sequence, as a function of the (embedding, range) pairs
listed in visiting order (last range first): a skipped range adds nothing, a stopping range
ends the list. Used to reason about `scanRanges`. -/
def scanCopies {α : Type} (hidden_units : Nat) (cache_len h_input_length decoder_input : Int) :
    List ((Int → α) × (Int × Int)) → List (Memcpy α)
  | [] => []
  | (emb, range) :: rest =>
    match rangeAction cache_len h_input_length range with
    | RangeAction.skip => scanCopies hidden_units cache_len h_input_length decoder_input rest
    | RangeAction.stop => []
    | RangeAction.copy off_dst off_src begin_ end_ =>
      rangeCopy hidden_units decoder_input emb off_dst off_src begin_ end_ ::
        scanCopies hidden_units cache_len h_input_length decoder_input rest

/-- The (embedding, range) pairs of a sequence in visiting order. -/
def Sequence.visitOrder {α : Type} (seq : Sequence α) : List ((Int → α) × (Int × Int)) :=
  (seq.input_embeddings.zip seq.input_embedding_ranges).reverse

/-- Copies issued by `n` consecutive iterations of the sequence loop starting at sequence `i`
with destination cursor `decoder_input`. Used to reason about `seqLoop`. -/
def batchCopies {α : Type} (hidden_units : Nat) (h_input_length : Nat → Int)
    (sequences : Nat → Sequence α) : Nat → Nat → Int → List (Memcpy α)
  | 0, _, _ => []
  | n + 1, i, decoder_input =>
    scanCopies hidden_units (sequences i).cache_len (h_input_length i) decoder_input
        (sequences i).visitOrder ++
      batchCopies hidden_units h_input_length sequences n (i + 1)
        (decoder_input + h_input_length i * hidden_units)

/-- A sample sequence: 10 cached tokens and two stored embeddings with the ranges `[2, 6)`
and `[12, 15)`; the elements of an embedding are tagged by their offset. -/
def sampleSequence : Sequence Int :=
  { cache_len := 10
    input_embeddings := [fun x => 1000 + x, fun x => 2000 + x]
    input_embedding_ranges := [(2, 6), (12, 15)] }

/-! ### `pad_vocab_size` and the data members of `LlamaV2` -/

/-- Value of a C++ `int` expression whose mathematical result is `x`: two's complement
wrap-around to 32 bits. -/
def wrapInt (x : Int) : Int := (x + 2147483648) % 4294967296 - 2147483648

/-- The function `pad_vocab_size`: `(vocab_size + tp - 1) / tp * tp` in `int` arithmetic, the
division truncating toward zero. -/
def pad_vocab_size (vocab_size tp : Int) : Int :=
  wrapInt (wrapInt (Int.tdiv (wrapInt (wrapInt (vocab_size + tp) - 1)) tp) * tp)

/-- The data members of `LlamaV2` read by `postDecodeEmbedding`. The class declaration is not
among the sources; the members are kept as integers. -/
structure LlamaV2 where
  tp_size_ : Int
  tp_rank_ : Int
  hidden_units_ : Nat
  vocab_size_ : Int
  vocab_size_padded_ : Int
  use_allgather_2d_ : Bool
deriving DecidableEq, Repr

/-- The member initialisers of the constructor `LlamaV2<T>::LlamaV2` for the members above.
`has_allgather_2d` is `comm_->d_comm && comm_->d_comm->Query(comm::kHasAllGather2D)`. -/
def LlamaV2.construct (vocab_size : Int) (hidden_units : Nat) (attn_tp_size attn_tp_rank : Int)
    (has_allgather_2d : Bool) : LlamaV2 :=
  { tp_size_ := attn_tp_size
    tp_rank_ := attn_tp_rank
    hidden_units_ := hidden_units
    vocab_size_ := vocab_size
    vocab_size_padded_ := pad_vocab_size vocab_size attn_tp_size
    use_allgather_2d_ := has_allgather_2d }

/-! ### Device calls of `postDecodeEmbedding` -/

/-- A device pointer: a buffer (region) and an element offset into it. -/
structure Ptr where
  region : Nat
  off : Int
deriving DecidableEq, Repr

/-- The two streams of the pipelined strategy: the primary stream `stream_` and the secondary
stream made by `cudaStreamCreateWithFlags`. -/
inductive Stream where
  | primary
  | secondary
deriving DecidableEq, Repr

/-- The device calls made by `postDecodeEmbedding`, `forwardUnified` and `updateEmbedding`,
with the arguments that matter for the layout of the result. For `gemm`: `m`, `n`, the first
row of `decoder_output` read, the pointer `C` and `ldc`. For `embeddingLookup` (the kernel
`invokeInputIdsEmbeddingLookupPosEncoding`): the output pointer, the token count and the
hidden width. For `memcpyAsync` (an overlay copy): destination pointer, source element
offset and element count. `maskCopy` is the copy of the host mask to `lora_mask`. -/
inductive DeviceOp where
  | gemm (m n first : Int) (C : Ptr) (ldc : Int)
  | allGather (sendbuf recvbuf : Ptr) (count : Int)
  | transposeAxis01 (out inp : Ptr) (dim0 dim1 dim2 : Int)
  | allGather2D (sendbuf recvbuf : Ptr) (pitch stride width height : Int)
      (is_first is_last : Bool) (stream : Stream)
  | streamCreate
  | eventCreate
  | eventRecord (stream : Stream)
  | streamWaitEvent (stream : Stream)
  | eventDestroy
  | streamDestroy
  | embeddingLookup (out : Ptr) (token_num hidden : Int)
  | transpose102 (out inp : Ptr) (dim0 dim1 dim2 : Int)
  | memcpyAsync (dst : Ptr) (src_off count : Int)
  | maskCopy (count : Int)
  | streamSynchronize
deriving DecidableEq, Repr

/-- One statement of the straight-line device code: a call whose status is not tested at the
call, a call wrapped in `check_cuda_error(...)`, or `sync_check_cuda_error()`. -/
inductive Step where
  | submit (op : DeviceOp)
  | checked (op : DeviceOp)
  | sync_check
deriving DecidableEq, Repr

/-- Why `postDecodeEmbedding` produced no list of statements: an `FT_CHECK` failed, or the
stage loop did not finish within the given number of iterations. -/
inductive Failure where
  | ft_check
  | no_fuel
deriving DecidableEq, Repr

/-- The lambda `invoke_gemm`: the `Gemm` call with `m = local_vocab_size`, `n`, input rows
from `first`, output pointer `C + first * batch_stride_C + tp_rank_ * rank_stride_C` and
`ldc = batch_stride_C`. -/
def invoke_gemm (self : LlamaV2) (local_vocab_size first n : Int) (C : Ptr)
    (batch_stride_C rank_stride_C : Int) : DeviceOp :=
  DeviceOp.gemm local_vocab_size n first
    { region := C.region
      off := C.off + first * batch_stride_C + self.tp_rank_ * rank_stride_C }
    batch_stride_C

/-- Iteration space of `for (int first = 0; first < batch_size; first += step)`: the list of
stages `(first, n)` with `n = min(first + step, batch_size) - first`. The first argument
bounds the number of iterations; `none` means the bound was reached. -/
def stageLoop (batch_size step : Int) : Nat → Int → Option (List (Int × Int))
  | 0, first => if first < batch_size then none else some []
  | fuel + 1, first =>
    if first < batch_size then
      (stageLoop batch_size step fuel (first + step)).map
        (fun rest => (first, min (first + step) batch_size - first) :: rest)
    else some []

/-- Body of the stage loop (lines 340-357) for the stage `(first, n)`. -/
def stageSteps (self : LlamaV2) (local_vocab_size : Int) (local_logits : Ptr) (batch_size : Int)
    (comm_stream : Stream) (stage : Int × Int) : List Step :=
  let first := stage.1
  let n := stage.2
  [Step.submit (invoke_gemm self local_vocab_size first n local_logits
      self.vocab_size_padded_ local_vocab_size),
    Step.sync_check] ++
  (if comm_stream ≠ Stream.primary then
    [Step.checked (DeviceOp.eventRecord Stream.primary),
     Step.checked (DeviceOp.streamWaitEvent comm_stream)]
   else []) ++
  [Step.submit (DeviceOp.allGather2D
      { region := local_logits.region
        off := local_logits.off + first * self.vocab_size_padded_ +
          self.tp_rank_ * local_vocab_size }
      { region := local_logits.region
        off := local_logits.off + first * self.vocab_size_padded_ }
      self.vocab_size_padded_ local_vocab_size local_vocab_size n
      (first == 0) (first + n == batch_size) comm_stream),
    Step.sync_check]

/-- The step size of the pipelined strategy (line 332). -/
def stageStep (max_stages min_stage_tokens batch_size : Int) : Int :=
  max (min batch_size min_stage_tokens) (Int.tdiv (batch_size + max_stages - 1) max_stages)

/-- The function `LlamaV2<T>::postDecodeEmbedding` with the two constants of the pipelined
strategy, `max_stages` and `min_stage_tokens`, as parameters: the statements executed when
no device call fails. `fuel` bounds the iterations of the stage loop. -/
def postDecodeEmbeddingWith (max_stages min_stage_tokens : Int) (self : LlamaV2)
    (logits local_logits : Ptr) (batch_size : Int) (fuel : Nat) : Except Failure (List Step) :=
  if self.vocab_size_padded_ % self.tp_size_ ≠ 0 then Except.error Failure.ft_check
  else
    let local_vocab_size := self.vocab_size_padded_ / self.tp_size_
    if self.tp_size_ = 1 then
      Except.ok
        [Step.submit (invoke_gemm self local_vocab_size 0 batch_size logits
          self.vocab_size_padded_ 0),
         Step.sync_check]
    else if self.use_allgather_2d_ = false then
      if logits = local_logits then Except.error Failure.ft_check
      else
        let slice := batch_size * local_vocab_size
        Except.ok
          [Step.submit (invoke_gemm self local_vocab_size 0 batch_size local_logits
            local_vocab_size slice),
           Step.sync_check,
           Step.submit (DeviceOp.allGather
            { region := local_logits.region, off := local_logits.off + self.tp_rank_ * slice }
            local_logits slice),
           Step.sync_check,
           Step.submit (DeviceOp.transposeAxis01 logits local_logits self.tp_size_ batch_size
            local_vocab_size),
           Step.sync_check]
    else
      if logits ≠ local_logits then Except.error Failure.ft_check
      else
        let step := stageStep max_stages min_stage_tokens batch_size
        let comm_stream := if step < batch_size then Stream.secondary else Stream.primary
        match stageLoop batch_size step fuel 0 with
        | none => Except.error Failure.no_fuel
        | some stages =>
          Except.ok
            ((if step < batch_size then
                [Step.checked DeviceOp.streamCreate, Step.checked DeviceOp.eventCreate]
              else []) ++
             (stages.map (stageSteps self local_vocab_size local_logits batch_size
                comm_stream)).flatten ++
             (if comm_stream ≠ Stream.primary then
                [Step.checked (DeviceOp.eventRecord comm_stream),
                 Step.checked (DeviceOp.streamWaitEvent Stream.primary),
                 Step.checked DeviceOp.eventDestroy,
                 Step.checked DeviceOp.streamDestroy]
              else []))

/-- The function `LlamaV2<T>::postDecodeEmbedding` as compiled: `max_stages = 1` and
`min_stage_tokens = 512`. -/
def postDecodeEmbedding (self : LlamaV2) (logits local_logits : Ptr) (batch_size : Int)
    (fuel : Nat) : Except Failure (List Step) :=
  postDecodeEmbeddingWith 1 512 self logits local_logits batch_size fuel

/-! ### Tensor maps and `dynamicDecode` -/

/-- Memory location of a tensor. -/
inductive MemoryType where
  | MEMORY_CPU
  | MEMORY_GPU
deriving DecidableEq, Repr

/-- Element type of a tensor; `TYPE_MODEL` stands for `getTensorType<T>()`. -/
inductive DataType where
  | TYPE_BOOL
  | TYPE_INT32
  | TYPE_UINT32
  | TYPE_UINT64
  | TYPE_FP32
  | TYPE_VOID
  | TYPE_MODEL
deriving DecidableEq, Repr

/-- The untyped pointer of a tensor: a pointer argument of the call (by address), the
address of a local variable of the call (by the value the variable holds), or a device buffer
argument of `forwardUnified` (by its pointer). -/
inductive DataRef where
  | arg (addr : Nat)
  | localVar (value : Int)
  | device (p : Ptr)
deriving DecidableEq, Repr

/-- Modelled from the spec: the buffer descriptor `Tensor` (its header is not among the
sources): memory location, data type, shape and untyped pointer. -/
structure Tensor where
  location : MemoryType
  type : DataType
  shape : List Int
  data : DataRef
deriving DecidableEq, Repr

/-- Modelled from the spec: the container `TensorMap` (its header is not among the sources),
a mapping from string keys to tensors, kept as an association list in insertion order. -/
structure TensorMap where
  entries : List (String × Tensor)
deriving DecidableEq, Repr

/-- Modelled from the spec: `TensorMap::isExist`, the existence check of a key. -/
def TensorMap.isExist (m : TensorMap) (key : String) : Bool := (m.entries.lookup key).isSome

/-- Modelled from the spec: `TensorMap::at`, the tensor stored under a key (an error, here
`none`, when the key is absent). -/
def TensorMap.at (m : TensorMap) (key : String) : Option Tensor := m.entries.lookup key

/-- A `std::unordered_map<std::string, Tensor>`, kept as an association list. -/
abbrev UnorderedMap := List (String × Tensor)

/-- The member `std::unordered_map::insert`: adds the entry unless the key is already there. -/
def UnorderedMap.insert (m : UnorderedMap) (kv : String × Tensor) : UnorderedMap :=
  if (m.lookup kv.1).isSome then m else m ++ [kv]

/-- Construction of a `std::unordered_map` from an initializer list. -/
def UnorderedMap.ofList (l : List (String × Tensor)) : UnorderedMap :=
  l.foldl UnorderedMap.insert []

/-- Body of the loops at lines 406-410 and 421-425: the key is forwarded when the caller's
map has it. -/
def forwardOptional (src : TensorMap) (m : UnorderedMap) (key : String) : UnorderedMap :=
  if src.isExist key then
    match src.at key with
    | some t => m.insert (key, t)
    | none => m
  else m

/-- The vector `optional_inputs` of `dynamicDecode`. -/
def optional_inputs : List String :=
  ["end_ids", "stop_words_list", "bad_words_list", "runtime_top_k", "runtime_top_p",
   "temperature", "repetition_penalty"]

/-- The vector `optional_outputs` of `dynamicDecode`. -/
def optional_outputs : List String :=
  ["cum_log_probs", "output_log_probs", "sampled_indexes", "sampled_logprobs", "sampled_nums"]

/-- The initializer list of `dynamic_decode_input_tensors` (lines 389-397). -/
def requiredInputs (self : LlamaV2) (logits seq_limit_len context_length : Nat)
    (step ite : Int) (max_context_len batch_size : Nat) : List (String × Tensor) :=
  [("logits", ⟨MemoryType.MEMORY_GPU, DataType.TYPE_MODEL,
      [batch_size, 1, self.vocab_size_padded_], DataRef.arg logits⟩),
   ("step", ⟨MemoryType.MEMORY_CPU, DataType.TYPE_INT32, [1], DataRef.localVar step⟩),
   ("max_input_length", ⟨MemoryType.MEMORY_CPU, DataType.TYPE_INT32, [1],
      DataRef.localVar max_context_len⟩),
   ("sequence_limit_length", ⟨MemoryType.MEMORY_GPU, DataType.TYPE_UINT32, [batch_size],
      DataRef.arg seq_limit_len⟩),
   ("input_lengths", ⟨MemoryType.MEMORY_GPU, DataType.TYPE_INT32, [batch_size, 1],
      DataRef.arg context_length⟩),
   ("ite", ⟨MemoryType.MEMORY_CPU, DataType.TYPE_UINT32, [1], DataRef.localVar ite⟩),
   ("local_batch_size", ⟨MemoryType.MEMORY_CPU, DataType.TYPE_INT32, [1],
      DataRef.localVar batch_size⟩)]

/-- The initializer list of `dynamic_decode_output_tensors` (lines 412-417). -/
def requiredOutputs (token_ids finished sequence_length should_stop curand_state : Nat)
    (token_ids_len batch_size : Nat) : List (String × Tensor) :=
  [("output_ids", ⟨MemoryType.MEMORY_GPU, DataType.TYPE_INT32,
      [token_ids_len, batch_size, 1], DataRef.arg token_ids⟩),
   ("finished", ⟨MemoryType.MEMORY_GPU, DataType.TYPE_BOOL, [batch_size],
      DataRef.arg finished⟩),
   ("sequence_length", ⟨MemoryType.MEMORY_GPU, DataType.TYPE_INT32, [batch_size],
      DataRef.arg sequence_length⟩),
   ("should_stop", ⟨MemoryType.MEMORY_CPU, DataType.TYPE_BOOL, [1],
      DataRef.arg should_stop⟩),
   ("curand_state", ⟨MemoryType.MEMORY_GPU, DataType.TYPE_VOID, [batch_size],
      DataRef.arg curand_state⟩)]

/-- The function `LlamaV2<T>::dynamicDecode` up to the call of the sampler: the pair of maps
`(dynamic_decode_input_tensors, dynamic_decode_output_tensors)` handed to
`dynamic_decode_layer_->forward`. -/
def dynamicDecode (self : LlamaV2)
    (token_ids finished sequence_length should_stop curand_state : Nat)
    (inputs outputs : TensorMap) (logits seq_limit_len context_length : Nat)
    (step ite : Int) (max_context_len token_ids_len batch_size : Nat) :
    UnorderedMap × UnorderedMap :=
  let dynamic_decode_input_tensors :=
    optional_inputs.foldl (forwardOptional inputs)
      (UnorderedMap.ofList
        (requiredInputs self logits seq_limit_len context_length step ite max_context_len
          batch_size))
  let dynamic_decode_output_tensors :=
    optional_outputs.foldl (forwardOptional outputs)
      (UnorderedMap.ofList
        (requiredOutputs token_ids finished sequence_length should_stop curand_state
          token_ids_len batch_size))
  (dynamic_decode_input_tensors, dynamic_decode_output_tensors)

/-- A sample model instance: two ranks, rank 0, 8 hidden units, vocabulary padded to 6. -/
def sampleModel : LlamaV2 :=
  { tp_size_ := 2, tp_rank_ := 0, hidden_units_ := 8, vocab_size_ := 5,
    vocab_size_padded_ := 6, use_allgather_2d_ := true }

/-- A sample caller input map: one optional key and an entry under the required key
`logits`. -/
def sampleInputs : TensorMap :=
  ⟨[("temperature", ⟨MemoryType.MEMORY_GPU, DataType.TYPE_FP32, [4], DataRef.arg 100⟩),
    ("logits", ⟨MemoryType.MEMORY_CPU, DataType.TYPE_FP32, [1], DataRef.arg 101⟩)]⟩

/-- A sample caller output map with one optional key. -/
def sampleOutputs : TensorMap :=
  ⟨[("sampled_nums", ⟨MemoryType.MEMORY_GPU, DataType.TYPE_UINT32, [4], DataRef.arg 102⟩)]⟩

/-- A sample sequence with two overlapping ranges, `[0, 4)` (index 0) and `[2, 6)` (index 1),
and nothing cached; the elements of embedding `j` are tagged `100 * (j + 1) + offset`. -/
def overlapSequence : Sequence Int :=
  { cache_len := 0
    input_embeddings := [fun x => 100 + x, fun x => 200 + x]
    input_embedding_ranges := [(0, 4), (2, 6)] }

/-! ### Effect of the device calls on the memory of the tensor-parallel group -/

/-- Device memory of one rank: buffer, element offset, value. -/
abbrev RankMem (α : Type) := Nat → Int → α

/-- Device memory of all ranks of the tensor-parallel group. -/
abbrev World (α : Type) := Nat → RankMem α

/-- Modelled from the spec: the matrix multiply `Gemm` with the operands of `invoke_gemm`,
treated as an exact function. The result is an `m × n` column-major matrix with leading
dimension `ldc` at `C`: entry `(v, b)` is at `C + b * ldc + v` and holds `G (first + b) v`,
the product of row `first + b` of `decoder_output` with row `v` of this rank's shard of the
output embedding. -/
def gemmWrite {α : Type} (G : Int → Int → α) (m n first : Int) (C : Ptr) (ldc : Int)
    (mem : RankMem α) : RankMem α :=
  fun rg x =>
    if rg = C.region ∧ 0 ≤ (x - C.off) / ldc ∧ (x - C.off) / ldc < n ∧
        (x - C.off) % ldc < m then
      G (first + (x - C.off) / ldc) ((x - C.off) % ldc)
    else mem rg x

/-- Modelled from the spec: `AllGather(src, dst, element_count, ...)`, the collective that
replicates each rank's shard to all ranks: the `count` elements at the send pointer of rank
`q` arrive at `recvbuf + q * count` on every rank. `old` is the memory of the group before the
call, `w` the size of the group. -/
def allGatherWrite {α : Type} (w : Nat) (old : World α) (sendbuf : Nat → Ptr) (recvbuf : Ptr)
    (count : Int) (mem : RankMem α) : RankMem α :=
  fun rg x =>
    if rg = recvbuf.region ∧ 0 ≤ x - recvbuf.off ∧ (x - recvbuf.off) / count < w ∧
        0 < count then
      old ((x - recvbuf.off) / count).toNat
        (sendbuf ((x - recvbuf.off) / count).toNat).region
        ((sendbuf ((x - recvbuf.off) / count).toNat).off + (x - recvbuf.off) % count)
    else mem rg x

/-- Modelled from the spec: `invokeTransposeAxis01(out, in, dim0, dim1, dim2)`, the transpose
from rank-major to batch-major: `out[j][i][t] = in[i][j][t]` for `i < dim0`, `j < dim1`,
`t < dim2`. -/
def transposeWrite {α : Type} (out inp : Ptr) (dim0 dim1 dim2 : Int) (mem : RankMem α) :
    RankMem α :=
  fun rg x =>
    if rg = out.region ∧ 0 ≤ x - out.off ∧ (x - out.off) / dim2 / dim0 < dim1 ∧ 0 < dim0 ∧
        0 < dim2 then
      mem inp.region
        (inp.off + ((x - out.off) / dim2 % dim0 * dim1 + (x - out.off) / dim2 / dim0) * dim2 +
          (x - out.off) % dim2)
    else mem rg x

/-- Modelled from the spec: `AllGather2D(src, dst, row_stride, shard_width, shard_width,
row_count, ...)`, the strided all-gather of a narrow shard out of a wider row-major buffer,
row by row: for every row `h < height` the `width` elements at `sendbuf_q + h * pitch` of rank
`q` arrive at `recvbuf + h * pitch + q * stride` on every rank. -/
def allGather2DWrite {α : Type} (w : Nat) (old : World α) (sendbuf : Nat → Ptr) (recvbuf : Ptr)
    (pitch stride width height : Int) (mem : RankMem α) : RankMem α :=
  fun rg x =>
    if rg = recvbuf.region ∧ 0 ≤ x - recvbuf.off ∧ (x - recvbuf.off) / pitch < height ∧
        (x - recvbuf.off) % pitch / stride < w ∧ (x - recvbuf.off) % pitch % stride < width ∧
        0 < pitch ∧ 0 < stride then
      old ((x - recvbuf.off) % pitch / stride).toNat
        (sendbuf ((x - recvbuf.off) % pitch / stride).toNat).region
        ((sendbuf ((x - recvbuf.off) % pitch / stride).toNat).off +
          (x - recvbuf.off) / pitch * pitch + (x - recvbuf.off) % pitch % stride)
    else mem rg x

/-- The send pointer of a collective call. -/
def sendPtr : Option DeviceOp → Ptr
  | some (DeviceOp.allGather sendbuf _ _) => sendbuf
  | some (DeviceOp.allGather2D sendbuf _ _ _ _ _ _ _ _) => sendbuf
  | _ => { region := 0, off := 0 }

/-- One lock-step of the group: rank `r` executes `ops r`. `G r` is the exact matrix multiply
of rank `r`. Stream and event calls do not change memory. -/
def stepWorld {α : Type} (w : Nat) (G : Nat → Int → Int → α) (ops : Nat → Option DeviceOp)
    (world : World α) : World α :=
  fun r =>
    match ops r with
    | some (DeviceOp.gemm m n first C ldc) => gemmWrite (G r) m n first C ldc (world r)
    | some (DeviceOp.allGather _ recvbuf count) =>
      allGatherWrite w world (fun q => sendPtr (ops q)) recvbuf count (world r)
    | some (DeviceOp.transposeAxis01 out inp dim0 dim1 dim2) =>
      transposeWrite out inp dim0 dim1 dim2 (world r)
    | some (DeviceOp.allGather2D _ recvbuf pitch stride width height _ _ _) =>
      allGather2DWrite w world (fun q => sendPtr (ops q)) recvbuf pitch stride width height
        (world r)
    | _ => world r

/-- The device call of a statement, if it makes one. -/
def Step.op? : Step → Option DeviceOp
  | Step.submit op => some op
  | Step.checked op => some op
  | Step.sync_check => none

/-- Whether a device call writes device memory. -/
def DeviceOp.movesData : DeviceOp → Bool
  | DeviceOp.gemm _ _ _ _ _ => true
  | DeviceOp.allGather _ _ _ => true
  | DeviceOp.transposeAxis01 _ _ _ _ _ => true
  | DeviceOp.allGather2D _ _ _ _ _ _ _ _ _ => true
  | _ => false

/-- The calls of a list of statements that write device memory, in order. -/
def dataOps (steps : List Step) : List DeviceOp :=
  (steps.filterMap Step.op?).filter DeviceOp.movesData

/-- Lock-step execution of `k` calls of the per-rank call lists `progs`. -/
def runWorld {α : Type} (w : Nat) (G : Nat → Int → Int → α) :
    Nat → (Nat → List DeviceOp) → World α → World α
  | 0, _, world => world
  | k + 1, progs, world =>
    runWorld w G k (fun r => (progs r).tail) (stepWorld w G (fun r => (progs r).head?) world)

/-- The statements of a rank, or the empty list when the rank stopped on a failure. -/
def stepsOf (result : Except Failure (List Step)) : List Step :=
  match result with
  | Except.ok steps => steps
  | Except.error _ => []

/-- Whether a rank produced its statements. -/
def succeeded (result : Except Failure (List Step)) : Bool :=
  match result with
  | Except.ok _ => true
  | Except.error _ => false

/-- Memory of the group after all `w` ranks ran their statements without a device failure;
`none` when some rank stopped. The ranks run the same sequence of calls, rank 0 gives their
number. -/
def runRanks {α : Type} (w : Nat) (G : Nat → Int → Int → α)
    (prog : Nat → Except Failure (List Step)) (world : World α) : Option (World α) :=
  if (List.range w).all (fun r => succeeded (prog r)) then
    some (runWorld w G (dataOps (stepsOf (prog 0))).length
      (fun r => dataOps (stepsOf (prog r))) world)
  else none

/-- The instance of rank `r` in a group of `w` ranks with padded vocabulary `vsp`. -/
def rankModel (w : Nat) (vsp : Int) (flag : Bool) (r : Nat) : LlamaV2 :=
  { tp_size_ := w, tp_rank_ := r, hidden_units_ := 0, vocab_size_ := vsp,
    vocab_size_padded_ := vsp, use_allgather_2d_ := flag }

/-- The single-device layout of the first `rows` rows of the logits in the buffer `buf`, on
every rank: the value `G q b v` that rank `q` computes for row `b` and shard column `v` is at
flat index `b * vsp + q * lvs + v`, the place of column `q * lvs + v` of row `b`. -/
def LogitsLayout {α : Type} (w : Nat) (G : Nat → Int → Int → α) (vsp lvs : Int) (buf : Ptr)
    (rows : Int) (world : World α) : Prop :=
  ∀ r q : Nat, r < w → q < w → ∀ b v : Int, 0 ≤ b → b < rows → 0 ≤ v → v < lvs →
    world r buf.region (buf.off + b * vsp + q * lvs + v) = G q b v

/-- The two calls of the stage `(first, n)` of rank `r` that write device memory. -/
def stageOps (vsp lvs : Int) (buf : Ptr) (batch_size : Int) (cs : Stream) (r : Nat)
    (stage : Int × Int) : List DeviceOp :=
  [DeviceOp.gemm lvs stage.2 stage.1
      { region := buf.region, off := buf.off + stage.1 * vsp + (r : Int) * lvs } vsp,
   DeviceOp.allGather2D
      { region := buf.region, off := buf.off + stage.1 * vsp + (r : Int) * lvs }
      { region := buf.region, off := buf.off + stage.1 * vsp } vsp lvs lvs stage.2
      (stage.1 == 0) (stage.1 + stage.2 == batch_size) cs]

/-- Memory of the group after the two calls of one stage on every rank. -/
def stageWorld {α : Type} (w : Nat) (G : Nat → Int → Int → α) (vsp lvs : Int) (buf : Ptr)
    (batch_size : Int) (cs : Stream) (world : World α) (stage : Int × Int) : World α :=
  stepWorld w G (fun r => (stageOps vsp lvs buf batch_size cs r stage).tail.head?)
    (stepWorld w G (fun r => (stageOps vsp lvs buf batch_size cs r stage).head?) world)

/-! ### Device failures and status checks -/

/-- State of a run of the device statements: the calls made so far, each with its status
(`true` for success), whether a call whose status was not tested at the call has failed, and
whether a status check has aborted the step. -/
structure Outcome where
  calls : List (DeviceOp × Bool)
  pending : Bool
  aborted : Bool
deriving DecidableEq, Repr

/-- Modelled from the spec: the status checks `check_cuda_error` and `sync_check_cuda_error`
(their header is not among the sources). A device operation failure is fatal for the step:
`check_cuda_error(call)` aborts when the call fails, `sync_check_cuda_error()` aborts when a
call made before it has failed; an abort leaves the function at once. `fails k` tells whether
the `k`-th device call of the run fails. -/
def runSteps (fails : Nat → Bool) : List Step → List (DeviceOp × Bool) → Bool → Outcome
  | [], calls, pending => { calls := calls, pending := pending, aborted := false }
  | Step.submit op :: rest, calls, pending =>
    runSteps fails rest (calls ++ [(op, !fails calls.length)]) (pending || fails calls.length)
  | Step.checked op :: rest, calls, pending =>
    if fails calls.length then
      { calls := calls ++ [(op, false)], pending := pending, aborted := true }
    else runSteps fails rest (calls ++ [(op, true)]) pending
  | Step.sync_check :: rest, calls, pending =>
    if pending then { calls := calls, pending := pending, aborted := true }
    else runSteps fails rest calls pending

/-- The secondary stream and the event held by the function: whether each is allocated. -/
structure Held where
  stream : Bool
  event : Bool
deriving DecidableEq, Repr

/-- Effect of one device call, with its status, on the resources held: a successful create
call allocates the stream or the event, a successful destroy call releases it, any other call
and any failed call leaves them as they are. -/
def holdStep (h : Held) (c : DeviceOp × Bool) : Held :=
  if c.2 = false then h
  else
    match c.1 with
    | DeviceOp.streamCreate => { h with stream := true }
    | DeviceOp.eventCreate => { h with event := true }
    | DeviceOp.streamDestroy => { h with stream := false }
    | DeviceOp.eventDestroy => { h with event := false }
    | _ => h

/-- The resources held when the function is left, after the device calls it made. -/
def heldAfter (calls : List (DeviceOp × Bool)) : Held :=
  calls.foldl holdStep { stream := false, event := false }

/-- Whether a device call submits work to a stream: the lookup kernel, a copy, the matrix
multiply, a collective or a transpose. The stream and event calls and the host-side wait
`cudaStreamSynchronize` submit none. -/
def DeviceOp.isSubmission : DeviceOp → Bool
  | DeviceOp.gemm _ _ _ _ _ => true
  | DeviceOp.allGather _ _ _ => true
  | DeviceOp.transposeAxis01 _ _ _ _ _ => true
  | DeviceOp.allGather2D _ _ _ _ _ _ _ _ _ => true
  | DeviceOp.embeddingLookup _ _ _ => true
  | DeviceOp.transpose102 _ _ _ _ _ => true
  | DeviceOp.memcpyAsync _ _ _ => true
  | DeviceOp.maskCopy _ => true
  | _ => false

/-- Whether a statement issues a device submission. -/
def Step.submits : Step → Bool
  | Step.submit op => op.isSubmission
  | Step.checked op => op.isSubmission
  | Step.sync_check => false

/-- Scan of a list of statements for the discipline "a status check follows every submission
before the next submission". The flag tells whether a submission has been issued since the
last status check; `sync_check_cuda_error()` clears it, and a submission wrapped in
`check_cuda_error` is checked at the call. The result is `none` when a submission is issued
while the flag is set, and the flag at the end of the list otherwise. -/
def checkedFrom : Bool → List Step → Option Bool
  | u, [] => some u
  | _, Step.sync_check :: rest => checkedFrom false rest
  | u, Step.submit op :: rest =>
    if op.isSubmission then (if u then none else checkedFrom true rest)
    else checkedFrom u rest
  | u, Step.checked op :: rest =>
    if op.isSubmission then (if u then none else checkedFrom false rest)
    else checkedFrom u rest

/-- Every submission of the list is followed by a status check before the next submission,
the last one before the end of the list. -/
def checkedBeforeNext (steps : List Step) : Bool :=
  checkedFrom false steps == some false

/-- The device statements of `updateEmbedding` in program order, from the state at the end of
the sequence loop: one `cudaMemcpyAsync` for each copy issued by the loop (line 154; the call
is not wrapped in `check_cuda_error` and no statement of the loop tests a status), then, when
a mask was requested and the flag is set, the copy of the host mask to `lora_mask` and
`cudaStreamSynchronize` (lines 164-167), then `sync_check_cuda_error()` (line 168). With
`isTuning()` the function returns before any of them. -/
def updateEmbeddingSteps {α : Type} (tuning lora_mask : Bool) (decoder_input : Ptr)
    (token_num : Int) (st : UpdateState α) : List Step :=
  if tuning then []
  else
    st.copies.map (fun cp =>
        Step.submit (DeviceOp.memcpyAsync
          { region := decoder_input.region, off := decoder_input.off + cp.dst }
          cp.src_off cp.count)) ++
      (if lora_mask && st.have_embeddings then
        [Step.submit (DeviceOp.maskCopy token_num), Step.submit DeviceOp.streamSynchronize]
       else []) ++
      [Step.sync_check]

/-- Lines 191-239 of `forwardUnified`: the statements that assemble the input embeddings.
`count_and_fix` stands for the statements of the call
`count_and_fix(decoder_input, token_num * hidden_units_, "embedding", 1)`, a helper that is
not among the sources. The quotient `hidden_units_ / tp_size_` is taken on integers, which
agrees with the unsigned division for a positive `tp_size_`. -/
def embeddingSteps (self : LlamaV2) (decoder_input decoder_output : Ptr) (token_num : Nat)
    (count_and_fix : List Step) : List Step :=
  if token_num = 0 then []
  else
    (if self.tp_size_ = 1 then
      [Step.submit (DeviceOp.embeddingLookup decoder_input token_num self.hidden_units_),
       Step.sync_check]
     else
      let local_hidden_units : Int := (self.hidden_units_ : Int) / self.tp_size_
      let slice : Int := (token_num : Int) * local_hidden_units
      let shard : Ptr :=
        { region := decoder_output.region, off := decoder_output.off + self.tp_rank_ * slice }
      [Step.submit (DeviceOp.embeddingLookup shard token_num local_hidden_units),
       Step.sync_check,
       Step.submit (DeviceOp.allGather shard decoder_output slice),
       Step.sync_check,
       Step.submit (DeviceOp.transpose102 decoder_input decoder_output self.tp_size_ token_num
         local_hidden_units),
       Step.sync_check]) ++
    count_and_fix

/-- The pointer arguments of `forwardUnified` that are only handed on to the decoder, by
address; `output_norm_weight` is `weights_->output_norm_weight`. -/
structure UnifiedPtrs where
  block_ptrs : Nat
  cu_block_cnts : Nat
  h_input_length : Nat
  h_context_length : Nat
  rope_theta : Nat
  finished : Nat
  local_token_nums : Nat
  output_norm_weight : Nat
deriving DecidableEq, Repr

/-- The initializer list of `inputs` in `forwardUnified` (lines 256-267); `bsz` is
`dc_batch_size + pf_batch_size`. -/
def unifiedInputs (self : LlamaV2) (p : UnifiedPtrs) (decoder_input : Ptr) (token_num : Nat)
    (dc_batch_size pf_batch_size : Int) : List (String × Tensor) :=
  let bsz : Int := dc_batch_size + pf_batch_size
  [("decoder_input", ⟨MemoryType.MEMORY_GPU, DataType.TYPE_MODEL,
      [token_num, self.hidden_units_], DataRef.device decoder_input⟩),
   ("output_norm_weight", ⟨MemoryType.MEMORY_GPU, DataType.TYPE_MODEL, [self.hidden_units_],
      DataRef.arg p.output_norm_weight⟩),
   ("h_q_len", ⟨MemoryType.MEMORY_CPU, DataType.TYPE_INT32, [bsz],
      DataRef.arg p.h_input_length⟩),
   ("h_k_len", ⟨MemoryType.MEMORY_CPU, DataType.TYPE_INT32, [bsz],
      DataRef.arg p.h_context_length⟩),
   ("finished", ⟨MemoryType.MEMORY_GPU, DataType.TYPE_BOOL, [bsz], DataRef.arg p.finished⟩),
   ("dc_batch_size", ⟨MemoryType.MEMORY_CPU, DataType.TYPE_INT32, [1],
      DataRef.localVar dc_batch_size⟩),
   ("pf_batch_size", ⟨MemoryType.MEMORY_CPU, DataType.TYPE_INT32, [1],
      DataRef.localVar pf_batch_size⟩),
   ("rope_theta", ⟨MemoryType.MEMORY_GPU, DataType.TYPE_FP32, [self.hidden_units_],
      DataRef.arg p.rope_theta⟩),
   ("cu_block_counts", ⟨MemoryType.MEMORY_GPU, DataType.TYPE_INT32, [bsz],
      DataRef.arg p.cu_block_cnts⟩),
   ("local_token_nums", ⟨MemoryType.MEMORY_GPU, DataType.TYPE_INT32, [1],
      DataRef.arg p.local_token_nums⟩)]

/-- The initializer list of `outputs` in `forwardUnified` (lines 269-271). -/
def unifiedOutputs (self : LlamaV2) (p : UnifiedPtrs) (out decoder_output : Ptr)
    (token_num : Nat) (dc_batch_size pf_batch_size : Int) : List (String × Tensor) :=
  let bsz : Int := dc_batch_size + pf_batch_size
  [("decoder_output", ⟨MemoryType.MEMORY_GPU, DataType.TYPE_MODEL,
      [token_num, self.hidden_units_], DataRef.device decoder_output⟩),
   ("block_ptrs", ⟨MemoryType.MEMORY_GPU, DataType.TYPE_UINT64, [bsz],
      DataRef.arg p.block_ptrs⟩),
   ("last_token_hidden_units", ⟨MemoryType.MEMORY_GPU, DataType.TYPE_MODEL,
      [bsz, self.hidden_units_], DataRef.device out⟩)]

/-- Modelled from the spec: construction of a `TensorMap` from an initializer list (its header
is not among the sources). Keys are unique within one map: an entry whose key is already in
the map is not added. -/
def TensorMap.ofList (l : List (String × Tensor)) : TensorMap :=
  ⟨UnorderedMap.ofList l⟩

/-- Modelled from the spec: `TensorMap::insert` of a key and tensor pair; keys stay unique
within the map. -/
def TensorMap.insert (m : TensorMap) (kv : String × Tensor) : TensorMap :=
  ⟨UnorderedMap.insert m.entries kv⟩

/-- The keys of a tensor map, in insertion order. -/
def TensorMap.keys (m : TensorMap) : List String := m.entries.map Prod.fst

/-- The map `inputs` that `forwardUnified` hands to the decoder: the initializer list (lines
256-267) and the insertion of `lora_mask` under
`lora_mask != nullptr && have_embeddings` (lines 273-275). -/
def decoderInputs (self : LlamaV2) (p : UnifiedPtrs) (decoder_input : Ptr) (token_num : Nat)
    (dc_batch_size pf_batch_size : Int) (lora_mask : Option Nat) (have_embeddings : Bool) :
    TensorMap :=
  let inputs := TensorMap.ofList
    (unifiedInputs self p decoder_input token_num dc_batch_size pf_batch_size)
  match lora_mask with
  | some addr =>
    if have_embeddings then
      inputs.insert ("lora_mask", ⟨MemoryType.MEMORY_GPU, DataType.TYPE_INT32, [token_num],
        DataRef.arg addr⟩)
    else inputs
  | none => inputs

/-- What `forwardUnified` has done when it calls `unified_decoder_->forward`: the device
statements executed, the two maps handed to the decoder, and the local `have_embeddings`. -/
structure ForwardUnifiedResult where
  steps : List Step
  inputs : TensorMap
  outputs : TensorMap
  have_embeddings : Bool
deriving DecidableEq, Repr

/-- The function `LlamaV2<T>::forwardUnified` up to the call of the decoder. `tuning` is
`isTuning()`, `lora_mask` is `none` for a null pointer, `h_input_length` gives the elements
of the array of that name; `int` values are unbounded integers as in `updateEmbedding`. The
result is `none` when `updateEmbedding` indexes a vector outside its bounds. -/
def forwardUnified {α : Type} (self : LlamaV2) (tuning : Bool) (count_and_fix : List Step)
    (out decoder_output decoder_input : Ptr) (p : UnifiedPtrs) (h_input_length : Nat → Int)
    (token_num : Nat) (dc_batch_size pf_batch_size : Int) (lora_mask : Option Nat)
    (sequences : Nat → Sequence α) : Option ForwardUnifiedResult :=
  let assembled := embeddingSteps self decoder_input decoder_output token_num count_and_fix
  let updated : Option (List Step × Bool) :=
    if token_num = 0 then some ([], false)
    else
      (updateEmbedding self.hidden_units_ tuning (dc_batch_size + pf_batch_size)
          h_input_length sequences lora_mask.isSome false).map
        (fun st =>
          (updateEmbeddingSteps tuning lora_mask.isSome decoder_input token_num st ++
            [Step.sync_check], st.have_embeddings))
  updated.map (fun upd =>
    { steps := assembled ++ upd.1
      inputs := decoderInputs self p decoder_input token_num dc_batch_size pf_batch_size
        lora_mask upd.2
      outputs := TensorMap.ofList
        (unifiedOutputs self p out decoder_output token_num dc_batch_size pf_batch_size)
      have_embeddings := upd.2 })

/-- A sample set of pointer arguments. -/
def samplePtrs : UnifiedPtrs :=
  { block_ptrs := 1, cu_block_cnts := 2, h_input_length := 3, h_context_length := 4,
    rope_theta := 5, finished := 6, local_token_nums := 7, output_norm_weight := 8 }

/-- A sample single-device model instance with one hidden unit. -/
def singleModel : LlamaV2 :=
  { tp_size_ := 1, tp_rank_ := 0, hidden_units_ := 1, vocab_size_ := 5,
    vocab_size_padded_ := 5, use_allgather_2d_ := false }

/-! ## Theorems -/

theorem rangeAction_copy {c len b e : Int} (h1 : ¬ c + len - 1 < b) (h2 : ¬ e ≤ c) :
    rangeAction c len (b, e) =
      RangeAction.copy (max 0 (b - c)) (max 0 (c - b)) (max b c) (min e (c + len)) := by
  simp [rangeAction, h1, h2]

theorem row_le_iff (a t k : Int) (H : Nat) (hk0 : 0 ≤ k) (hk : k < H) :
    a * H ≤ t * H + k ↔ a ≤ t := by
  constructor
  · intro h
    by_contra hlt
    have h1 : t + 1 ≤ a := by omega
    have h2 : (t + 1) * (H : Int) ≤ a * H :=
      Int.mul_le_mul_of_nonneg_right h1 (by omega)
    have h3 : (t + 1) * (H : Int) = t * H + H := by ring
    omega
  · intro h
    have h2 : a * (H : Int) ≤ t * H := Int.mul_le_mul_of_nonneg_right h (by omega)
    omega

theorem row_lt_iff (a t k : Int) (H : Nat) (hk0 : 0 ≤ k) (hk : k < H) :
    t * H + k < a * H ↔ t < a := by
  have h := row_le_iff a t k H hk0 hk
  constructor
  · intro h1
    by_contra h2
    have : a ≤ t := by omega
    have := h.mpr this
    omega
  · intro h1
    by_contra h2
    have : a * (H : Int) ≤ t * H + k := by omega
    have := h.mp this
    omega

/-- Row form of `Memcpy.covers` for a copy whose destination and length are whole rows. -/
theorem covers_row {α : Type} (cp : Memcpy α) (H : Nat) (cur d n t k : Int)
    (hdst : cp.dst = cur + d * H) (hcnt : cp.count = n * H) (hk0 : 0 ≤ k) (hk : k < H) :
    cp.covers (cur + t * H + k) ↔ d ≤ t ∧ t < d + n := by
  unfold Memcpy.covers
  rw [hdst, hcnt]
  have e1 : cur + d * (H : Int) + n * H = cur + (d + n) * H := by ring
  rw [e1]
  have h1 := row_le_iff d t k H hk0 hk
  have h2 := row_lt_iff (d + n) t k H hk0 hk
  constructor
  · rintro ⟨a, b⟩
    exact ⟨h1.mp (by omega), h2.mp (by omega)⟩
  · rintro ⟨a, b⟩
    have := h1.mpr a
    have := h2.mpr b
    constructor <;> omega

theorem issueCopy_copies {α : Type} (H : Nat) (lm : Bool) (cur mptr : Int) (emb : Int → α)
    (od os b1 e1 : Int) (st : UpdateState α) :
    (issueCopy H lm cur mptr emb od os b1 e1 st).copies =
      st.copies ++ [rangeCopy H cur emb od os b1 e1] := by
  unfold issueCopy
  cases lm <;> simp

theorem zip_getElem?_some {α β : Type} (l₁ : List α) (l₂ : List β) (j : Nat) (a : α) (b : β)
    (h1 : l₁[j]? = some a) (h2 : l₂[j]? = some b) : (l₁.zip l₂)[j]? = some (a, b) := by
  rw [List.getElem?_zip_eq_some]
  exact ⟨h1, h2⟩

/-- The scan of the ranges `j - 1, ..., 0` succeeds when every index has an embedding and a
range, and appends to the copies those listed by `scanCopies`. -/
theorem scanRanges_eq_scanCopies {α : Type} (H : Nat) (lm : Bool) (c len cur mptr : Int)
    (embeddings : List (Int → α)) (ranges : List (Int × Int)) :
    ∀ (j : Nat) (st : UpdateState α), j ≤ embeddings.length → j ≤ ranges.length →
      ∃ st1, scanRanges H lm c len embeddings ranges cur mptr j st = some st1 ∧
        st1.copies = st.copies ++
          scanCopies H c len cur ((embeddings.zip ranges).take j).reverse := by
  intro j
  induction j with
  | zero =>
    intro st _ _
    exact ⟨st, rfl, by simp [scanCopies]⟩
  | succ j ih =>
    intro st h1 h2
    have hj1 : j < embeddings.length := h1
    have hj2 : j < ranges.length := h2
    have he : embeddings[j]? = some embeddings[j] := List.getElem?_eq_getElem hj1
    have hr : ranges[j]? = some ranges[j] := List.getElem?_eq_getElem hj2
    have hz := zip_getElem?_some embeddings ranges j _ _ he hr
    have htake : ((embeddings.zip ranges).take (j + 1)).reverse =
        (embeddings[j], ranges[j]) :: ((embeddings.zip ranges).take j).reverse := by
      rw [List.take_succ, hz]
      simp
    rw [htake, scanRanges, he, hr]
    simp only [scanCopies]
    cases hact : rangeAction c len ranges[j] with
    | skip =>
      simp only []
      exact ih st (by omega) (by omega)
    | stop =>
      exact ⟨st, rfl, by simp⟩
    | copy od os b1 e1 =>
      simp only []
      obtain ⟨st1, hs, hc⟩ := ih (issueCopy H lm cur mptr embeddings[j] od os b1 e1 st)
        (by omega) (by omega)
      refine ⟨st1, hs, ?_⟩
      rw [hc, issueCopy_copies]
      simp

theorem seqLoop_eq_batchCopies {α : Type} (H : Nat) (lm : Bool) (lens : Nat → Int)
    (seqs : Nat → Sequence α) :
    ∀ (n i : Nat) (cur mptr : Int) (st : UpdateState α),
      (∀ m, i ≤ m → m < i + n →
        (seqs m).input_embedding_ranges.length = (seqs m).input_embeddings.length) →
      ∃ st1, seqLoop H lm lens seqs n i cur mptr st = some st1 ∧
        st1.copies = st.copies ++ batchCopies H lens seqs n i cur := by
  intro n
  induction n with
  | zero =>
    intro i cur mptr st _
    exact ⟨st, rfl, by simp [batchCopies]⟩
  | succ n ih =>
    intro i cur mptr st hp
    have hlen := hp i (Nat.le_refl i) (by omega)
    obtain ⟨st1, hs1, hc1⟩ := scanRanges_eq_scanCopies H lm (seqs i).cache_len (lens i) cur mptr
      (seqs i).input_embeddings (seqs i).input_embedding_ranges
      (seqs i).input_embeddings.length st (Nat.le_refl _) (by omega)
    obtain ⟨st2, hs2, hc2⟩ := ih (i + 1) (cur + lens i * H) (mptr + lens i) st1
      (fun m h1 h2 => hp m (by omega) (by omega))
    refine ⟨st2, ?_, ?_⟩
    · rw [seqLoop]
      simp only [hs1]
      exact hs2
    · rw [hc2, hc1, batchCopies, Sequence.visitOrder]
      have hz : ((seqs i).input_embeddings.zip (seqs i).input_embedding_ranges).take
          (seqs i).input_embeddings.length =
          (seqs i).input_embeddings.zip (seqs i).input_embedding_ranges := by
        apply List.take_of_length_le
        simp [List.length_zip]
      rw [hz]
      simp

theorem applyCopies_nil {α : Type} (buf : Int → α) : applyCopies buf [] = buf := rfl

theorem applyCopies_cons {α : Type} (buf : Int → α) (cp : Memcpy α) (cps : List (Memcpy α)) :
    applyCopies buf (cp :: cps) = applyCopies (applyCopy buf cp) cps := rfl

theorem applyCopies_append {α : Type} (buf : Int → α) (a b : List (Memcpy α)) :
    applyCopies buf (a ++ b) = applyCopies (applyCopies buf a) b := by
  simp [applyCopies, List.foldl_append]

theorem applyCopies_not_covered {α : Type} (cps : List (Memcpy α)) :
    ∀ (buf : Int → α) (x : Int), (∀ cp ∈ cps, ¬ cp.covers x) →
      applyCopies buf cps x = buf x := by
  induction cps with
  | nil => intro buf x _; rfl
  | cons cp cps ih =>
    intro buf x h
    rw [applyCopies_cons, ih _ x (fun q hq => h q (List.mem_cons_of_mem _ hq))]
    unfold applyCopy
    rw [if_neg (h cp (List.mem_cons_self _ _))]

theorem rangeAction_cases (c len b e : Int) :
    (c + len - 1 < b ∧ rangeAction c len (b, e) = RangeAction.skip) ∨
    (¬ c + len - 1 < b ∧ e ≤ c ∧ rangeAction c len (b, e) = RangeAction.stop) ∨
    (¬ c + len - 1 < b ∧ ¬ e ≤ c ∧ rangeAction c len (b, e) =
      RangeAction.copy (max 0 (b - c)) (max 0 (c - b)) (max b c) (min e (c + len))) := by
  by_cases h1 : c + len - 1 < b
  · left; exact ⟨h1, by simp [rangeAction, h1]⟩
  · by_cases h2 : e ≤ c
    · right; left; exact ⟨h1, h2, by simp [rangeAction, h1, h2]⟩
    · right; right; exact ⟨h1, h2, rangeAction_copy h1 h2⟩

/-- Effect of the copy of one range on the row of position `p` of the current sequence. -/
theorem applyCopy_rangeCopy_row {α : Type} (H : Nat) (c len cur b e : Int) (emb : Int → α)
    (buf : Int → α) (p k : Int) (hk0 : 0 ≤ k) (hk : k < H) :
    applyCopy buf (rangeCopy H cur emb (max 0 (b - c)) (max 0 (c - b)) (max b c)
        (min e (c + len))) (cur + (p - c) * H + k) =
      if b ≤ p ∧ p < e ∧ c ≤ p ∧ p < c + len then emb ((p - b) * H + k)
      else buf (cur + (p - c) * H + k) := by
  have hcov := covers_row
    (rangeCopy H cur emb (max 0 (b - c)) (max 0 (c - b)) (max b c) (min e (c + len)))
    H cur (max 0 (b - c)) (min e (c + len) - max b c) (p - c) k rfl rfl hk0 hk
  unfold applyCopy
  by_cases hin : b ≤ p ∧ p < e ∧ c ≤ p ∧ p < c + len
  · have hc1 : max 0 (b - c) ≤ p - c ∧ p - c < max 0 (b - c) + (min e (c + len) - max b c) := by
      omega
    rw [if_pos (hcov.mpr hc1), if_pos hin]
    have h3 : max 0 (c - b) - max 0 (b - c) = c - b := by omega
    have h4 : max 0 (c - b) * (H : Int) + (cur + (p - c) * H + k - (cur + max 0 (b - c) * H))
        = (p - b) * H + k := by
      linear_combination (H : Int) * h3
    show emb (max 0 (c - b) * (H : Int) +
      (cur + (p - c) * H + k - (cur + max 0 (b - c) * H))) = emb _
    rw [h4]
  · have hc1 : ¬ (max 0 (b - c) ≤ p - c ∧
        p - c < max 0 (b - c) + (min e (c + len) - max b c)) := by
      omega
    rw [if_neg (fun h => hc1 (hcov.mp h)), if_neg hin]

/-- Every copy of the scan of one sequence stays inside the slice of that sequence. -/
theorem scanCopies_covers_slice {α : Type} (H : Nat) (c len cur : Int) :
    ∀ (L : List ((Int → α) × (Int × Int))) (cp : Memcpy α),
      cp ∈ scanCopies H c len cur L → ∀ x, cp.covers x → cur ≤ x ∧ x < cur + len * H := by
  intro L
  induction L with
  | nil => intro cp h; simp [scanCopies] at h
  | cons hd rest ih =>
    obtain ⟨emb, b, e⟩ := hd
    intro cp hmem x hx
    rcases rangeAction_cases c len b e with ⟨_, ha⟩ | ⟨_, _, ha⟩ | ⟨h1, h2, ha⟩
    · simp only [scanCopies, ha] at hmem
      exact ih cp hmem x hx
    · simp [scanCopies, ha] at hmem
    · simp only [scanCopies, ha, List.mem_cons] at hmem
      rcases hmem with rfl | hmem
      · unfold Memcpy.covers rangeCopy at hx
        simp only at hx
        have hH : (0 : Int) ≤ H := by omega
        have e1 : (0 : Int) ≤ max 0 (b - c) * H := Int.mul_nonneg (by omega) hH
        have e2 : (max 0 (b - c) + (min e (c + len) - max b c)) * (H : Int) ≤ len * H :=
          Int.mul_le_mul_of_nonneg_right (by omega) hH
        have e3 : (max 0 (b - c) + (min e (c + len) - max b c)) * (H : Int) =
            max 0 (b - c) * H + (min e (c + len) - max b c) * H := by ring
        constructor <;> omega
      · exact ih cp hmem x hx


/-- Effect of the copies of one sequence on the row of a window position `p`, when the ranges
are well-formed and, in visiting order, each range lies before the ranges visited earlier:
the row holds the embedding row of the range containing `p`, if any, and is unchanged
otherwise. -/
theorem scanCopies_apply_disjoint {α : Type} (H : Nat) (c len cur : Int) (p k : Int)
    (hp0 : c ≤ p) (hp1 : p < c + len) (hk0 : 0 ≤ k) (hk : k < H) :
    ∀ (L : List ((Int → α) × (Int × Int))) (buf : Int → α),
      (∀ x ∈ L, x.2.1 ≤ x.2.2) →
      L.Pairwise (fun x y => y.2.2 ≤ x.2.1) →
      (∀ emb b e, (emb, (b, e)) ∈ L → b ≤ p → p < e →
        applyCopies buf (scanCopies H c len cur L) (cur + (p - c) * H + k) =
          emb ((p - b) * H + k)) ∧
      ((∀ x ∈ L, ¬ (x.2.1 ≤ p ∧ p < x.2.2)) →
        applyCopies buf (scanCopies H c len cur L) (cur + (p - c) * H + k) =
          buf (cur + (p - c) * H + k)) := by
  intro L
  induction L with
  | nil =>
    intro buf _ _
    exact ⟨fun emb b e h => by simp at h, fun _ => rfl⟩
  | cons hd rest ih =>
    obtain ⟨emb0, b0, e0⟩ := hd
    intro buf hwf hdesc
    have hwf0 : b0 ≤ e0 := hwf (emb0, (b0, e0)) (List.mem_cons_self _ _)
    have hwfr : ∀ x ∈ rest, x.2.1 ≤ x.2.2 := fun x hx => hwf x (List.mem_cons_of_mem _ hx)
    rw [List.pairwise_cons] at hdesc
    obtain ⟨hd0, hdr⟩ := hdesc
    have hd1 : ∀ y ∈ rest, y.2.2 ≤ b0 := fun y hy => hd0 y hy
    rcases rangeAction_cases c len b0 e0 with ⟨h1, ha⟩ | ⟨h1, h2, ha⟩ | ⟨h1, h2, ha⟩
    · -- skipped: the head range starts after the window
      simp only [scanCopies, ha]
      obtain ⟨ih1, ih2⟩ := ih buf hwfr hdr
      constructor
      · intro emb b e hmem hb he
        rcases List.mem_cons.mp hmem with heq | hmem
        · have : b = b0 := by injection heq with _ h; injection h
          omega
        · exact ih1 emb b e hmem hb he
      · intro hnone
        exact ih2 (fun x hx => hnone x (List.mem_cons_of_mem _ hx))
    · -- stop: the head range and all ranges after it in visiting order end before the window
      simp only [scanCopies, ha]
      constructor
      · intro emb b e hmem hb he
        rcases List.mem_cons.mp hmem with heq | hmem
        · have : e = e0 := by injection heq with _ h; injection h
          omega
        · have := hd1 _ hmem
          simp only at this
          omega
      · intro _
        rfl
    · -- copy
      simp only [scanCopies, ha, applyCopies_cons]
      obtain ⟨ih1, ih2⟩ := ih
        (applyCopy buf (rangeCopy H cur emb0 (max 0 (b0 - c)) (max 0 (c - b0)) (max b0 c)
          (min e0 (c + len)))) hwfr hdr
      have hrow := applyCopy_rangeCopy_row H c len cur b0 e0 emb0 buf p k hk0 hk
      constructor
      · intro emb b e hmem hb he
        rcases List.mem_cons.mp hmem with heq | hmem
        · have hb' : b = b0 := by injection heq with _ h; injection h
          have he' : e = e0 := by injection heq with _ h; injection h
          have hemb : emb = emb0 := by injection heq
          subst hb' he' hemb
          rw [ih2 (fun y hy hcov => by have := hd1 y hy; omega), hrow, if_pos ⟨hb, he, hp0, hp1⟩]
        · exact ih1 emb b e hmem hb he
      · intro hnone
        rw [ih2 (fun x hx => hnone x (List.mem_cons_of_mem _ hx)), hrow, if_neg]
        intro hin
        exact hnone (emb0, (b0, e0)) (List.mem_cons_self _ _) ⟨hin.1, hin.2.1⟩

theorem tokenOffset_mono (lens : Nat → Int) (i : Nat) :
    ∀ (d : Nat), (∀ m, i ≤ m → m < i + d → 0 ≤ lens m) →
      tokenOffset lens i ≤ tokenOffset lens (i + d) := by
  intro d
  induction d with
  | zero => intro _; exact Int.le_refl _
  | succ d ih =>
    intro h
    have h1 := ih (fun m h1 h2 => h m h1 (by omega))
    have h2 := h (i + d) (by omega) (by omega)
    show tokenOffset lens i ≤ tokenOffset lens (i + d) + lens (i + d)
    omega

/-- Every copy of the iterations `i, i + 1, ...` of the sequence loop writes at or after the
cursor of sequence `i`, the token counts being non-negative. -/
theorem batchCopies_covers_ge {α : Type} (H : Nat) (lens : Nat → Int) (seqs : Nat → Sequence α) :
    ∀ (n i : Nat) (cur : Int), (∀ m, i ≤ m → m < i + n → 0 ≤ lens m) →
      ∀ cp ∈ batchCopies H lens seqs n i cur, ∀ x, cp.covers x → cur ≤ x := by
  intro n
  induction n with
  | zero => intro i cur _ cp h; simp [batchCopies] at h
  | succ n ih =>
    intro i cur hlen cp hmem x hx
    rw [batchCopies, List.mem_append] at hmem
    rcases hmem with hmem | hmem
    · exact (scanCopies_covers_slice H _ _ cur _ cp hmem x hx).1
    · have h1 := ih (i + 1) (cur + lens i * H) (fun m h1 h2 => hlen m (by omega) (by omega))
        cp hmem x hx
      have h2 : (0 : Int) ≤ lens i * H :=
        Int.mul_nonneg (hlen i (Nat.le_refl _) (by omega)) (by omega)
      omega

/-- Effect of the copies of a whole batch on the row of a window position `p` of sequence
`i1`: only the copies of that sequence touch the row. -/
theorem batchCopies_apply_disjoint {α : Type} (H : Nat) (lens : Nat → Int)
    (seqs : Nat → Sequence α) :
    ∀ (n i : Nat) (cur : Int) (buf : Int → α),
      (∀ m, i ≤ m → m < i + n → 0 ≤ lens m) →
      (∀ m, i ≤ m → m < i + n → ∀ x ∈ (seqs m).visitOrder, x.2.1 ≤ x.2.2) →
      (∀ m, i ≤ m → m < i + n → (seqs m).visitOrder.Pairwise (fun x y => y.2.2 ≤ x.2.1)) →
      ∀ (i1 : Nat), i ≤ i1 → i1 < i + n → ∀ (p k x : Int),
        (seqs i1).cache_len ≤ p → p < (seqs i1).cache_len + lens i1 → 0 ≤ k → k < H →
        x = cur + (tokenOffset lens i1 - tokenOffset lens i) * H +
              (p - (seqs i1).cache_len) * H + k →
        (∀ emb b e, (emb, (b, e)) ∈ (seqs i1).visitOrder → b ≤ p → p < e →
          applyCopies buf (batchCopies H lens seqs n i cur) x = emb ((p - b) * H + k)) ∧
        ((∀ y ∈ (seqs i1).visitOrder, ¬ (y.2.1 ≤ p ∧ p < y.2.2)) →
          applyCopies buf (batchCopies H lens seqs n i cur) x = buf x) := by
  intro n
  induction n with
  | zero => intro i cur buf _ _ _ i1 h1 h2; omega
  | succ n ih =>
    intro i cur buf hlen hwf hdesc i1 hi1 hi2 p k x hp0 hp1 hk0 hk hx
    rw [batchCopies, applyCopies_append]
    have hH : (0 : Int) ≤ H := by omega
    by_cases hii : i1 = i
    · subst hii
      have hx1 : x = cur + (p - (seqs i1).cache_len) * H + k := by
        rw [hx]; ring
      have hlt : (p - (seqs i1).cache_len) * (H : Int) + k < lens i1 * H :=
        (row_lt_iff (lens i1) (p - (seqs i1).cache_len) k H hk0 hk).mpr (by omega)
      have hB : ∀ cp ∈ batchCopies H lens seqs n (i1 + 1) (cur + lens i1 * H),
          ¬ cp.covers x := by
        intro cp hcp hcov
        have := batchCopies_covers_ge H lens seqs n (i1 + 1) (cur + lens i1 * H)
          (fun m h1 h2 => hlen m (by omega) (by omega)) cp hcp x hcov
        omega
      rw [applyCopies_not_covered _ _ x hB, hx1]
      exact scanCopies_apply_disjoint H (seqs i1).cache_len (lens i1) cur p k hp0 hp1 hk0 hk
        (seqs i1).visitOrder buf (hwf i1 (Nat.le_refl _) (by omega))
        (hdesc i1 (Nat.le_refl _) (by omega))
    · have hi1' : i + 1 ≤ i1 := by omega
      have hx1 : x = (cur + lens i * H) +
          (tokenOffset lens i1 - tokenOffset lens (i + 1)) * H +
            (p - (seqs i1).cache_len) * H + k := by
        rw [hx]
        show _ = cur + lens i * H +
          (tokenOffset lens i1 - (tokenOffset lens i + lens i)) * H +
            (p - (seqs i1).cache_len) * H + k
        ring
      obtain ⟨r1, r2⟩ := ih (i + 1) (cur + lens i * H)
        (applyCopies buf
          (scanCopies H (seqs i).cache_len (lens i) cur (seqs i).visitOrder))
        (fun m h1 h2 => hlen m (by omega) (by omega))
        (fun m h1 h2 => hwf m (by omega) (by omega))
        (fun m h1 h2 => hdesc m (by omega) (by omega))
        i1 hi1' (by omega) p k x hp0 hp1 hk0 hk hx1
      refine ⟨r1, fun hnone => ?_⟩
      rw [r2 hnone]
      apply applyCopies_not_covered
      intro cp hcp hcov
      have hs := (scanCopies_covers_slice H _ _ cur _ cp hcp x hcov).2
      have hmono : tokenOffset lens (i + 1) ≤ tokenOffset lens i1 := by
        have := tokenOffset_mono lens (i + 1) (i1 - (i + 1))
          (fun m h1 h2 => hlen m (by omega) (by omega))
        rwa [show i + 1 + (i1 - (i + 1)) = i1 by omega] at this
      have e1 : (0 : Int) ≤ (tokenOffset lens i1 - tokenOffset lens (i + 1)) * H :=
        Int.mul_nonneg (by omega) hH
      have e2 : (0 : Int) ≤ (p - (seqs i1).cache_len) * H :=
        Int.mul_nonneg (by omega) hH
      omega

theorem visitOrder_mem_of_getElem? {α : Type} (seq : Sequence α) (j : Nat) (emb : Int → α)
    (r : Int × Int) (h1 : seq.input_embeddings[j]? = some emb)
    (h2 : seq.input_embedding_ranges[j]? = some r) : (emb, r) ∈ seq.visitOrder := by
  unfold Sequence.visitOrder
  rw [List.mem_reverse]
  exact List.getElem?_mem (zip_getElem?_some _ _ j emb r h1 h2)

theorem visitOrder_range_mem {α : Type} (seq : Sequence α) (x : (Int → α) × (Int × Int))
    (h : x ∈ seq.visitOrder) : x.2 ∈ seq.input_embedding_ranges := by
  unfold Sequence.visitOrder at h
  rw [List.mem_reverse] at h
  obtain ⟨emb, r⟩ := x
  exact (List.of_mem_zip h).2

theorem visitOrder_pairwise {α : Type} (seq : Sequence α)
    (hlen : seq.input_embedding_ranges.length = seq.input_embeddings.length)
    (h : seq.input_embedding_ranges.Pairwise (fun r1 r2 => r1.2 ≤ r2.1)) :
    seq.visitOrder.Pairwise (fun x y => y.2.2 ≤ x.2.1) := by
  unfold Sequence.visitOrder
  rw [List.pairwise_reverse]
  have hm := List.map_snd_zip seq.input_embeddings seq.input_embedding_ranges (by omega)
  rw [← hm, List.pairwise_map] at h
  exact h

theorem wrapInt_eq (x : Int) (h0 : -2147483648 ≤ x) (h1 : x < 2147483648) : wrapInt x = x := by
  unfold wrapInt
  omega

/-- Without overflow `pad_vocab_size` is the exact quotient times `tp`. -/
theorem pad_vocab_size_eq (v tp : Int) (hv : 0 ≤ v) (htp : 1 ≤ tp)
    (hno : v + tp < 2147483648) : pad_vocab_size v tp = (v + tp - 1) / tp * tp := by
  unfold pad_vocab_size
  rw [wrapInt_eq (v + tp) (by omega) hno, wrapInt_eq (v + tp - 1) (by omega) (by omega),
    Int.tdiv_eq_ediv (by omega) (by omega)]
  have hq0 : 0 ≤ (v + tp - 1) / tp := Int.ediv_nonneg (by omega) (by omega)
  have hdm := Int.ediv_add_emod' (v + tp - 1) tp
  have hm0 := Int.emod_nonneg (v + tp - 1) (show tp ≠ 0 by omega)
  have hq1 : (v + tp - 1) / tp ≤ (v + tp - 1) / tp * tp := by
    have := Int.mul_le_mul_of_nonneg_left htp hq0
    rw [Int.mul_one] at this
    exact this
  rw [wrapInt_eq ((v + tp - 1) / tp) (by omega) (by omega),
    wrapInt_eq ((v + tp - 1) / tp * tp) (by omega) (by omega)]

theorem lookup_singleton (k : String) (v : Tensor) (q : String) :
    List.lookup q [(k, v)] = if q = k then some v else none := by
  by_cases hqk : q = k
  · subst hqk; simp
  · have hb : (q == k) = false := by simpa using hqk
    simp [List.lookup, hb, hqk]

theorem lookup_cons_ite (k : String) (v : Tensor) (l : List (String × Tensor)) (q : String) :
    List.lookup q ((k, v) :: l) = if q = k then some v else List.lookup q l := by
  by_cases hqk : q = k
  · subst hqk; simp
  · have hb : (q == k) = false := by simpa using hqk
    simp [List.lookup, hb, hqk]

theorem lookup_insert (m : UnorderedMap) (k : String) (v : Tensor) (q : String) :
    List.lookup q (UnorderedMap.insert m (k, v)) =
      match List.lookup q m with
      | some t => some t
      | none => if q = k then some v else none := by
  unfold UnorderedMap.insert
  by_cases h : (List.lookup k m).isSome = true
  · simp only [h, if_true]
    cases hq : List.lookup q m with
    | some t => rfl
    | none =>
      by_cases hqk : q = k
      · subst hqk; rw [hq] at h; simp at h
      · simp [hqk]
  · simp only [h]
    rw [if_neg (by simp), List.lookup_append, lookup_singleton]
    cases hq : List.lookup q m with
    | some t => simp
    | none => simp

theorem lookup_foldl_insert (l : List (String × Tensor)) :
    ∀ (acc : UnorderedMap) (q : String),
      List.lookup q (l.foldl UnorderedMap.insert acc) =
        match List.lookup q acc with
        | some t => some t
        | none => List.lookup q l := by
  induction l with
  | nil => intro acc q; cases hq : List.lookup q acc <;> simp [hq]
  | cons kv l ih =>
    obtain ⟨k, v⟩ := kv
    intro acc q
    rw [List.foldl_cons, ih, lookup_insert, lookup_cons_ite]
    cases hq : List.lookup q acc with
    | some t => rfl
    | none =>
      by_cases hqk : q = k
      · subst hqk; simp
      · simp [hqk]

theorem lookup_ofList (l : List (String × Tensor)) (q : String) :
    List.lookup q (UnorderedMap.ofList l) = List.lookup q l := by
  unfold UnorderedMap.ofList
  rw [lookup_foldl_insert]
  rfl

theorem lookup_forwardOptional (src : TensorMap) (m : UnorderedMap) (k q : String) :
    List.lookup q (forwardOptional src m k) =
      match List.lookup q m with
      | some t => some t
      | none => if q = k then List.lookup q src.entries else none := by
  unfold forwardOptional TensorMap.isExist TensorMap.at
  cases hk : List.lookup k src.entries with
  | none =>
    simp only [Option.isSome_none, Bool.false_eq_true, if_false]
    cases hq : List.lookup q m with
    | some t => rfl
    | none =>
      by_cases hqk : q = k
      · subst hqk; simp [hk]
      · simp [hqk]
  | some t =>
    simp only [Option.isSome_some, if_true]
    rw [lookup_insert]
    cases hq : List.lookup q m with
    | some t => rfl
    | none =>
      by_cases hqk : q = k
      · subst hqk; simp [hk]
      · simp [hqk]

theorem lookup_foldl_forwardOptional (src : TensorMap) (keys : List String) :
    ∀ (m : UnorderedMap) (q : String),
      List.lookup q (keys.foldl (forwardOptional src) m) =
        match List.lookup q m with
        | some t => some t
        | none => if q ∈ keys then List.lookup q src.entries else none := by
  induction keys with
  | nil => intro m q; cases hq : List.lookup q m <;> simp [hq]
  | cons k keys ih =>
    intro m q
    rw [List.foldl_cons, ih, lookup_forwardOptional]
    cases hq : List.lookup q m with
    | some t => rfl
    | none =>
      by_cases hqk : q = k
      · subst hqk
        cases hs : List.lookup q src.entries <;> simp [hs]
      · simp [hqk]

/-- A property of the state kept by every copy step of a scan is kept by the scan. -/
theorem scanRanges_preserves {α : Type} (H : Nat) (lm : Bool) (c len cur mptr : Int)
    (embeddings : List (Int → α)) (ranges : List (Int × Int)) (P : UpdateState α → Prop)
    (hP : ∀ (st : UpdateState α) (emb : Int → α) (b e : Int), P st →
      P (issueCopy H lm cur mptr emb (max 0 (b - c)) (max 0 (c - b)) (max b c)
        (min e (c + len)) st)) :
    ∀ (j : Nat) (st st1 : UpdateState α),
      scanRanges H lm c len embeddings ranges cur mptr j st = some st1 → P st → P st1 := by
  intro j
  induction j with
  | zero =>
    intro st st1 h hp
    simp only [scanRanges, Option.some.injEq] at h
    exact h ▸ hp
  | succ j ih =>
    intro st st1 h hp
    rw [scanRanges] at h
    cases he : embeddings[j]? with
    | none => simp [he] at h
    | some emb =>
      cases hr : ranges[j]? with
      | none => simp [he, hr] at h
      | some r =>
        obtain ⟨b, e⟩ := r
        simp only [he, hr] at h
        rcases rangeAction_cases c len b e with ⟨_, ha⟩ | ⟨_, _, ha⟩ | ⟨_, _, ha⟩
        · simp only [ha] at h
          exact ih st st1 h hp
        · simp only [ha, Option.some.injEq] at h
          exact h ▸ hp
        · simp only [ha] at h
          exact ih _ st1 h (hP st emb b e hp)

/-- The mask agrees with the copies: a cell is 1 when a copy covers its whole row and 0
otherwise. -/
theorem issueCopy_mask_agrees {α : Type} (H : Nat) (hH : 0 < H) (cur mptr : Int)
    (hcur : cur = mptr * H) (emb : Int → α) (od os b1 e1 : Int) (st : UpdateState α)
    (hst : ∀ t, (st.mask t = 1 ∨ st.mask t = 0) ∧
      (st.mask t = 1 ↔ ∃ cp ∈ st.copies, ∀ k, 0 ≤ k → k < (H : Int) → cp.covers (t * H + k))) :
    ∀ t, ((issueCopy H true cur mptr emb od os b1 e1 st).mask t = 1 ∨
        (issueCopy H true cur mptr emb od os b1 e1 st).mask t = 0) ∧
      ((issueCopy H true cur mptr emb od os b1 e1 st).mask t = 1 ↔
        ∃ cp ∈ (issueCopy H true cur mptr emb od os b1 e1 st).copies,
          ∀ k, 0 ≤ k → k < (H : Int) → cp.covers (t * H + k)) := by
  intro t
  have hcov : ∀ k, 0 ≤ k → k < (H : Int) →
      ((rangeCopy H cur emb od os b1 e1).covers (t * H + k) ↔
        mptr + od ≤ t ∧ t < mptr + od + (e1 - b1)) := by
    intro k hk0 hk
    have := covers_row (rangeCopy H cur emb od os b1 e1) H 0 (mptr + od) (e1 - b1) t k
      (by show cur + od * (H : Int) = 0 + (mptr + od) * H; rw [hcur]; ring) rfl hk0 hk
    rw [Int.zero_add] at this
    exact this
  have hm : (issueCopy H true cur mptr emb od os b1 e1 st).mask t =
      if mptr + od ≤ t ∧ t < mptr + od + (e1 - b1) then 1 else st.mask t := by
    simp [issueCopy, fill_n]
  rw [hm, issueCopy_copies]
  obtain ⟨h01, hiff⟩ := hst t
  by_cases hin : mptr + od ≤ t ∧ t < mptr + od + (e1 - b1)
  · rw [if_pos hin]
    refine ⟨Or.inl rfl, fun _ => ⟨rangeCopy H cur emb od os b1 e1, by simp, ?_⟩,
      fun _ => rfl⟩
    intro k hk0 hk
    exact (hcov k hk0 hk).mpr hin
  · rw [if_neg hin]
    refine ⟨h01, ?_⟩
    rw [hiff]
    constructor
    · rintro ⟨cp, hcp, hall⟩
      exact ⟨cp, List.mem_append_left _ hcp, hall⟩
    · rintro ⟨cp, hcp, hall⟩
      rcases List.mem_append.mp hcp with h | h
      · exact ⟨cp, h, hall⟩
      · exfalso
        rw [List.mem_singleton] at h
        subst h
        exact hin ((hcov 0 (Int.le_refl 0) (by omega)).mp (hall 0 (Int.le_refl 0) (by omega)))

/-- An invariant of the sequence loop, indexed by the sequence index and the two cursors,
that every scan carries to the next iteration holds at the end of the loop. -/
theorem seqLoop_preserves {α : Type} (H : Nat) (lm : Bool) (lens : Nat → Int)
    (seqs : Nat → Sequence α) (N : Nat) (P : Nat → Int → Int → UpdateState α → Prop)
    (hstep : ∀ (i : Nat) (cur mptr : Int) (st st1 : UpdateState α), i < N →
      P i cur mptr st →
      scanRanges H lm (seqs i).cache_len (lens i) (seqs i).input_embeddings
        (seqs i).input_embedding_ranges cur mptr (seqs i).input_embeddings.length st =
          some st1 →
      P (i + 1) (cur + lens i * H) (mptr + lens i) st1) :
    ∀ (n i : Nat) (cur mptr : Int) (st st1 : UpdateState α), i + n ≤ N →
      seqLoop H lm lens seqs n i cur mptr st = some st1 → P i cur mptr st →
      ∃ cur1 mptr1, P (i + n) cur1 mptr1 st1 := by
  intro n
  induction n with
  | zero =>
    intro i cur mptr st st1 _ h hp
    simp only [seqLoop, Option.some.injEq] at h
    exact ⟨cur, mptr, h ▸ hp⟩
  | succ n ih =>
    intro i cur mptr st st1 hN h hp
    rw [seqLoop] at h
    cases hs : scanRanges H lm (seqs i).cache_len (lens i) (seqs i).input_embeddings
        (seqs i).input_embedding_ranges cur mptr (seqs i).input_embeddings.length st with
    | none => simp [hs] at h
    | some st2 =>
      simp only [hs] at h
      have h2 := hstep i cur mptr st st2 (by omega) hp hs
      obtain ⟨cur1, mptr1, h3⟩ := ih (i + 1) _ _ st2 st1 (by omega) h h2
      exact ⟨cur1, mptr1, by rwa [show i + (n + 1) = i + 1 + n by omega]⟩

theorem issueCopy_mask_bounds {α : Type} (H : Nat) (c len cur mptr : Int) (hm : 0 ≤ mptr)
    (emb : Int → α) (b e : Int) (st : UpdateState α)
    (hst : ∀ t, st.mask t ≠ 0 → 0 ≤ t ∧ t < mptr + len) :
    ∀ t, (issueCopy H true cur mptr emb (max 0 (b - c)) (max 0 (c - b)) (max b c)
        (min e (c + len)) st).mask t ≠ 0 → 0 ≤ t ∧ t < mptr + len := by
  intro t ht
  have hmask : (issueCopy H true cur mptr emb (max 0 (b - c)) (max 0 (c - b)) (max b c)
        (min e (c + len)) st).mask t =
      if mptr + max 0 (b - c) ≤ t ∧
          t < mptr + max 0 (b - c) + (min e (c + len) - max b c) then 1
      else st.mask t := by
    simp [issueCopy, fill_n]
  rw [hmask] at ht
  by_cases hin : mptr + max 0 (b - c) ≤ t ∧
      t < mptr + max 0 (b - c) + (min e (c + len) - max b c)
  · omega
  · rw [if_neg hin] at ht
    exact hst t ht

/-- A copy of the scan that covers an element of the row of position `p` comes from a range
that contains `p`. -/
theorem scanCopies_cover_row {α : Type} (H : Nat) (c len cur p k : Int) (hk0 : 0 ≤ k)
    (hk : k < H) :
    ∀ (L : List ((Int → α) × (Int × Int))) (cp : Memcpy α),
      cp ∈ scanCopies H c len cur L → cp.covers (cur + (p - c) * H + k) →
      ∃ y ∈ L, y.2.1 ≤ p ∧ p < y.2.2 := by
  intro L
  induction L with
  | nil => intro cp h; simp [scanCopies] at h
  | cons hd rest ih =>
    obtain ⟨emb, b, e⟩ := hd
    intro cp hmem hx
    rcases rangeAction_cases c len b e with ⟨_, ha⟩ | ⟨_, _, ha⟩ | ⟨h1, h2, ha⟩
    · simp only [scanCopies, ha] at hmem
      obtain ⟨y, hy, hc⟩ := ih cp hmem hx
      exact ⟨y, List.mem_cons_of_mem _ hy, hc⟩
    · simp [scanCopies, ha] at hmem
    · simp only [scanCopies, ha, List.mem_cons] at hmem
      rcases hmem with rfl | hmem
      · have hcov := (covers_row
          (rangeCopy H cur emb (max 0 (b - c)) (max 0 (c - b)) (max b c) (min e (c + len)))
          H cur (max 0 (b - c)) (min e (c + len) - max b c) (p - c) k rfl rfl hk0 hk).mp hx
        exact ⟨(emb, (b, e)), List.mem_cons_self _ _, by simp only; omega, by simp only; omega⟩
      · obtain ⟨y, hy, hc⟩ := ih cp hmem hx
        exact ⟨y, List.mem_cons_of_mem _ hy, hc⟩

/-- Last copy wins: when the ranges visited before `(emb, (b, e))` do not stop the scan and
no range visited after it contains the window position `p`, the row of `p` is left with row
`p - b` of `emb`. -/
theorem scanCopies_apply_last {α : Type} (H : Nat) (c len cur p k : Int)
    (hp0 : c ≤ p) (hp1 : p < c + len) (hk0 : 0 ≤ k) (hk : k < H)
    (emb : Int → α) (b e : Int) (hb : b ≤ p) (he : p < e)
    (L2 : List ((Int → α) × (Int × Int))) (hL2 : ∀ y ∈ L2, ¬ (y.2.1 ≤ p ∧ p < y.2.2)) :
    ∀ (L1 : List ((Int → α) × (Int × Int))) (buf : Int → α),
      (∀ y ∈ L1, ¬ (¬ c + len - 1 < y.2.1 ∧ y.2.2 ≤ c)) →
      applyCopies buf (scanCopies H c len cur (L1 ++ (emb, (b, e)) :: L2))
        (cur + (p - c) * H + k) = emb ((p - b) * H + k) := by
  intro L1
  induction L1 with
  | nil =>
    intro buf _
    rw [List.nil_append]
    rcases rangeAction_cases c len b e with ⟨h1, _⟩ | ⟨_, h2, _⟩ | ⟨h1, h2, ha⟩
    · omega
    · omega
    · simp only [scanCopies, ha, applyCopies_cons]
      rw [applyCopies_not_covered _ _ _ (fun cp hcp hcov => by
        obtain ⟨y, hy, hc⟩ := scanCopies_cover_row H c len cur p k hk0 hk L2 cp hcp hcov
        exact hL2 y hy hc)]
      rw [applyCopy_rangeCopy_row H c len cur b e emb buf p k hk0 hk,
        if_pos ⟨hb, he, hp0, hp1⟩]
  | cons hd rest ih =>
    obtain ⟨emb0, b0, e0⟩ := hd
    intro buf hns
    have hns0 := hns (emb0, (b0, e0)) (List.mem_cons_self _ _)
    have hnsr : ∀ y ∈ rest, ¬ (¬ c + len - 1 < y.2.1 ∧ y.2.2 ≤ c) :=
      fun y hy => hns y (List.mem_cons_of_mem _ hy)
    rw [List.cons_append]
    rcases rangeAction_cases c len b0 e0 with ⟨h1, ha⟩ | ⟨h1, h2, _⟩ | ⟨h1, h2, ha⟩
    · simp only [scanCopies, ha]
      exact ih buf hnsr
    · exact absurd ⟨h1, h2⟩ hns0
    · simp only [scanCopies, ha, applyCopies_cons]
      exact ih _ hnsr

/-- For an element of a window row of sequence `i1`, the copies of the whole batch act as
the copies of sequence `i1` alone on some buffer. -/
theorem batchCopies_apply_local {α : Type} (H : Nat) (lens : Nat → Int)
    (seqs : Nat → Sequence α) :
    ∀ (n i : Nat) (cur : Int) (buf : Int → α),
      (∀ m, i ≤ m → m < i + n → 0 ≤ lens m) →
      ∀ (i1 : Nat), i ≤ i1 → i1 < i + n → ∀ (p k x : Int),
        (seqs i1).cache_len ≤ p → p < (seqs i1).cache_len + lens i1 → 0 ≤ k → k < H →
        x = cur + (tokenOffset lens i1 - tokenOffset lens i) * H +
              (p - (seqs i1).cache_len) * H + k →
        ∃ (buf1 : Int → α) (cur1 : Int), x = cur1 + (p - (seqs i1).cache_len) * H + k ∧
          applyCopies buf (batchCopies H lens seqs n i cur) x =
            applyCopies buf1
              (scanCopies H (seqs i1).cache_len (lens i1) cur1 (seqs i1).visitOrder) x := by
  intro n
  induction n with
  | zero => intro i cur buf _ i1 h1 h2; omega
  | succ n ih =>
    intro i cur buf hlen i1 hi1 hi2 p k x hp0 hp1 hk0 hk hx
    rw [batchCopies, applyCopies_append]
    by_cases hii : i1 = i
    · subst hii
      have hx1 : x = cur + (p - (seqs i1).cache_len) * H + k := by
        rw [hx]; ring
      have hlt : (p - (seqs i1).cache_len) * (H : Int) + k < lens i1 * H :=
        (row_lt_iff (lens i1) (p - (seqs i1).cache_len) k H hk0 hk).mpr (by omega)
      have hB : ∀ cp ∈ batchCopies H lens seqs n (i1 + 1) (cur + lens i1 * H),
          ¬ cp.covers x := by
        intro cp hcp hcov
        have := batchCopies_covers_ge H lens seqs n (i1 + 1) (cur + lens i1 * H)
          (fun m h1 h2 => hlen m (by omega) (by omega)) cp hcp x hcov
        omega
      exact ⟨buf, cur, hx1, applyCopies_not_covered _ _ x hB⟩
    · have hx1 : x = (cur + lens i * H) +
          (tokenOffset lens i1 - tokenOffset lens (i + 1)) * H +
            (p - (seqs i1).cache_len) * H + k := by
        rw [hx]
        show _ = cur + lens i * H +
          (tokenOffset lens i1 - (tokenOffset lens i + lens i)) * H +
            (p - (seqs i1).cache_len) * H + k
        ring
      exact ih (i + 1) (cur + lens i * H) _
        (fun m h1 h2 => hlen m (by omega) (by omega))
        i1 (by omega) (by omega) p k x hp0 hp1 hk0 hk hx1

/-- The visiting order of a sequence around index `j`: first the pairs of higher index, then
the pair of index `j`, then the pairs of lower index. -/
theorem visitOrder_split {α : Type} (seq : Sequence α) (j : Nat) (emb : Int → α)
    (r : Int × Int) (hemb : seq.input_embeddings[j]? = some emb)
    (hrange : seq.input_embedding_ranges[j]? = some r) :
    ∃ L1 L2, seq.visitOrder = L1 ++ (emb, r) :: L2 ∧
      (∀ y ∈ L1, ∃ j1, j < j1 ∧ seq.input_embedding_ranges[j1]? = some y.2) ∧
      (∀ y ∈ L2, ∃ j2, j2 < j ∧ seq.input_embedding_ranges[j2]? = some y.2) := by
  have hz := zip_getElem?_some _ _ j emb r hemb hrange
  obtain ⟨hlt, hget⟩ := List.getElem?_eq_some.mp hz
  refine ⟨((seq.input_embeddings.zip seq.input_embedding_ranges).drop (j + 1)).reverse,
    ((seq.input_embeddings.zip seq.input_embedding_ranges).take j).reverse, ?_, ?_, ?_⟩
  · unfold Sequence.visitOrder
    have h1 := List.take_append_drop j (seq.input_embeddings.zip seq.input_embedding_ranges)
    rw [List.drop_eq_getElem_cons hlt, hget] at h1
    conv_lhs => rw [← h1]
    simp
  · intro y hy
    rw [List.mem_reverse, List.mem_iff_getElem?] at hy
    obtain ⟨n, hn⟩ := hy
    rw [List.getElem?_drop] at hn
    obtain ⟨y1, y2⟩ := y
    exact ⟨j + 1 + n, by omega, (List.getElem?_zip_eq_some.mp hn).2⟩
  · intro y hy
    rw [List.mem_reverse, List.mem_iff_getElem?] at hy
    obtain ⟨n, hn⟩ := hy
    rw [List.getElem?_take] at hn
    by_cases hnj : n < j
    · rw [if_pos hnj] at hn
      obtain ⟨y1, y2⟩ := y
      exact ⟨n, hnj, (List.getElem?_zip_eq_some.mp hn).2⟩
    · rw [if_neg hnj] at hn
      exact absurd hn (by simp)

/-! ### Layout of the logits -/

theorem divmod_decode (a r L : Int) (h0 : 0 ≤ r) (h1 : r < L) :
    (a * L + r) / L = a ∧ (a * L + r) % L = r := by
  have hL : 0 < L := by omega
  rw [Int.ediv_emod_unique hL]
  refine ⟨by ring, h0, h1⟩

theorem gemmWrite_hit {α : Type} (G : Int → Int → α) (m n first : Int) (C : Ptr) (ldc : Int)
    (mem : RankMem α) (b v x : Int) (hv0 : 0 ≤ v) (hv : v < m) (hm : m ≤ ldc)
    (hb0 : 0 ≤ b) (hb : b < n) (hx : x = C.off + b * ldc + v) :
    gemmWrite G m n first C ldc mem C.region x = G (first + b) v := by
  have hd : x - C.off = b * ldc + v := by rw [hx]; ring
  obtain ⟨h1, h2⟩ := divmod_decode b v ldc hv0 (by omega)
  unfold gemmWrite
  rw [hd, h1, h2, if_pos ⟨rfl, hb0, hb, hv⟩]

theorem gemmWrite_below {α : Type} (G : Int → Int → α) (m n first : Int) (C : Ptr) (ldc : Int)
    (mem : RankMem α) (rg : Nat) (x : Int) (hx : x < C.off) (hl : 0 < ldc) :
    gemmWrite G m n first C ldc mem rg x = mem rg x := by
  unfold gemmWrite
  rw [if_neg]
  rintro ⟨_, h, _⟩
  have := Int.ediv_neg' (show x - C.off < 0 by omega) hl
  omega

theorem allGather2DWrite_hit {α : Type} (w : Nat) (old : World α) (sendbuf : Nat → Ptr)
    (recvbuf : Ptr) (pitch stride width height : Int) (mem : RankMem α)
    (q : Nat) (h t x : Int) (hq : q < w) (ht0 : 0 ≤ t) (ht : t < width)
    (hws : width ≤ stride) (hp : (w : Int) * stride ≤ pitch) (hh0 : 0 ≤ h) (hh : h < height)
    (hx : x = recvbuf.off + h * pitch + q * stride + t) :
    allGather2DWrite w old sendbuf recvbuf pitch stride width height mem recvbuf.region x =
      old q (sendbuf q).region ((sendbuf q).off + h * pitch + t) := by
  have hs : 0 < stride := by omega
  have hq1 : ((q : Int) + 1) * stride ≤ (w : Int) * stride :=
    Int.mul_le_mul_of_nonneg_right (by omega) (by omega)
  have hq2 : ((q : Int) + 1) * stride = q * stride + stride := by ring
  have hq0 : (0 : Int) ≤ q * stride := Int.mul_nonneg (by omega) (by omega)
  have hd : x - recvbuf.off = h * pitch + (q * stride + t) := by rw [hx]; ring
  obtain ⟨h1, h2⟩ := divmod_decode h (q * stride + t) pitch (by omega) (by omega)
  obtain ⟨h3, h4⟩ := divmod_decode q t stride ht0 (by omega)
  have hpp : 0 < pitch := by omega
  have hd0 : 0 ≤ h * pitch := Int.mul_nonneg hh0 (by omega)
  unfold allGather2DWrite
  rw [hd, h1, h2, h3, h4, if_pos ⟨rfl, by omega, hh, by omega, ht, hpp, hs⟩]
  simp

theorem allGather2DWrite_below {α : Type} (w : Nat) (old : World α) (sendbuf : Nat → Ptr)
    (recvbuf : Ptr) (pitch stride width height : Int) (mem : RankMem α) (rg : Nat) (x : Int)
    (hx : x < recvbuf.off) :
    allGather2DWrite w old sendbuf recvbuf pitch stride width height mem rg x = mem rg x := by
  unfold allGather2DWrite
  rw [if_neg]
  rintro ⟨_, h, _⟩
  omega

theorem allGatherWrite_hit {α : Type} (w : Nat) (old : World α) (sendbuf : Nat → Ptr)
    (recvbuf : Ptr) (count : Int) (mem : RankMem α) (q : Nat) (t x : Int) (hq : q < w)
    (ht0 : 0 ≤ t) (ht : t < count) (hx : x = recvbuf.off + q * count + t) :
    allGatherWrite w old sendbuf recvbuf count mem recvbuf.region x =
      old q (sendbuf q).region ((sendbuf q).off + t) := by
  have hd : x - recvbuf.off = q * count + t := by rw [hx]; ring
  obtain ⟨h1, h2⟩ := divmod_decode q t count ht0 ht
  have hq0 : (0 : Int) ≤ q * count := Int.mul_nonneg (by omega) (by omega)
  unfold allGatherWrite
  rw [hd, h1, h2, if_pos ⟨rfl, by omega, by omega, by omega⟩]
  simp

theorem transposeWrite_hit {α : Type} (out inp : Ptr) (dim0 dim1 dim2 : Int) (mem : RankMem α)
    (i j t x : Int) (hi0 : 0 ≤ i) (hi : i < dim0) (hj0 : 0 ≤ j) (hj : j < dim1)
    (ht0 : 0 ≤ t) (ht : t < dim2) (hx : x = out.off + (j * dim0 + i) * dim2 + t) :
    transposeWrite out inp dim0 dim1 dim2 mem out.region x =
      mem inp.region (inp.off + (i * dim1 + j) * dim2 + t) := by
  have hd : x - out.off = (j * dim0 + i) * dim2 + t := by rw [hx]; ring
  obtain ⟨h1, h2⟩ := divmod_decode (j * dim0 + i) t dim2 ht0 ht
  obtain ⟨h3, h4⟩ := divmod_decode j i dim0 hi0 hi
  have hji : 0 ≤ j * dim0 + i := by
    have := Int.mul_nonneg hj0 (show 0 ≤ dim0 by omega)
    omega
  have hd0 : 0 ≤ (j * dim0 + i) * dim2 := Int.mul_nonneg hji (by omega)
  unfold transposeWrite
  rw [hd, h1, h2, h3, h4, if_pos ⟨rfl, by omega, hj, by omega, by omega⟩]

/-- One stage of the pipelined strategy (the matrix multiply of every rank, then the 2-D
all-gather) extends the single-device layout from the rows below `f` to the rows below
`f + n`. -/
theorem stage_layout {α : Type} (w : Nat) (G : Nat → Int → Int → α) (vsp lvs : Int)
    (hvsp : vsp = w * lvs) (buf : Ptr) (f n : Int) (fl la : Bool) (cs : Stream)
    (world : World α) (hinv : LogitsLayout w G vsp lvs buf f world) :
    LogitsLayout w G vsp lvs buf (f + n)
      (stepWorld w G (fun r => some (DeviceOp.allGather2D
          { region := buf.region, off := buf.off + f * vsp + (r : Int) * lvs }
          { region := buf.region, off := buf.off + f * vsp } vsp lvs lvs n fl la cs))
        (stepWorld w G (fun r => some (DeviceOp.gemm lvs n f
          { region := buf.region, off := buf.off + f * vsp + (r : Int) * lvs } vsp)) world)) := by
  intro r q hr hq b v hb0 hb hv0 hv
  have hlv : 0 < lvs := by omega
  have hq1 : ((q : Int) + 1) * lvs ≤ (w : Int) * lvs :=
    Int.mul_le_mul_of_nonneg_right (by omega) (by omega)
  have hq2 : ((q : Int) + 1) * lvs = q * lvs + lvs := by ring
  have hq0 : (0 : Int) ≤ q * lvs := Int.mul_nonneg (by omega) (by omega)
  have hr0 : (0 : Int) ≤ (r : Int) * lvs := Int.mul_nonneg (by omega) (by omega)
  have hvp : 0 < vsp := by omega
  simp only [stepWorld, sendPtr]
  by_cases hbf : b < f
  · -- a row gathered by an earlier stage: neither call of this stage reaches it
    have h1 : (b + 1) * vsp ≤ f * vsp := Int.mul_le_mul_of_nonneg_right (by omega) (by omega)
    have h2 : (b + 1) * vsp = b * vsp + vsp := by ring
    rw [allGather2DWrite_below _ _ _ _ _ _ _ _ _ _ _ (by show _ < buf.off + f * vsp; omega),
      gemmWrite_below _ _ _ _ _ _ _ _ _ (by show _ < buf.off + f * vsp + (r : Int) * lvs; omega)
        hvp]
    exact hinv r q hr hq b v hb0 hbf hv0 hv
  · -- a row of this stage
    rw [allGather2DWrite_hit w _ _ { region := buf.region, off := buf.off + f * vsp }
      vsp lvs lvs n _ q (b - f) v (buf.off + b * vsp + q * lvs + v) hq hv0 hv (Int.le_refl _)
      (by omega) (by omega) (by omega)
      (by show _ = buf.off + f * vsp + (b - f) * vsp + q * lvs + v; ring)]
    have hg := gemmWrite_hit (G q) lvs n f
      { region := buf.region, off := buf.off + f * vsp + (q : Int) * lvs } vsp (world q)
      (b - f) v (buf.off + f * vsp + (q : Int) * lvs + (b - f) * vsp + v) hv0 hv (by omega)
      (by omega) (by omega) rfl
    rw [show f + (b - f) = b by ring] at hg
    exact hg

theorem dataOps_append (a b : List Step) : dataOps (a ++ b) = dataOps a ++ dataOps b := by
  simp [dataOps, List.filterMap_append]

theorem dataOps_stageSteps (w : Nat) (vsp : Int) (flag : Bool) (r : Nat) (lvs : Int)
    (buf : Ptr) (bs : Int) (cs : Stream) (stage : Int × Int) :
    dataOps (stageSteps (rankModel w vsp flag r) lvs buf bs cs stage) =
      stageOps vsp lvs buf bs cs r stage := by
  cases cs <;> rfl

theorem dataOps_flatten_stageSteps (w : Nat) (vsp : Int) (flag : Bool) (r : Nat) (lvs : Int)
    (buf : Ptr) (bs : Int) (cs : Stream) (stages : List (Int × Int)) :
    dataOps (stages.map (stageSteps (rankModel w vsp flag r) lvs buf bs cs)).flatten =
      (stages.map (stageOps vsp lvs buf bs cs r)).flatten := by
  induction stages with
  | nil => rfl
  | cons s rest ih =>
    simp only [List.map_cons, List.flatten_cons, dataOps_append, ih, dataOps_stageSteps]

/-- Lock-step execution of the stages is the fold of `stageWorld` over the stages. -/
theorem runWorld_stages {α : Type} (w : Nat) (G : Nat → Int → Int → α) (vsp lvs : Int)
    (buf : Ptr) (bs : Int) (cs : Stream) :
    ∀ (stages : List (Int × Int)) (world : World α),
      runWorld w G (2 * stages.length)
          (fun r => (stages.map (stageOps vsp lvs buf bs cs r)).flatten) world =
        stages.foldl (stageWorld w G vsp lvs buf bs cs) world := by
  intro stages
  induction stages with
  | nil => intro world; rfl
  | cons s rest ih =>
    intro world
    rw [List.length_cons, show 2 * (rest.length + 1) = 2 * rest.length + 1 + 1 by ring]
    simp only [runWorld, List.map_cons, List.flatten_cons, List.foldl_cons]
    have h := ih (stageWorld w G vsp lvs buf bs cs world s)
    simp only [stageOps, List.cons_append, List.nil_append, List.tail_cons, List.head?_cons]
      at h ⊢
    exact h

/-- The stage loop keeps the single-device layout: when the rows below `min first batch_size`
are laid out before the stages from `first` on, all rows are laid out after them. -/
theorem stages_layout {α : Type} (w : Nat) (G : Nat → Int → Int → α) (vsp lvs : Int)
    (hvsp : vsp = w * lvs) (buf : Ptr) (bs step : Int) (cs : Stream) :
    ∀ (fuel : Nat) (first : Int) (stages : List (Int × Int)) (world : World α),
      stageLoop bs step fuel first = some stages →
      LogitsLayout w G vsp lvs buf (min first bs) world →
      LogitsLayout w G vsp lvs buf bs (stages.foldl (stageWorld w G vsp lvs buf bs cs) world) := by
  intro fuel
  induction fuel with
  | zero =>
    intro first stages world h hinv
    by_cases hlt : first < bs
    · simp [stageLoop, hlt] at h
    · simp only [stageLoop, hlt, if_false, Option.some.injEq] at h
      subst h
      rw [show min first bs = bs by omega] at hinv
      exact hinv
  | succ fuel ih =>
    intro first stages world h hinv
    by_cases hlt : first < bs
    · simp only [stageLoop, hlt, if_true, Option.map_eq_some'] at h
      obtain ⟨rest, hrest, hst⟩ := h
      subst hst
      rw [List.foldl_cons]
      apply ih (first + step) rest _ hrest
      rw [show min first bs = first by omega] at hinv
      have h2 := stage_layout w G vsp lvs hvsp buf first (min (first + step) bs - first)
        (first == 0) (first + (min (first + step) bs - first) == bs) cs world hinv
      rw [show first + (min (first + step) bs - first) = min (first + step) bs by omega] at h2
      exact h2
    · simp only [stageLoop, hlt, if_false, Option.some.injEq] at h
      subst h
      rw [show min first bs = bs by omega] at hinv
      exact hinv

/-! ### The stage loop -/

theorem stageLoop_some (bs step : Int) :
    ∀ (fuel : Nat) (first : Int), (0 < step ∨ bs ≤ first) → bs - first ≤ fuel →
      ∃ stages, stageLoop bs step fuel first = some stages := by
  intro fuel
  induction fuel with
  | zero =>
    intro first _ hf
    exact ⟨[], by simp [stageLoop, show ¬ first < bs by omega]⟩
  | succ fuel ih =>
    intro first hs hf
    by_cases hlt : first < bs
    · have hstep : 0 < step := by omega
      obtain ⟨rest, hrest⟩ := ih (first + step) (Or.inl hstep) (by push_cast at hf; omega)
      exact ⟨(first, min (first + step) bs - first) :: rest, by simp [stageLoop, hlt, hrest]⟩
    · exact ⟨[], by simp [stageLoop, hlt]⟩

theorem stageLoop_fuel_mono (bs step : Int) :
    ∀ (fuel : Nat) (first : Int) (stages : List (Int × Int)),
      stageLoop bs step fuel first = some stages →
      ∀ fuel1, fuel ≤ fuel1 → stageLoop bs step fuel1 first = some stages := by
  intro fuel
  induction fuel with
  | zero =>
    intro first stages h fuel1 _
    by_cases hlt : first < bs
    · simp [stageLoop, hlt] at h
    · simp only [stageLoop, hlt, if_false] at h
      cases fuel1 <;> simp [stageLoop, hlt, h]
  | succ fuel ih =>
    intro first stages h fuel1 hle
    obtain ⟨f1, rfl⟩ : ∃ f1, fuel1 = f1 + 1 := ⟨fuel1 - 1, by omega⟩
    by_cases hlt : first < bs
    · simp only [stageLoop, hlt, if_true, Option.map_eq_some'] at h ⊢
      obtain ⟨rest, hrest, hst⟩ := h
      exact ⟨rest, ih _ _ hrest f1 (by omega), hst⟩
    · simp only [stageLoop, hlt, if_false] at h ⊢
      exact h

/-- Shape of the stages produced by the stage loop from `first` on, for a positive step:
each stage is a non-empty row range inside `[first, batch_size)`, the stages are ordered and
disjoint, they cover `[first, batch_size)`, and their number `k` has
`(k - 1) * step < batch_size - first`. -/
theorem stageLoop_shape (bs step : Int) (hstep : 0 < step) :
    ∀ (fuel : Nat) (first : Int) (stages : List (Int × Int)),
      stageLoop bs step fuel first = some stages →
      (∀ s ∈ stages, first ≤ s.1 ∧ 1 ≤ s.2 ∧ s.2 ≤ step ∧ s.1 + s.2 ≤ bs) ∧
      stages.Pairwise (fun s t => s.1 + s.2 ≤ t.1) ∧
      (∀ b, first ≤ b → b < bs → ∃ s ∈ stages, s.1 ≤ b ∧ b < s.1 + s.2) ∧
      (stages = [] ∨ ((stages.length : Int) - 1) * step < bs - first) := by
  intro fuel
  induction fuel with
  | zero =>
    intro first stages h
    by_cases hlt : first < bs
    · simp [stageLoop, hlt] at h
    · simp only [stageLoop, hlt, if_false, Option.some.injEq] at h
      subst h
      exact ⟨by simp, List.Pairwise.nil, fun b h1 h2 => by omega, Or.inl rfl⟩
  | succ fuel ih =>
    intro first stages h
    by_cases hlt : first < bs
    · simp only [stageLoop, hlt, if_true, Option.map_eq_some'] at h
      obtain ⟨rest, hrest, hst⟩ := h
      subst hst
      obtain ⟨h1, h2, h3, h4⟩ := ih (first + step) rest hrest
      refine ⟨?_, ?_, ?_, ?_⟩
      · intro s hs
        rcases List.mem_cons.mp hs with rfl | hs
        · simp only; omega
        · have := h1 s hs; omega
      · rw [List.pairwise_cons]
        refine ⟨fun t ht => ?_, h2⟩
        have := h1 t ht
        simp only; omega
      · intro b hb0 hb1
        by_cases hb : b < first + step
        · exact ⟨_, List.mem_cons_self _ _, by simp only; omega, by simp only; omega⟩
        · obtain ⟨s, hs, hc⟩ := h3 b (by omega) hb1
          exact ⟨s, List.mem_cons_of_mem _ hs, hc⟩
      · right
        rw [List.length_cons]
        push_cast
        rcases h4 with h4 | h4
        · subst h4
          simp only [List.length_nil, Nat.cast_zero]
          omega
        · have e : ((rest.length : Int) + 1 - 1) * step =
              ((rest.length : Int) - 1) * step + step := by ring
          omega
    · simp only [stageLoop, hlt, if_false, Option.some.injEq] at h
      subst h
      exact ⟨by simp, List.Pairwise.nil, fun b h1 h2 => by omega, Or.inl rfl⟩

theorem stageStep_pos (ms mst bs : Int) (hmst : 1 ≤ mst) (hbs : 1 ≤ bs) :
    1 ≤ stageStep ms mst bs := by
  unfold stageStep
  omega

theorem stageStep_mul_ge (ms mst bs : Int) (hms : 1 ≤ ms) (hbs : 0 ≤ bs) :
    bs ≤ stageStep ms mst bs * ms := by
  unfold stageStep
  rw [Int.tdiv_eq_ediv (by omega) (by omega)]
  have hdm := Int.ediv_add_emod' (bs + ms - 1) ms
  have hm1 := Int.emod_lt_of_pos (bs + ms - 1) (show 0 < ms by omega)
  have h1 : (bs + ms - 1) / ms * ms ≤
      max (min bs mst) ((bs + ms - 1) / ms) * ms :=
    Int.mul_le_mul_of_nonneg_right (by omega) (by omega)
  omega

theorem length_flatten_stageOps (vsp lvs : Int) (buf : Ptr) (bs : Int) (cs : Stream) (r : Nat)
    (stages : List (Int × Int)) :
    ((stages.map (stageOps vsp lvs buf bs cs r)).flatten).length = 2 * stages.length := by
  induction stages with
  | nil => rfl
  | cons s rest ih =>
    simp only [List.map_cons, List.flatten_cons, List.length_append, ih, List.length_cons]
    simp only [stageOps, List.length_cons, List.length_nil]
    omega

/-- The statements of rank `r` in the pipelined strategy, once the stage loop has produced
its stages: they succeed, and their memory-writing calls are the stage calls in order. -/
theorem pipelined_program (w : Nat) (hw : w ≠ 1) (vsp : Int) (hdiv : vsp % (w : Int) = 0)
    (ms mst bs : Int) (buf : Ptr) (fuel : Nat) (stages : List (Int × Int))
    (hst : stageLoop bs (stageStep ms mst bs) fuel 0 = some stages) (r : Nat) :
    succeeded (postDecodeEmbeddingWith ms mst (rankModel w vsp true r) buf buf bs fuel) = true ∧
    dataOps (stepsOf (postDecodeEmbeddingWith ms mst (rankModel w vsp true r) buf buf bs fuel)) =
      (stages.map (stageOps vsp (vsp / w) buf bs
        (if stageStep ms mst bs < bs then Stream.secondary else Stream.primary) r)).flatten := by
  have hw1 : ¬ (w : Int) = 1 := by omega
  have hprog : postDecodeEmbeddingWith ms mst (rankModel w vsp true r) buf buf bs fuel =
      Except.ok
        ((if stageStep ms mst bs < bs then
            [Step.checked DeviceOp.streamCreate, Step.checked DeviceOp.eventCreate]
          else []) ++
         (stages.map (stageSteps (rankModel w vsp true r) (vsp / w) buf bs
            (if stageStep ms mst bs < bs then Stream.secondary else Stream.primary))).flatten ++
         (if (if stageStep ms mst bs < bs then Stream.secondary else Stream.primary) ≠
              Stream.primary then
            [Step.checked (DeviceOp.eventRecord
              (if stageStep ms mst bs < bs then Stream.secondary else Stream.primary)),
             Step.checked (DeviceOp.streamWaitEvent Stream.primary),
             Step.checked DeviceOp.eventDestroy,
             Step.checked DeviceOp.streamDestroy]
          else [])) := by
    unfold postDecodeEmbeddingWith
    simp only [rankModel, hdiv, ne_eq, not_true_eq_false, if_false, hw1, Bool.true_eq_false, hst]
  rw [hprog]
  refine ⟨rfl, ?_⟩
  simp only [stepsOf, dataOps_append, dataOps_flatten_stageSteps]
  have e1 : dataOps [Step.checked DeviceOp.streamCreate, Step.checked DeviceOp.eventCreate] =
      [] := rfl
  have e2 : dataOps [Step.checked (DeviceOp.eventRecord Stream.secondary),
      Step.checked (DeviceOp.streamWaitEvent Stream.primary),
      Step.checked DeviceOp.eventDestroy, Step.checked DeviceOp.streamDestroy] = [] := rfl
  have e3 : dataOps [] = [] := rfl
  by_cases hlt : stageStep ms mst bs < bs
  · simp only [hlt, if_true, ne_eq, reduceCtorEq, not_false_eq_true, e1, e2,
      List.nil_append, List.append_nil]
  · simp only [hlt, if_false, ne_eq, not_true_eq_false, e3, List.nil_append,
      List.append_nil]

/-- Run of the pipelined strategy on all ranks: it succeeds and the memory of the group is
the fold of the stages. -/
theorem pipelined_run {α : Type} (w : Nat) (hw : w ≠ 1) (vsp : Int)
    (hdiv : vsp % (w : Int) = 0) (ms mst bs : Int) (buf : Ptr) (fuel : Nat)
    (stages : List (Int × Int))
    (hst : stageLoop bs (stageStep ms mst bs) fuel 0 = some stages)
    (G : Nat → Int → Int → α) (world : World α) :
    runRanks w G (fun r => postDecodeEmbeddingWith ms mst (rankModel w vsp true r) buf buf bs
        fuel) world =
      some (stages.foldl (stageWorld w G vsp (vsp / w) buf bs
        (if stageStep ms mst bs < bs then Stream.secondary else Stream.primary)) world) := by
  have hp := pipelined_program w hw vsp hdiv ms mst bs buf fuel stages hst
  unfold runRanks
  rw [if_pos (by
    rw [List.all_eq_true]
    intro r _
    exact (hp r).1)]
  simp only [(hp _).2, length_flatten_stageOps]
  rw [runWorld_stages]

theorem all_range_true (w : Nat) (f : Nat → Bool) (h : ∀ r, f r = true) :
    (List.range w).all f = true := by
  rw [List.all_eq_true]
  intro r _
  exact h r

/-- The plain-sharded strategy (matrix multiply into the rank-major scratch buffer,
all-gather, transpose) succeeds on all ranks and leaves the single-device layout in
`logits`. -/
theorem plain_run_layout {α : Type} (w : Nat) (hw : w ≠ 1) (vsp : Int)
    (hdiv : vsp % (w : Int) = 0) (bs : Int) (logits local_logits : Ptr)
    (hne : logits ≠ local_logits) (ms mst : Int) (fuel : Nat) (G : Nat → Int → Int → α)
    (world : World α) :
    ∃ fin, runRanks w G (fun r => postDecodeEmbeddingWith ms mst (rankModel w vsp false r)
        logits local_logits bs fuel) world = some fin ∧
      LogitsLayout w G vsp (vsp / w) logits bs fin := by
  have hw1 : ¬ (w : Int) = 1 := by omega
  have hvsp : vsp = w * (vsp / w) := (Int.mul_ediv_cancel' (Int.dvd_of_emod_eq_zero hdiv)).symm
  have hprog : ∀ r, postDecodeEmbeddingWith ms mst (rankModel w vsp false r) logits
      local_logits bs fuel =
      Except.ok
        [Step.submit (DeviceOp.gemm (vsp / w) bs 0
            { region := local_logits.region
              off := local_logits.off + 0 * (vsp / w) + (r : Int) * (bs * (vsp / w)) }
            (vsp / w)),
         Step.sync_check,
         Step.submit (DeviceOp.allGather
            { region := local_logits.region
              off := local_logits.off + (r : Int) * (bs * (vsp / w)) }
            local_logits (bs * (vsp / w))),
         Step.sync_check,
         Step.submit (DeviceOp.transposeAxis01 logits local_logits w bs (vsp / w)),
         Step.sync_check] := by
    intro r
    unfold postDecodeEmbeddingWith
    simp only [rankModel, hdiv, ne_eq, not_true_eq_false, if_false, hw1, if_true, hne,
      invoke_gemm]
  refine ⟨_, by
    unfold runRanks
    rw [if_pos (all_range_true w _ (fun r => by simp only [hprog]; rfl))], ?_⟩
  simp only [hprog, stepsOf]
  generalize vsp / (w : Int) = lvs at hvsp
  intro r q hr hq b v hb0 hb hv0 hv
  have hlv : 0 < lvs := by omega
  have hb1 : (b + 1) * lvs ≤ bs * lvs :=
    Int.mul_le_mul_of_nonneg_right (by omega) (by omega)
  have hb2 : (b + 1) * lvs = b * lvs + lvs := by ring
  have hb3 : 0 ≤ b * lvs := Int.mul_nonneg hb0 (by omega)
  simp only [stepWorld, dataOps, List.filterMap, Step.op?, List.filter, DeviceOp.movesData,
    List.head?, List.tail, sendPtr, List.length, runWorld]
  rw [transposeWrite_hit logits local_logits w bs lvs _ q b v
    (logits.off + b * vsp + q * lvs + v) (by omega) (by omega) hb0 hb hv0 hv
    (by rw [hvsp]; ring)]
  rw [allGatherWrite_hit w _ _ local_logits (bs * lvs) _ q (b * lvs + v)
    (local_logits.off + (q * bs + b) * lvs + v) hq (by omega) (by omega) (by ring)]
  have hg := gemmWrite_hit (G q) lvs bs 0
    { region := local_logits.region
      off := local_logits.off + 0 * lvs + (q : Int) * (bs * lvs) }
    lvs (world q) b v
    (local_logits.off + (q : Int) * (bs * lvs) + (b * lvs + v)) hv0 hv
    (Int.le_refl _) hb0 hb (by simp only; ring)
  rw [Int.zero_add] at hg
  exact hg

/-- The single-device strategy: one matrix multiply straight into `logits`. -/
theorem single_run_layout {α : Type} (vsp : Int) (flag : Bool) (bs : Int)
    (logits local_logits : Ptr) (ms mst : Int) (fuel : Nat) (G : Nat → Int → Int → α)
    (world : World α) :
    ∃ fin, runRanks 1 G (fun r => postDecodeEmbeddingWith ms mst (rankModel 1 vsp flag r)
        logits local_logits bs fuel) world = some fin ∧
      LogitsLayout 1 G vsp vsp logits bs fin := by
  have hprog : ∀ r, postDecodeEmbeddingWith ms mst (rankModel 1 vsp flag r) logits
      local_logits bs fuel =
      Except.ok
        [Step.submit (DeviceOp.gemm vsp bs 0
            { region := logits.region, off := logits.off + 0 * vsp + (r : Int) * 0 } vsp),
         Step.sync_check] := by
    intro r
    unfold postDecodeEmbeddingWith
    simp [rankModel, invoke_gemm]
  refine ⟨_, by
    unfold runRanks
    rw [if_pos (all_range_true 1 _ (fun r => by simp only [hprog]; rfl))], ?_⟩
  simp only [hprog, stepsOf]
  intro r q hr hq b v hb0 hb hv0 hv
  obtain rfl : r = 0 := by omega
  obtain rfl : q = 0 := by omega
  simp only [stepWorld, dataOps, List.filterMap, Step.op?, List.filter, DeviceOp.movesData,
    List.head?, List.length, runWorld]
  have hg := gemmWrite_hit (G 0) vsp bs 0
    { region := logits.region, off := logits.off + 0 * vsp + ((0 : Nat) : Int) * 0 } vsp
    (world 0) b v (logits.off + b * vsp + ((0 : Nat) : Int) * vsp + v) hv0 hv
    (Int.le_refl _) hb0 hb (by simp only; push_cast; ring)
  rw [Int.zero_add] at hg
  exact hg

theorem stageLoop_terminates (ms mst bs : Int) (hmst : 1 ≤ mst) (fuel : Nat)
    (hfuel : bs.toNat ≤ fuel) :
    ∃ stages, stageLoop bs (stageStep ms mst bs) fuel 0 = some stages := by
  apply stageLoop_some
  · by_cases hbs : 1 ≤ bs
    · left
      have := stageStep_pos ms mst bs hmst hbs
      omega
    · right; omega
  · omega

/-- The pipelined strategy succeeds on all ranks, whatever the staging, and leaves the
single-device layout in the (shared) logits buffer. -/
theorem pipelined_run_layout {α : Type} (w : Nat) (hw : w ≠ 1) (vsp : Int)
    (hdiv : vsp % (w : Int) = 0) (ms mst bs : Int) (hmst : 1 ≤ mst) (buf : Ptr) (fuel : Nat)
    (hfuel : bs.toNat ≤ fuel) (G : Nat → Int → Int → α) (world : World α) :
    ∃ fin, runRanks w G (fun r => postDecodeEmbeddingWith ms mst (rankModel w vsp true r)
        buf buf bs fuel) world = some fin ∧
      LogitsLayout w G vsp (vsp / w) buf bs fin := by
  obtain ⟨stages, hst⟩ := stageLoop_terminates ms mst bs hmst fuel hfuel
  refine ⟨_, pipelined_run w hw vsp hdiv ms mst bs buf fuel stages hst G world, ?_⟩
  have hvsp : vsp = w * (vsp / w) := (Int.mul_ediv_cancel' (Int.dvd_of_emod_eq_zero hdiv)).symm
  apply stages_layout w G vsp (vsp / w) hvsp buf bs (stageStep ms mst bs) _ fuel 0 stages world hst
  intro r q _ _ b v hb0 hb _ _
  omega

/-- The single-device layout in flat form: the cell `b * vsp + col` of the buffer holds the
value computed by rank `col / lvs` for row `b` and shard column `col % lvs`. -/
theorem layout_flat {α : Type} (w : Nat) (G : Nat → Int → Int → α) (vsp lvs : Int)
    (hvsp : vsp = w * lvs) (buf : Ptr) (rows : Int) (world : World α)
    (h : LogitsLayout w G vsp lvs buf rows world) (r : Nat) (hr : r < w) (b col : Int)
    (hb0 : 0 ≤ b) (hb : b < rows) (hc0 : 0 ≤ col) (hc : col < vsp) :
    world r buf.region (buf.off + b * vsp + col) = G (col / lvs).toNat b (col % lvs) := by
  have hl : 0 < lvs := by
    by_contra hn
    have : (w : Int) * lvs ≤ 0 := Int.mul_nonpos_of_nonneg_of_nonpos (by omega) (by omega)
    omega
  have hq0 : 0 ≤ col / lvs := Int.ediv_nonneg hc0 (by omega)
  have hdm := Int.ediv_add_emod' col lvs
  have hm0 := Int.emod_nonneg col (show lvs ≠ 0 by omega)
  have hm1 := Int.emod_lt_of_pos col hl
  have hqw : col / lvs < w := by
    by_contra hn
    have : (w : Int) * lvs ≤ col / lvs * lvs :=
      Int.mul_le_mul_of_nonneg_right (by omega) (by omega)
    omega
  have hcast : ((col / lvs).toNat : Int) = col / lvs := Int.toNat_of_nonneg hq0
  have := h r (col / lvs).toNat hr (by omega) b (col % lvs) hb0 hb hm0 hm1
  rw [hcast] at this
  rw [← this]
  congr 1
  omega

/-- Any strategy: for every width `w ≥ 1` dividing the padded vocabulary and either value of
the 2-D all-gather flag, the run succeeds and leaves the single-device layout in `logits`
(`local_logits` is a distinct buffer when the flag is off and `logits` itself when it is
on). -/
theorem any_strategy_layout {α : Type} (w : Nat) (hw : 1 ≤ w) (vsp : Int)
    (hdiv : vsp % (w : Int) = 0) (bs : Int) (flag : Bool) (logits local_logits : Ptr)
    (hptr : if flag then local_logits = logits else logits ≠ local_logits)
    (ms mst : Int) (hmst : 1 ≤ mst) (fuel : Nat) (hfuel : bs.toNat ≤ fuel)
    (G : Nat → Int → Int → α) (world : World α) :
    ∃ fin, runRanks w G (fun r => postDecodeEmbeddingWith ms mst (rankModel w vsp flag r)
        logits local_logits bs fuel) world = some fin ∧
      LogitsLayout w G vsp (vsp / w) logits bs fin := by
  by_cases h1 : w = 1
  · subst h1
    have := single_run_layout vsp flag bs logits local_logits ms mst fuel G world
    rw [show vsp / ((1 : Nat) : Int) = vsp by simp]
    exact this
  · cases flag with
    | false =>
      exact plain_run_layout w h1 vsp hdiv bs logits local_logits (by simpa using hptr) ms mst
        fuel G world
    | true =>
      have hp : local_logits = logits := by simpa using hptr
      subst hp
      exact pipelined_run_layout w h1 vsp hdiv ms mst bs hmst local_logits fuel hfuel G world

theorem sharded_column {α : Type} (F : Int → Int → α) (b col lvs : Int) (hc0 : 0 ≤ col)
    (hl : 0 < lvs) : F b (((col / lvs).toNat : Int) * lvs + col % lvs) = F b col := by
  have hq0 : 0 ≤ col / lvs := Int.ediv_nonneg hc0 (by omega)
  rw [Int.toNat_of_nonneg hq0, Int.ediv_add_emod']

/-- With the shards of the output embedding cut column-wise (rank `q` holds the columns
`q * lvs + v`), any strategy leaves `F b col` at flat index `b * vsp + col`. -/
theorem any_strategy_flat {α : Type} (w : Nat) (hw : 1 ≤ w) (vsp : Int)
    (hdiv : vsp % (w : Int) = 0) (bs : Int) (flag : Bool) (logits local_logits : Ptr)
    (hptr : if flag then local_logits = logits else logits ≠ local_logits)
    (ms mst : Int) (hmst : 1 ≤ mst) (fuel : Nat) (hfuel : bs.toNat ≤ fuel)
    (F : Int → Int → α) (world : World α) :
    ∃ fin, runRanks w (fun q b v => F b ((q : Int) * (vsp / w) + v))
        (fun r => postDecodeEmbeddingWith ms mst (rankModel w vsp flag r)
          logits local_logits bs fuel) world = some fin ∧
      ∀ r : Nat, r < w → ∀ b col : Int, 0 ≤ b → b < bs → 0 ≤ col → col < vsp →
        fin r logits.region (logits.off + b * vsp + col) = F b col := by
  obtain ⟨fin, hrun, hlay⟩ := any_strategy_layout w hw vsp hdiv bs flag logits local_logits hptr
    ms mst hmst fuel hfuel (fun q b v => F b ((q : Int) * (vsp / w) + v)) world
  refine ⟨fin, hrun, ?_⟩
  intro r hr b col hb0 hb hc0 hc
  have hvsp : vsp = w * (vsp / w) := (Int.mul_ediv_cancel' (Int.dvd_of_emod_eq_zero hdiv)).symm
  have hl : 0 < vsp / w := by
    by_contra hn
    have : (w : Int) * (vsp / w) ≤ 0 :=
      Int.mul_nonpos_of_nonneg_of_nonpos (by omega) (by omega)
    omega
  rw [layout_flat w _ vsp (vsp / w) hvsp logits bs fin hlay r hr b col hb0 hb hc0 hc]
  exact sharded_column F b col (vsp / w) hc0 hl

theorem stages_unique (stages : List (Int × Int))
    (hp : stages.Pairwise (fun s t => s.1 + s.2 ≤ t.1)) :
    ∀ s ∈ stages, ∀ t ∈ stages, ∀ b : Int, s.1 ≤ b → b < s.1 + s.2 → t.1 ≤ b →
      b < t.1 + t.2 → s = t := by
  have hsym : stages.Pairwise (fun s t => s = t ∨ s.1 + s.2 ≤ t.1 ∨ t.1 + t.2 ≤ s.1) :=
    hp.imp (fun h => Or.inr (Or.inl h))
  have hS : Symmetric (fun s t : Int × Int => s = t ∨ s.1 + s.2 ≤ t.1 ∨ t.1 + t.2 ≤ s.1) := by
    intro s t h
    rcases h with h | h | h
    · exact Or.inl h.symm
    · exact Or.inr (Or.inr h)
    · exact Or.inr (Or.inl h)
  have hall := List.Pairwise.forall_of_forall hS (fun s _ => Or.inl rfl) hsym
  intro s hs t ht b h1 h2 h3 h4
  rcases hall hs ht with h | h | h
  · exact h
  · omega
  · omega

/-! ### Status checks -/

theorem runSteps_append (fails : Nat → Bool) (a b : List Step) :
    ∀ (calls : List (DeviceOp × Bool)) (pending : Bool),
      runSteps fails (a ++ b) calls pending =
        if (runSteps fails a calls pending).aborted then runSteps fails a calls pending
        else runSteps fails b (runSteps fails a calls pending).calls
          (runSteps fails a calls pending).pending := by
  induction a with
  | nil => intro calls pending; simp [runSteps]
  | cons s rest ih =>
    intro calls pending
    rw [List.cons_append]
    cases s with
    | submit op =>
      simp only [runSteps]
      exact ih _ _
    | checked op =>
      simp only [runSteps]
      by_cases hf : fails calls.length = true
      · simp [hf]
      · simp only [hf, Bool.false_eq_true, if_false]
        exact ih _ _
    | sync_check =>
      simp only [runSteps]
      by_cases hp : pending = true
      · simp [hp]
      · simp only [hp, Bool.false_eq_true, if_false]
        exact ih _ _

/-- The statements of the pipelined strategy: creation of the secondary stream and event when
the batch is split, the stages, and the final event round-trip and release. -/
theorem pipelined_steps (w : Nat) (hw : w ≠ 1) (vsp : Int) (hdiv : vsp % (w : Int) = 0)
    (ms mst bs : Int) (buf : Ptr) (fuel : Nat) (stages : List (Int × Int))
    (hst : stageLoop bs (stageStep ms mst bs) fuel 0 = some stages) (r : Nat) :
    postDecodeEmbeddingWith ms mst (rankModel w vsp true r) buf buf bs fuel =
      Except.ok
        ((if stageStep ms mst bs < bs then
            [Step.checked DeviceOp.streamCreate, Step.checked DeviceOp.eventCreate]
          else []) ++
         (stages.map (stageSteps (rankModel w vsp true r) (vsp / w) buf bs
            (if stageStep ms mst bs < bs then Stream.secondary else Stream.primary))).flatten ++
         (if stageStep ms mst bs < bs then
            [Step.checked (DeviceOp.eventRecord Stream.secondary),
             Step.checked (DeviceOp.streamWaitEvent Stream.primary),
             Step.checked DeviceOp.eventDestroy,
             Step.checked DeviceOp.streamDestroy]
          else [])) := by
  have hw1 : ¬ (w : Int) = 1 := by omega
  unfold postDecodeEmbeddingWith
  simp only [rankModel, hdiv, ne_eq, not_true_eq_false, if_false, hw1, Bool.true_eq_false, hst]
  by_cases hlt : stageStep ms mst bs < bs
  · simp only [hlt, if_true, reduceCtorEq, not_false_eq_true]
  · simp only [hlt, if_false, not_true_eq_false]

theorem stageSteps_no_create (self : LlamaV2) (lvs : Int) (buf : Ptr) (bs : Int)
    (cs : Stream) (stage : Int × Int) :
    Step.submit DeviceOp.streamCreate ∉ stageSteps self lvs buf bs cs stage ∧
    Step.checked DeviceOp.streamCreate ∉ stageSteps self lvs buf bs cs stage := by
  cases cs <;> simp [stageSteps, invoke_gemm]

/-! ### Bounds of the overlay copies -/

/-- Bounds of the offsets and of the token count of the copy of a well-formed range that is
neither skipped nor stops the scan, for a non-negative token count of the sequence. -/
theorem rangeCopy_bounds (c len b e : Int) (hlen : 0 ≤ len) (hbe : b ≤ e)
    (h1 : ¬ c + len - 1 < b) (h2 : ¬ e ≤ c) :
    0 ≤ max 0 (b - c) ∧ 0 ≤ max 0 (c - b) ∧ 0 ≤ min e (c + len) - max b c ∧
    max 0 (b - c) + (min e (c + len) - max b c) ≤ len ∧
    max 0 (c - b) + (min e (c + len) - max b c) ≤ e - b := by
  omega

/-- Every copy of the scan of one sequence is the copy of one of its ranges, with the offsets
and count computed by the source. -/
theorem scanCopies_origin {α : Type} (H : Nat) (c len cur : Int) :
    ∀ (L : List ((Int → α) × (Int × Int))) (cp : Memcpy α),
      cp ∈ scanCopies H c len cur L →
      ∃ x ∈ L, ¬ c + len - 1 < x.2.1 ∧ ¬ x.2.2 ≤ c ∧
        cp = rangeCopy H cur x.1 (max 0 (x.2.1 - c)) (max 0 (c - x.2.1)) (max x.2.1 c)
          (min x.2.2 (c + len)) := by
  intro L
  induction L with
  | nil => intro cp h; simp [scanCopies] at h
  | cons hd rest ih =>
    obtain ⟨emb, b, e⟩ := hd
    intro cp hmem
    rcases rangeAction_cases c len b e with ⟨_, ha⟩ | ⟨_, _, ha⟩ | ⟨h1, h2, ha⟩
    · simp only [scanCopies, ha] at hmem
      obtain ⟨x, hx, hr⟩ := ih cp hmem
      exact ⟨x, List.mem_cons_of_mem _ hx, hr⟩
    · simp [scanCopies, ha] at hmem
    · simp only [scanCopies, ha, List.mem_cons] at hmem
      rcases hmem with rfl | hmem
      · exact ⟨(emb, (b, e)), List.mem_cons_self _ _, h1, h2, rfl⟩
      · obtain ⟨x, hx, hr⟩ := ih cp hmem
        exact ⟨x, List.mem_cons_of_mem _ hx, hr⟩

/-- Every copy of the iterations `i, ..., i + n - 1` of the sequence loop is the copy of a
range of one of these sequences, issued at the cursor of that sequence. -/
theorem batchCopies_origin {α : Type} (H : Nat) (lens : Nat → Int) (seqs : Nat → Sequence α) :
    ∀ (n i : Nat) (cur : Int) (cp : Memcpy α), cp ∈ batchCopies H lens seqs n i cur →
      ∃ i1, i ≤ i1 ∧ i1 < i + n ∧ ∃ x ∈ (seqs i1).visitOrder,
        ¬ (seqs i1).cache_len + lens i1 - 1 < x.2.1 ∧ ¬ x.2.2 ≤ (seqs i1).cache_len ∧
        cp = rangeCopy H (cur + (tokenOffset lens i1 - tokenOffset lens i) * H) x.1
          (max 0 (x.2.1 - (seqs i1).cache_len)) (max 0 ((seqs i1).cache_len - x.2.1))
          (max x.2.1 (seqs i1).cache_len) (min x.2.2 ((seqs i1).cache_len + lens i1)) := by
  intro n
  induction n with
  | zero => intro i cur cp h; simp [batchCopies] at h
  | succ n ih =>
    intro i cur cp hmem
    rw [batchCopies, List.mem_append] at hmem
    rcases hmem with hmem | hmem
    · obtain ⟨x, hx, h1, h2, hcp⟩ := scanCopies_origin H _ _ cur _ cp hmem
      refine ⟨i, Nat.le_refl _, by omega, x, hx, h1, h2, ?_⟩
      rw [hcp, Int.sub_self, Int.zero_mul, Int.add_zero]
    · obtain ⟨i1, hi1, hi2, x, hx, h1, h2, hcp⟩ := ih (i + 1) _ cp hmem
      refine ⟨i1, by omega, by omega, x, hx, h1, h2, ?_⟩
      rw [hcp]
      congr 1
      show cur + lens i * H + (tokenOffset lens i1 - (tokenOffset lens i + lens i)) * H = _
      ring

theorem stageStep_compiled (bs : Int) : stageStep 1 512 bs = bs := by
  unfold stageStep
  rw [Int.tdiv_one]
  omega

theorem stageLoop_single (bs : Int) (hbs : 1 ≤ bs) (fuel : Nat) (hfuel : 1 ≤ fuel) :
    stageLoop bs bs fuel 0 = some [(0, bs)] := by
  obtain ⟨f, rfl⟩ : ∃ f, fuel = f + 1 := ⟨fuel - 1, by omega⟩
  have h2 : stageLoop bs bs f (0 + bs) = some [] := by
    cases f <;> simp [stageLoop]
  have h3 : min (0 + bs) bs - 0 = bs := by omega
  simp only [stageLoop, show (0 : Int) < bs by omega, if_true, h2, Option.map_some', h3]

theorem stageLoop_nonempty_iff (bs step : Int) (fuel : Nat) (first : Int)
    (stages : List (Int × Int)) (h : stageLoop bs step fuel first = some stages) :
    first < bs ↔ stages ≠ [] := by
  by_cases hlt : first < bs
  · cases fuel with
    | zero => simp [stageLoop, hlt] at h
    | succ f =>
      simp only [stageLoop, hlt, if_true, Option.map_eq_some'] at h
      obtain ⟨rest, _, hst⟩ := h
      subst hst
      simp [hlt]
  · have : stages = [] := by
      cases fuel <;> simp [stageLoop, hlt] at h <;> exact h
    simp [hlt, this]

theorem stageSteps_primary_no_checked (self : LlamaV2) (lvs : Int) (buf : Ptr) (bs : Int)
    (stage : Int × Int) (op : DeviceOp) :
    Step.checked op ∉ stageSteps self lvs buf bs Stream.primary stage := by
  simp [stageSteps]

theorem stageSteps_allGather2D_stream (self : LlamaV2) (lvs : Int) (buf : Ptr) (bs : Int)
    (cs : Stream) (stage : Int × Int) (sb rb : Ptr) (p st wd h : Int) (f l : Bool)
    (cs1 : Stream)
    (hmem : Step.submit (DeviceOp.allGather2D sb rb p st wd h f l cs1) ∈
      stageSteps self lvs buf bs cs stage) : cs1 = cs := by
  cases cs <;> simp [stageSteps, invoke_gemm] at hmem <;> exact hmem.2.2.2.2.2.2.2.2

/-- The number of stages is at least two exactly when the step is below the batch size. -/
theorem stages_split_iff (ms mst bs : Int) (hmst : 1 ≤ mst) (fuel : Nat)
    (stages : List (Int × Int))
    (hst : stageLoop bs (stageStep ms mst bs) fuel 0 = some stages) :
    stageStep ms mst bs < bs ↔ 2 ≤ stages.length := by
  by_cases hb : 1 ≤ bs
  · cases fuel with
    | zero => simp [stageLoop, show (0 : Int) < bs by omega] at hst
    | succ f =>
      simp only [stageLoop, show (0 : Int) < bs by omega, if_true, Option.map_eq_some'] at hst
      obtain ⟨rest, hrest, hs⟩ := hst
      subst hs
      rw [Int.zero_add] at hrest
      rw [stageLoop_nonempty_iff bs _ f _ rest hrest, List.length_cons]
      cases rest with
      | nil => simp
      | cons a t => simp
  · have hnil : stages = [] := by
      cases fuel <;> simp [stageLoop, show ¬ (0 : Int) < bs by omega] at hst <;> exact hst
    subst hnil
    have : ¬ stageStep ms mst bs < bs := by
      unfold stageStep
      omega
    simp [this]

/-! ### The check discipline of the device statements -/

theorem checkedFrom_append (a b : List Step) :
    ∀ u : Bool, checkedFrom u (a ++ b) = (checkedFrom u a).bind (fun v => checkedFrom v b) := by
  induction a with
  | nil => intro u; rfl
  | cons s a ih =>
    intro u
    cases s with
    | submit op =>
      simp only [List.cons_append, checkedFrom]
      by_cases h : op.isSubmission = true
      · simp only [h, if_true]
        cases u
        · simp only [Bool.false_eq_true, if_false]; exact ih true
        · simp only [if_true]; rfl
      · simp only [h, if_false, Bool.false_eq_true]; exact ih u
    | checked op =>
      simp only [List.cons_append, checkedFrom]
      by_cases h : op.isSubmission = true
      · simp only [h, if_true]
        cases u
        · simp only [Bool.false_eq_true, if_false]; exact ih false
        · simp only [if_true]; rfl
      · simp only [h, if_false, Bool.false_eq_true]; exact ih u
    | sync_check =>
      simp only [List.cons_append, checkedFrom]; exact ih false

theorem checkedFrom_stageSteps (self : LlamaV2) (lvs : Int) (ll : Ptr) (bs : Int)
    (cs : Stream) (stage : Int × Int) :
    checkedFrom false (stageSteps self lvs ll bs cs stage) = some false := by
  cases cs <;> rfl

theorem checkedFrom_flatten_stageSteps (self : LlamaV2) (lvs : Int) (ll : Ptr) (bs : Int)
    (cs : Stream) (stages : List (Int × Int)) :
    checkedFrom false ((stages.map (stageSteps self lvs ll bs cs)).flatten) = some false := by
  induction stages with
  | nil => rfl
  | cons s rest ih =>
    rw [List.map_cons, List.flatten_cons, checkedFrom_append, checkedFrom_stageSteps]
    exact ih

theorem postDecodeEmbeddingWith_checked (ms mst : Int) (self : LlamaV2) (logits ll : Ptr)
    (bs : Int) (fuel : Nat) (steps : List Step)
    (h : postDecodeEmbeddingWith ms mst self logits ll bs fuel = Except.ok steps) :
    checkedBeforeNext steps = true := by
  unfold postDecodeEmbeddingWith at h
  unfold checkedBeforeNext
  split at h
  · cases h
  · split at h
    · cases h; rfl
    · split at h
      · split at h
        · cases h
        · cases h; rfl
      · split at h
        · cases h
        · dsimp only at h
          cases hs : stageLoop bs (stageStep ms mst bs) fuel 0 with
          | none => rw [hs] at h; cases h
          | some stages =>
            rw [hs] at h
            cases h
            rw [checkedFrom_append, checkedFrom_append]
            have e1 : checkedFrom false (if stageStep ms mst bs < bs then
                [Step.checked DeviceOp.streamCreate, Step.checked DeviceOp.eventCreate]
              else []) = some false := by
              split <;> rfl
            rw [e1]
            simp only [Option.some_bind]
            rw [checkedFrom_flatten_stageSteps]
            simp only [Option.some_bind]
            split <;> rfl

theorem embeddingSteps_checked (self : LlamaV2) (di dout : Ptr) (tn : Nat) (caf : List Step)
    (h : checkedBeforeNext caf = true) :
    checkedBeforeNext (embeddingSteps self di dout tn caf) = true := by
  unfold checkedBeforeNext at h ⊢
  unfold embeddingSteps
  split
  · rfl
  · rw [checkedFrom_append]
    have e1 : checkedFrom false (if self.tp_size_ = 1 then
      [Step.submit (DeviceOp.embeddingLookup di tn self.hidden_units_),
       Step.sync_check]
     else
      let local_hidden_units : Int := (self.hidden_units_ : Int) / self.tp_size_
      let slice : Int := (tn : Int) * local_hidden_units
      let shard : Ptr :=
        { region := dout.region, off := dout.off + self.tp_rank_ * slice }
      [Step.submit (DeviceOp.embeddingLookup shard tn local_hidden_units),
       Step.sync_check,
       Step.submit (DeviceOp.allGather shard dout slice),
       Step.sync_check,
       Step.submit (DeviceOp.transpose102 di dout self.tp_size_ tn
         local_hidden_units),
       Step.sync_check]) = some false := by
      split <;> rfl
    rw [e1]
    simpa using h


/-- Meaning of the scan: when it ends with the flag clear, a status check follows every
submission that is not checked at the call, and no submission lies between the two. -/
theorem checkedFrom_pending (post : List Step) (h : checkedFrom true post = some false) :
    ∃ mid rest, post = mid ++ Step.sync_check :: rest ∧ ∀ t ∈ mid, t.submits = false := by
  induction post with
  | nil => simp [checkedFrom] at h
  | cons t post ih =>
    cases t with
    | sync_check => exact ⟨[], post, rfl, by simp⟩
    | submit op =>
      simp only [checkedFrom] at h
      by_cases hop : op.isSubmission = true
      · simp [hop] at h
      · simp only [hop, if_false, Bool.false_eq_true] at h
        obtain ⟨mid, rest, e, hm⟩ := ih h
        refine ⟨Step.submit op :: mid, rest, by rw [e]; rfl, ?_⟩
        intro t ht
        rcases List.mem_cons.mp ht with rfl | ht
        · simpa [Step.submits] using hop
        · exact hm t ht
    | checked op =>
      simp only [checkedFrom] at h
      by_cases hop : op.isSubmission = true
      · simp [hop] at h
      · simp only [hop, if_false, Bool.false_eq_true] at h
        obtain ⟨mid, rest, e, hm⟩ := ih h
        refine ⟨Step.checked op :: mid, rest, by rw [e]; rfl, ?_⟩
        intro t ht
        rcases List.mem_cons.mp ht with rfl | ht
        · simpa [Step.submits] using hop
        · exact hm t ht

theorem checkedFrom_sound (pre : List Step) (op : DeviceOp) (post : List Step)
    (hop : op.isSubmission = true) :
    ∀ u : Bool, checkedFrom u (pre ++ Step.submit op :: post) = some false →
      ∃ mid rest, post = mid ++ Step.sync_check :: rest ∧ ∀ t ∈ mid, t.submits = false := by
  induction pre with
  | nil =>
    intro u h
    simp only [List.nil_append, checkedFrom, hop, if_true] at h
    cases u
    · simp only [Bool.false_eq_true, if_false] at h
      exact checkedFrom_pending post h
    · simp at h
  | cons t pre ih =>
    intro u h
    cases t with
    | sync_check => exact ih false h
    | submit o =>
      simp only [List.cons_append, checkedFrom] at h
      by_cases ho : o.isSubmission = true
      · simp only [ho, if_true] at h
        cases u
        · exact ih true h
        · simp at h
      · simp only [ho, if_false, Bool.false_eq_true] at h
        exact ih u h
    | checked o =>
      simp only [List.cons_append, checkedFrom] at h
      by_cases ho : o.isSubmission = true
      · simp only [ho, if_true] at h
        cases u
        · exact ih false h
        · simp at h
      · simp only [ho, if_false, Bool.false_eq_true] at h
        exact ih u h

/-! ### The tensor maps of `forwardUnified` -/

theorem insert_of_lookup_none (m : UnorderedMap) (kv : String × Tensor)
    (h : List.lookup kv.1 m = none) : UnorderedMap.insert m kv = m ++ [kv] := by
  unfold UnorderedMap.insert
  rw [h]
  rfl

theorem lookup_none_of_not_mem (k : String) (m : List (String × Tensor))
    (h : k ∉ m.map Prod.fst) : List.lookup k m = none := by
  induction m with
  | nil => rfl
  | cons kv m ih =>
    obtain ⟨k1, v⟩ := kv
    simp only [List.map_cons, List.mem_cons, not_or] at h
    rw [lookup_cons_ite, if_neg h.1]
    exact ih h.2

theorem foldl_insert_nodup (l : List (String × Tensor)) :
    ∀ acc : UnorderedMap, ((acc ++ l).map Prod.fst).Nodup →
      l.foldl UnorderedMap.insert acc = acc ++ l := by
  induction l with
  | nil => intro acc _; simp
  | cons kv l ih =>
    intro acc h
    have hk : kv.1 ∉ acc.map Prod.fst := by
      rw [List.map_append, List.map_cons] at h
      have := (List.nodup_append.mp h).2.2
      intro hmem
      exact this hmem (List.mem_cons_self _ _)
    rw [List.foldl_cons, insert_of_lookup_none acc kv (lookup_none_of_not_mem _ _ hk)]
    rw [ih (acc ++ [kv]) (by simpa using h)]
    simp

theorem ofList_nodup (l : List (String × Tensor)) (h : (l.map Prod.fst).Nodup) :
    UnorderedMap.ofList l = l := by
  unfold UnorderedMap.ofList
  rw [foldl_insert_nodup l [] (by simpa using h)]
  rfl

theorem unifiedInputs_keys (self : LlamaV2) (p : UnifiedPtrs) (di : Ptr) (tn : Nat)
    (dc pf : Int) :
    (unifiedInputs self p di tn dc pf).map Prod.fst =
      ["decoder_input", "output_norm_weight", "h_q_len", "h_k_len", "finished",
       "dc_batch_size", "pf_batch_size", "rope_theta", "cu_block_counts",
       "local_token_nums"] := rfl

theorem unifiedOutputs_keys (self : LlamaV2) (p : UnifiedPtrs) (out dout : Ptr) (tn : Nat)
    (dc pf : Int) :
    (unifiedOutputs self p out dout tn dc pf).map Prod.fst =
      ["decoder_output", "block_ptrs", "last_token_hidden_units"] := rfl

theorem ofList_unifiedInputs (self : LlamaV2) (p : UnifiedPtrs) (di : Ptr) (tn : Nat)
    (dc pf : Int) :
    TensorMap.ofList (unifiedInputs self p di tn dc pf) = ⟨unifiedInputs self p di tn dc pf⟩ := by
  unfold TensorMap.ofList
  rw [ofList_nodup _ (by rw [unifiedInputs_keys]; decide)]

theorem ofList_unifiedOutputs (self : LlamaV2) (p : UnifiedPtrs) (out dout : Ptr) (tn : Nat)
    (dc pf : Int) :
    TensorMap.ofList (unifiedOutputs self p out dout tn dc pf) =
      ⟨unifiedOutputs self p out dout tn dc pf⟩ := by
  unfold TensorMap.ofList
  rw [ofList_nodup _ (by rw [unifiedOutputs_keys]; decide)]

theorem decoderInputs_entries (self : LlamaV2) (p : UnifiedPtrs) (di : Ptr) (tn : Nat)
    (dc pf : Int) (lm : Option Nat) (he : Bool) :
    (decoderInputs self p di tn dc pf lm he).entries =
      unifiedInputs self p di tn dc pf ++
        (match lm with
         | some addr =>
           if he then
             [("lora_mask", ⟨MemoryType.MEMORY_GPU, DataType.TYPE_INT32, [(tn : Int)],
               DataRef.arg addr⟩)]
           else []
         | none => []) := by
  have hno : List.lookup "lora_mask" (unifiedInputs self p di tn dc pf) = none :=
    lookup_none_of_not_mem _ _ (by rw [unifiedInputs_keys]; decide)
  unfold decoderInputs
  rw [ofList_unifiedInputs]
  cases lm with
  | none => exact (List.append_nil _).symm
  | some addr =>
    cases he with
    | false => exact (List.append_nil _).symm
    | true =>
      unfold TensorMap.insert
      exact insert_of_lookup_none (unifiedInputs self p di tn dc pf)
        ("lora_mask", ⟨MemoryType.MEMORY_GPU, DataType.TYPE_INT32, [(tn : Int)],
          DataRef.arg addr⟩) hno

theorem decoderInputs_keys (self : LlamaV2) (p : UnifiedPtrs) (di : Ptr) (tn : Nat)
    (dc pf : Int) (lm : Option Nat) (he : Bool) :
    (decoderInputs self p di tn dc pf lm he).keys =
      (unifiedInputs self p di tn dc pf).map Prod.fst ++
        (if lm.isSome = true ∧ he = true then ["lora_mask"] else []) := by
  unfold TensorMap.keys
  rw [decoderInputs_entries, List.map_append]
  cases lm <;> cases he <;> simp


theorem isExist_iff_mem_keys (m : TensorMap) (k : String) :
    m.isExist k = true ↔ k ∈ m.keys := by
  unfold TensorMap.isExist TensorMap.keys
  constructor
  · intro h
    by_contra hk
    rw [lookup_none_of_not_mem k m.entries hk] at h
    simp at h
  · intro h
    rw [List.lookup_isSome_iff]
    obtain ⟨kv, hkv, rfl⟩ := List.mem_map.mp h
    exact ⟨kv, hkv, by simp⟩

/-! ### Runs of unchecked submissions -/

theorem checkedFrom_replicate (k : Nat) :
    ∀ u : Bool, checkedFrom u (List.replicate k Step.sync_check) =
      some (if k = 0 then u else false) := by
  induction k with
  | zero => intro u; rfl
  | succ k ih =>
    intro u
    rw [List.replicate_succ]
    show checkedFrom false (List.replicate k Step.sync_check) = _
    rw [ih false]
    simp

theorem checkedFrom_submits (l : List Step) (hl : ∀ s ∈ l, ∃ op, s = Step.submit op) :
    ∀ u : Bool, checkedFrom u l =
      if (l.filter Step.submits).length + u.toNat ≤ 1 then
        some (decide ((l.filter Step.submits).length + u.toNat = 1))
      else none := by
  induction l with
  | nil => intro u; cases u <;> rfl
  | cons s l ih =>
    have ih1 := ih (fun t ht => hl t (List.mem_cons_of_mem _ ht))
    obtain ⟨op, rfl⟩ := hl s (List.mem_cons_self _ _)
    intro u
    by_cases hop : op.isSubmission = true
    · have hf : (List.filter Step.submits (Step.submit op :: l)).length =
          (List.filter Step.submits l).length + 1 := by
        rw [List.filter_cons_of_pos (by simpa [Step.submits] using hop)]
        rfl
      rw [hf]
      cases u
      · simp only [checkedFrom, hop, if_true, Bool.false_eq_true, if_false]
        rw [ih1 true]
        simp only [Bool.toNat_true, Bool.toNat_false, Nat.add_zero]
      · simp only [checkedFrom, hop, if_true]
        rw [if_neg (by simp)]
    · have hf : (List.filter Step.submits (Step.submit op :: l)).length =
          (List.filter Step.submits l).length := by
        rw [List.filter_cons_of_neg (by simpa [Step.submits] using hop)]
      rw [hf]
      simp only [checkedFrom, hop, Bool.false_eq_true, if_false]
      exact ih1 u

/-- The statements of `forwardUnified` as a run of `updateEmbedding` calls between the checked
assembly and the closing status checks. -/
theorem forwardUnified_steps {α : Type} (self : LlamaV2) (tuning : Bool)
    (count_and_fix : List Step) (out decoder_output decoder_input : Ptr) (p : UnifiedPtrs)
    (h_input_length : Nat → Int) (token_num : Nat) (dc_batch_size pf_batch_size : Int)
    (lora_mask : Option Nat) (sequences : Nat → Sequence α) (res : ForwardUnifiedResult)
    (hres : forwardUnified self tuning count_and_fix out decoder_output decoder_input p
      h_input_length token_num dc_batch_size pf_batch_size lora_mask sequences = some res) :
    ∃ (overlay : List Step) (k : Nat),
      res.steps = embeddingSteps self decoder_input decoder_output token_num count_and_fix ++
        overlay ++ List.replicate k Step.sync_check ∧
      (token_num ≠ 0 → 0 < k) ∧
      (token_num = 0 → overlay = [] ∧ k = 0) ∧
      (tuning = true → overlay = []) ∧
      (token_num ≠ 0 → tuning = false →
        ∃ st, updateEmbedding self.hidden_units_ tuning (dc_batch_size + pf_batch_size)
            h_input_length sequences lora_mask.isSome false = some st ∧
          overlay =
            st.copies.map (fun cp =>
              Step.submit (DeviceOp.memcpyAsync
                { region := decoder_input.region, off := decoder_input.off + cp.dst }
                cp.src_off cp.count)) ++
            (if lora_mask.isSome && st.have_embeddings then
              [Step.submit (DeviceOp.maskCopy token_num),
               Step.submit DeviceOp.streamSynchronize]
             else [])) ∧
      (∀ s ∈ overlay, ∃ op, s = Step.submit op) := by
  unfold forwardUnified at hres
  by_cases h0 : token_num = 0
  · simp only [h0, if_true, Option.map_some', Option.some.injEq] at hres
    subst hres
    refine ⟨[], 0, by simp [h0], fun h => absurd h0 h, fun _ => ⟨rfl, rfl⟩, fun _ => rfl,
      fun h => absurd h0 h, by simp⟩
  · simp only [h0, if_false] at hres
    cases hu : updateEmbedding self.hidden_units_ tuning (dc_batch_size + pf_batch_size)
        h_input_length sequences lora_mask.isSome false with
    | none => rw [hu] at hres; simp at hres
    | some st =>
      rw [hu] at hres
      simp only [Option.map_some', Option.some.injEq] at hres
      subst hres
      cases tuning with
      | true =>
        refine ⟨[], 1, ?_, fun _ => Nat.one_pos, fun h => absurd h h0, fun _ => rfl,
          fun _ h => absurd h (by decide), by simp⟩
        simp [updateEmbeddingSteps]
      | false =>
        refine ⟨st.copies.map (fun cp =>
              Step.submit (DeviceOp.memcpyAsync
                { region := decoder_input.region, off := decoder_input.off + cp.dst }
                cp.src_off cp.count)) ++
            (if lora_mask.isSome && st.have_embeddings then
              [Step.submit (DeviceOp.maskCopy token_num),
               Step.submit DeviceOp.streamSynchronize]
             else []), 2, ?_, fun _ => by decide, fun h => absurd h h0,
          fun h => absurd h (by decide), fun _ _ => ⟨st, rfl, rfl⟩, ?_⟩
        · simp [updateEmbeddingSteps, List.replicate]
        · intro s hs
          rcases List.mem_append.mp hs with h | h
          · obtain ⟨cp, _, rfl⟩ := List.mem_map.mp h
            exact ⟨_, rfl⟩
          · split at h
            · rcases List.mem_cons.mp h with rfl | h
              · exact ⟨_, rfl⟩
              · rcases List.mem_cons.mp h with rfl | h
                · exact ⟨_, rfl⟩
                · cases h
            · cases h

/-! ### Release of the secondary stream and the event -/

/-- With staging constants that split the batch (`max_stages = 2`, `min_stage_tokens = 1`,
not the compiled ones) the accounting reports both resources as held when the status check
after a failed matrix multiply aborts the step. -/
theorem heldAfter_split_abort :
    ∃ steps, postDecodeEmbeddingWith 2 1 (rankModel 2 4 true 0) ⟨0, 0⟩ ⟨0, 0⟩ 2 2 =
        Except.ok steps ∧
      (runSteps (fun k => k == 2) steps [] false).aborted = true ∧
      heldAfter (runSteps (fun k => k == 2) steps [] false).calls =
        { stream := true, event := true } := by
  refine ⟨_, rfl, ?_, ?_⟩ <;> decide
/-! ## The claims -/

/-- C2. For a batch whose sequences have one range per embedding, ranges that are well-formed
(`begin ≤ end`), sorted ascending and pairwise disjoint, and non-negative token counts, the
reverse scan with early stop of `updateEmbedding` returns, and the copies it issued leave in
the destination buffer exactly the naive overlay: for every sequence `i` and position `p` of
its window `[cache_len, cache_len + h_input_length)`, the row at token index
`tokenOffset i + (p - cache_len)` is row `p - begin_j` of embedding `j` when `p` lies in range
`j` of the sequence, and is the assembler's value when `p` lies in no range. -/
theorem updateEmbedding_refines_naive_overlay {α : Type} (H : Nat) (bsz : Int)
    (lens : Nat → Int) (seqs : Nat → Sequence α) (lm he : Bool) (buf : Int → α)
    (hpair : ∀ i : Nat, (i : Int) < bsz →
      (seqs i).input_embedding_ranges.length = (seqs i).input_embeddings.length)
    (hlen : ∀ i : Nat, (i : Int) < bsz → 0 ≤ lens i)
    (hwf : ∀ i : Nat, (i : Int) < bsz → ∀ r ∈ (seqs i).input_embedding_ranges, r.1 ≤ r.2)
    (hsorted : ∀ i : Nat, (i : Int) < bsz →
      (seqs i).input_embedding_ranges.Pairwise (fun r1 r2 => r1.2 ≤ r2.1)) :
    ∃ st, updateEmbedding H false bsz lens seqs lm he = some st ∧
      ∀ (i : Nat), (i : Int) < bsz → ∀ (p k : Int),
        (seqs i).cache_len ≤ p → p < (seqs i).cache_len + lens i → 0 ≤ k → k < H →
        (∀ (j : Nat) (emb : Int → α) (b e : Int),
          (seqs i).input_embeddings[j]? = some emb →
          (seqs i).input_embedding_ranges[j]? = some (b, e) → b ≤ p → p < e →
          applyCopies buf st.copies
              ((tokenOffset lens i + (p - (seqs i).cache_len)) * H + k) =
            emb ((p - b) * H + k)) ∧
        ((∀ r ∈ (seqs i).input_embedding_ranges, ¬ (r.1 ≤ p ∧ p < r.2)) →
          applyCopies buf st.copies
              ((tokenOffset lens i + (p - (seqs i).cache_len)) * H + k) =
            buf ((tokenOffset lens i + (p - (seqs i).cache_len)) * H + k)) := by
  obtain ⟨st, hs, hc⟩ := seqLoop_eq_batchCopies H lm lens seqs bsz.toNat 0 0 0
    { copies := [], mask := fun _ => 0, have_embeddings := false }
    (fun m _ h2 => hpair m (by omega))
  refine ⟨st, by simp only [updateEmbedding]; exact hs, ?_⟩
  intro i hi p k hp0 hp1 hk0 hk
  have hcop : st.copies = batchCopies H lens seqs bsz.toNat 0 0 := by
    rw [hc]; simp
  obtain ⟨r1, r2⟩ := batchCopies_apply_disjoint H lens seqs bsz.toNat 0 0 buf
    (fun m _ h2 => hlen m (by omega))
    (fun m _ h2 x hx => hwf m (by omega) x.2 (visitOrder_range_mem _ x hx))
    (fun m _ h2 => visitOrder_pairwise _ (hpair m (by omega)) (hsorted m (by omega)))
    i (Nat.zero_le _) (by omega) p k
    ((tokenOffset lens i + (p - (seqs i).cache_len)) * H + k) hp0 hp1 hk0 hk
    (by show _ = 0 + (tokenOffset lens i - 0) * (H : Int) + _ + k; ring)
  rw [hcop]
  constructor
  · intro j emb b e h1 h2 hb he
    exact r1 emb b e (visitOrder_mem_of_getElem? _ j emb (b, e) h1 h2) hb he
  · intro hnone
    exact r2 (fun y hy => hnone y.2 (visitOrder_range_mem _ y hy))

/-- Witness for C2: a batch of two copies of `sampleSequence`, 8 tokens each, 4 hidden units. -/
theorem updateEmbedding_refines_naive_overlay_witness :
    ∃ st, updateEmbedding 4 false 2 (fun _ => 8) (fun _ => sampleSequence) true false = some st ∧
      ∀ (i : Nat), (i : Int) < 2 → ∀ (p k : Int),
        sampleSequence.cache_len ≤ p → p < sampleSequence.cache_len + 8 → 0 ≤ k →
        k < (4 : Nat) →
        (∀ (j : Nat) (emb : Int → Int) (b e : Int),
          sampleSequence.input_embeddings[j]? = some emb →
          sampleSequence.input_embedding_ranges[j]? = some (b, e) → b ≤ p → p < e →
          applyCopies (fun _ => 0) st.copies
              ((tokenOffset (fun _ => 8) i + (p - sampleSequence.cache_len)) * (4 : Nat) + k) =
            emb ((p - b) * (4 : Nat) + k)) ∧
        ((∀ r ∈ sampleSequence.input_embedding_ranges, ¬ (r.1 ≤ p ∧ p < r.2)) →
          applyCopies (fun _ => 0) st.copies
              ((tokenOffset (fun _ => 8) i + (p - sampleSequence.cache_len)) * (4 : Nat) + k) =
            (fun _ => (0 : Int))
              ((tokenOffset (fun _ => 8) i + (p - sampleSequence.cache_len)) * (4 : Nat) + k)) :=
  updateEmbedding_refines_naive_overlay 4 2 (fun _ => 8) (fun _ => sampleSequence) true false
    (fun _ => 0) (fun _ _ => rfl) (fun _ _ => by show (0 : Int) ≤ 8; decide)
    (fun _ _ r hr => by
      simp only [sampleSequence, List.mem_cons, List.mem_singleton, List.not_mem_nil,
        or_false] at hr
      rcases hr with rfl | rfl <;> decide)
    (fun _ _ => by simp [sampleSequence])

/-- C3. In the scan of one sequence from the last range down, at a range `[b, e)` of index
`j`: if `cache_len + h_input_length - 1 < b` the state (copies, mask, flag) is left as it is
and the scan goes on with the ranges below `j`; if the range is not skipped and
`e ≤ cache_len` the scan ends at once with the state as it is, whatever the ranges below
`j` are. -/
theorem scanRanges_skip_and_stop {α : Type} (H : Nat) (lm : Bool) (c len cur mptr : Int)
    (embeddings : List (Int → α)) (ranges : List (Int × Int)) (j : Nat) (emb : Int → α)
    (b e : Int) (st : UpdateState α)
    (hemb : embeddings[j]? = some emb) (hrange : ranges[j]? = some (b, e)) :
    (c + len - 1 < b →
      scanRanges H lm c len embeddings ranges cur mptr (j + 1) st =
        scanRanges H lm c len embeddings ranges cur mptr j st) ∧
    (¬ c + len - 1 < b → e ≤ c →
      scanRanges H lm c len embeddings ranges cur mptr (j + 1) st = some st) := by
  constructor
  · intro h
    rw [scanRanges, hemb, hrange]
    simp [rangeAction, h]
  · intro h1 h2
    rw [scanRanges, hemb, hrange]
    simp [rangeAction, h1, h2]

/-- Witness for C3: on `sampleSequence` (10 cached tokens), with one token the range
`[12, 15)` of index 1 is skipped, and with 8 tokens the range `[2, 6)` of index 0 stops the
scan. -/
theorem scanRanges_skip_and_stop_witness :
    scanRanges 4 true 10 1 sampleSequence.input_embeddings
        sampleSequence.input_embedding_ranges 0 0 (1 + 1)
        { copies := [], mask := fun _ => 0, have_embeddings := false } =
      scanRanges 4 true 10 1 sampleSequence.input_embeddings
        sampleSequence.input_embedding_ranges 0 0 1
        { copies := [], mask := fun _ => 0, have_embeddings := false } ∧
    scanRanges 4 true 10 8 sampleSequence.input_embeddings
        sampleSequence.input_embedding_ranges 0 0 (0 + 1)
        { copies := [], mask := fun _ => 0, have_embeddings := false } =
      some ({ copies := [], mask := fun _ => 0, have_embeddings := false } :
        UpdateState Int) :=
  ⟨(scanRanges_skip_and_stop 4 true 10 1 0 0 sampleSequence.input_embeddings
      sampleSequence.input_embedding_ranges 1 (fun x => 2000 + x) 12 15
      { copies := [], mask := fun _ => 0, have_embeddings := false } rfl rfl).1 (by decide),
   (scanRanges_skip_and_stop 4 true 10 8 0 0 sampleSequence.input_embeddings
      sampleSequence.input_embedding_ranges 0 (fun x => 1000 + x) 2 6
      { copies := [], mask := fun _ => 0, have_embeddings := false } rfl rfl).2
      (by decide) (by decide)⟩

/-- C4. For `vocab_size ≥ 0` and `tp ≥ 1` with `vocab_size + tp` inside the `int` range (no
overflow), `pad_vocab_size vocab_size tp` is the smallest multiple of `tp` that is at least
`vocab_size`: it is divisible by `tp`, at least `vocab_size`, below `vocab_size + tp`, and at
most every other such multiple. So the member `vocab_size_padded_` set by the constructor
passes the check `vocab_size_padded_ % tp_size_ == 0` of `postDecodeEmbedding`: when
`postDecodeEmbedding` stops on an `FT_CHECK`, it is one of the two pointer checks. -/
theorem pad_vocab_size_smallest_multiple (vocab_size tp : Int) (hv : 0 ≤ vocab_size)
    (htp : 1 ≤ tp) (hno : vocab_size + tp < 2147483648) :
    pad_vocab_size vocab_size tp % tp = 0 ∧
    vocab_size ≤ pad_vocab_size vocab_size tp ∧
    pad_vocab_size vocab_size tp < vocab_size + tp ∧
    (∀ m : Int, m % tp = 0 → vocab_size ≤ m → pad_vocab_size vocab_size tp ≤ m) ∧
    (∀ (hidden_units : Nat) (rank : Int) (flag : Bool),
      (LlamaV2.construct vocab_size hidden_units tp rank flag).vocab_size_padded_ %
        (LlamaV2.construct vocab_size hidden_units tp rank flag).tp_size_ = 0 ∧
      ∀ (logits local_logits : Ptr) (batch_size : Int) (fuel : Nat),
        postDecodeEmbedding (LlamaV2.construct vocab_size hidden_units tp rank flag)
            logits local_logits batch_size fuel = Except.error Failure.ft_check →
          tp ≠ 1 ∧ ((flag = false ∧ logits = local_logits) ∨
            (flag = true ∧ logits ≠ local_logits))) := by
  have heq := pad_vocab_size_eq vocab_size tp hv htp hno
  have hdm := Int.ediv_add_emod' (vocab_size + tp - 1) tp
  have hm0 := Int.emod_nonneg (vocab_size + tp - 1) (show tp ≠ 0 by omega)
  have hm1 := Int.emod_lt_of_pos (vocab_size + tp - 1) (show 0 < tp by omega)
  have hmod : pad_vocab_size vocab_size tp % tp = 0 := by
    rw [heq]; exact Int.mul_emod_left _ _
  refine ⟨hmod, by omega, by omega, ?_, ?_⟩
  · intro m hm hvm
    rw [heq]
    have hme := Int.ediv_add_emod' m tp
    rw [hm, Int.add_zero] at hme
    by_contra hlt
    have h1 : m / tp * tp < (vocab_size + tp - 1) / tp * tp := by omega
    have h2 : m / tp < (vocab_size + tp - 1) / tp :=
      lt_of_mul_lt_mul_right h1 (by omega)
    have h3 : (m / tp + 1) * tp ≤ (vocab_size + tp - 1) / tp * tp :=
      Int.mul_le_mul_of_nonneg_right (by omega) (by omega)
    have h4 : (m / tp + 1) * tp = m / tp * tp + tp := by ring
    omega
  · intro hidden_units rank flag
    refine ⟨hmod, ?_⟩
    intro logits local_logits batch_size fuel hfail
    unfold postDecodeEmbedding postDecodeEmbeddingWith at hfail
    simp only [LlamaV2.construct, hmod, ne_eq, not_true_eq_false, if_false] at hfail
    by_cases h1 : tp = 1
    · simp [h1] at hfail
    · refine ⟨h1, ?_⟩
      simp only [h1, if_false] at hfail
      cases flag with
      | false =>
        left
        by_cases h2 : logits = local_logits
        · exact ⟨rfl, h2⟩
        · simp [h2] at hfail
      | true =>
        right
        by_cases h2 : logits = local_logits
        · exfalso
          simp only [h2, not_true_eq_false, if_false] at hfail
          revert hfail
          cases stageLoop batch_size (stageStep 1 512 batch_size) fuel 0 <;> simp
        · exact ⟨rfl, h2⟩

/-- Witness for C4: a vocabulary of 32003 entries padded for 8 ranks. -/
theorem pad_vocab_size_smallest_multiple_witness :
    pad_vocab_size 32003 8 % 8 = 0 ∧
    32003 ≤ pad_vocab_size 32003 8 ∧
    pad_vocab_size 32003 8 < 32003 + 8 ∧
    (∀ m : Int, m % 8 = 0 → 32003 ≤ m → pad_vocab_size 32003 8 ≤ m) ∧
    (∀ (hidden_units : Nat) (rank : Int) (flag : Bool),
      (LlamaV2.construct 32003 hidden_units 8 rank flag).vocab_size_padded_ %
        (LlamaV2.construct 32003 hidden_units 8 rank flag).tp_size_ = 0 ∧
      ∀ (logits local_logits : Ptr) (batch_size : Int) (fuel : Nat),
        postDecodeEmbedding (LlamaV2.construct 32003 hidden_units 8 rank flag)
            logits local_logits batch_size fuel = Except.error Failure.ft_check →
          (8 : Int) ≠ 1 ∧ ((flag = false ∧ logits = local_logits) ∨
            (flag = true ∧ logits ≠ local_logits))) :=
  pad_vocab_size_smallest_multiple 32003 8 (by decide) (by decide) (by decide)

/-- C5. In `dynamicDecode`, for every caller-supplied input map and output map: each key of
the optional input set (respectively optional output set) has in the map handed to the
sampler exactly the entry it has in the caller's map, so it is present there if and only if
the caller supplied it and then carries the caller's tensor; and each required key is present
with the tensor built from the arguments of the call, whatever the caller's maps hold. -/
theorem dynamicDecode_optional_keys (self : LlamaV2)
    (token_ids finished sequence_length should_stop curand_state : Nat)
    (inputs outputs : TensorMap) (logits seq_limit_len context_length : Nat)
    (step ite : Int) (max_context_len token_ids_len batch_size : Nat) :
    (∀ k ∈ optional_inputs,
      List.lookup k (dynamicDecode self token_ids finished sequence_length should_stop
        curand_state inputs outputs logits seq_limit_len context_length step ite
        max_context_len token_ids_len batch_size).1 = inputs.at k ∧
      ((List.lookup k (dynamicDecode self token_ids finished sequence_length should_stop
        curand_state inputs outputs logits seq_limit_len context_length step ite
        max_context_len token_ids_len batch_size).1).isSome = inputs.isExist k)) ∧
    (∀ k ∈ optional_outputs,
      List.lookup k (dynamicDecode self token_ids finished sequence_length should_stop
        curand_state inputs outputs logits seq_limit_len context_length step ite
        max_context_len token_ids_len batch_size).2 = outputs.at k ∧
      ((List.lookup k (dynamicDecode self token_ids finished sequence_length should_stop
        curand_state inputs outputs logits seq_limit_len context_length step ite
        max_context_len token_ids_len batch_size).2).isSome = outputs.isExist k)) ∧
    (∀ kv ∈ requiredInputs self logits seq_limit_len context_length step ite max_context_len
        batch_size,
      List.lookup kv.1 (dynamicDecode self token_ids finished sequence_length should_stop
        curand_state inputs outputs logits seq_limit_len context_length step ite
        max_context_len token_ids_len batch_size).1 = some kv.2) ∧
    (∀ kv ∈ requiredOutputs token_ids finished sequence_length should_stop curand_state
        token_ids_len batch_size,
      List.lookup kv.1 (dynamicDecode self token_ids finished sequence_length should_stop
        curand_state inputs outputs logits seq_limit_len context_length step ite
        max_context_len token_ids_len batch_size).2 = some kv.2) := by
  have hin : ∀ k ∈ optional_inputs,
      List.lookup k (dynamicDecode self token_ids finished sequence_length should_stop
        curand_state inputs outputs logits seq_limit_len context_length step ite
        max_context_len token_ids_len batch_size).1 = inputs.at k := by
    intro k hk
    simp only [dynamicDecode, lookup_foldl_forwardOptional, lookup_ofList, if_pos hk]
    simp only [optional_inputs, List.mem_cons, List.mem_singleton, List.not_mem_nil,
      or_false] at hk
    rcases hk with rfl | rfl | rfl | rfl | rfl | rfl | rfl <;>
      simp [requiredInputs, lookup_cons_ite, TensorMap.at]
  have hout : ∀ k ∈ optional_outputs,
      List.lookup k (dynamicDecode self token_ids finished sequence_length should_stop
        curand_state inputs outputs logits seq_limit_len context_length step ite
        max_context_len token_ids_len batch_size).2 = outputs.at k := by
    intro k hk
    simp only [dynamicDecode, lookup_foldl_forwardOptional, lookup_ofList, if_pos hk]
    simp only [optional_outputs, List.mem_cons, List.mem_singleton, List.not_mem_nil,
      or_false] at hk
    rcases hk with rfl | rfl | rfl | rfl | rfl <;>
      simp [requiredOutputs, lookup_cons_ite, TensorMap.at]
  refine ⟨fun k hk => ⟨hin k hk, ?_⟩, fun k hk => ⟨hout k hk, ?_⟩, ?_, ?_⟩
  · rw [hin k hk]; rfl
  · rw [hout k hk]; rfl
  · intro kv hkv
    simp only [dynamicDecode, lookup_foldl_forwardOptional, lookup_ofList]
    simp only [requiredInputs, List.mem_cons, List.mem_singleton, List.not_mem_nil,
      or_false] at hkv
    rcases hkv with rfl | rfl | rfl | rfl | rfl | rfl | rfl <;>
      simp [requiredInputs, lookup_cons_ite]
  · intro kv hkv
    simp only [dynamicDecode, lookup_foldl_forwardOptional, lookup_ofList]
    simp only [requiredOutputs, List.mem_cons, List.mem_singleton, List.not_mem_nil,
      or_false] at hkv
    rcases hkv with rfl | rfl | rfl | rfl | rfl <;>
      simp [requiredOutputs, lookup_cons_ite]

/-- Witness for C5 (a mixed set): the caller supplies `temperature` but not `end_ids`, and an
entry under the required key `logits`, which does not replace the required tensor. -/
theorem dynamicDecode_optional_keys_witness :
    List.lookup "temperature" (dynamicDecode sampleModel 1 2 3 4 5 sampleInputs sampleOutputs
        6 7 8 0 0 16 32 4).1 =
      some ⟨MemoryType.MEMORY_GPU, DataType.TYPE_FP32, [4], DataRef.arg 100⟩ ∧
    List.lookup "end_ids" (dynamicDecode sampleModel 1 2 3 4 5 sampleInputs sampleOutputs
        6 7 8 0 0 16 32 4).1 = none ∧
    List.lookup "sampled_nums" (dynamicDecode sampleModel 1 2 3 4 5 sampleInputs sampleOutputs
        6 7 8 0 0 16 32 4).2 =
      some ⟨MemoryType.MEMORY_GPU, DataType.TYPE_UINT32, [4], DataRef.arg 102⟩ ∧
    List.lookup "logits" (dynamicDecode sampleModel 1 2 3 4 5 sampleInputs sampleOutputs
        6 7 8 0 0 16 32 4).1 =
      some ⟨MemoryType.MEMORY_GPU, DataType.TYPE_MODEL, [4, 1, 6], DataRef.arg 6⟩ :=
  ⟨((dynamicDecode_optional_keys sampleModel 1 2 3 4 5 sampleInputs sampleOutputs
      6 7 8 0 0 16 32 4).1 "temperature" (by decide)).1.trans (by decide),
   ((dynamicDecode_optional_keys sampleModel 1 2 3 4 5 sampleInputs sampleOutputs
      6 7 8 0 0 16 32 4).1 "end_ids" (by decide)).1.trans (by decide),
   ((dynamicDecode_optional_keys sampleModel 1 2 3 4 5 sampleInputs sampleOutputs
      6 7 8 0 0 16 32 4).2.1 "sampled_nums" (by decide)).1.trans (by decide),
   (dynamicDecode_optional_keys sampleModel 1 2 3 4 5 sampleInputs sampleOutputs
      6 7 8 0 0 16 32 4).2.2.1
      ("logits", ⟨MemoryType.MEMORY_GPU, DataType.TYPE_MODEL, [4, 1, 6], DataRef.arg 6⟩)
      (by decide)⟩

/-- C8. When a mask is requested, the token counts are non-negative and sum to `token_num`
(and every embedding has its range, `hidden_units_ > 0`), `updateEmbedding` returns and the
host mask it built has, for every token index `t` in `[0, token_num)`, the value 1 when some
overlay copy overwrote row `t` of the input buffer and the value 0 otherwise; no mask cell
outside `[0, token_num)` is written. -/
theorem updateEmbedding_mask_marks_overwritten {α : Type} (H : Nat) (hH : 0 < H) (bsz : Int)
    (lens : Nat → Int) (seqs : Nat → Sequence α) (he : Bool) (token_num : Int)
    (hpair : ∀ i : Nat, (i : Int) < bsz →
      (seqs i).input_embedding_ranges.length = (seqs i).input_embeddings.length)
    (hlen : ∀ i : Nat, (i : Int) < bsz → 0 ≤ lens i)
    (hsum : tokenOffset lens bsz.toNat = token_num) :
    ∃ st, updateEmbedding H false bsz lens seqs true he = some st ∧
      (∀ t, 0 ≤ t → t < token_num →
        ((∃ cp ∈ st.copies, ∀ k, 0 ≤ k → k < (H : Int) → cp.covers (t * H + k)) →
          st.mask t = 1) ∧
        ((¬ ∃ cp ∈ st.copies, ∀ k, 0 ≤ k → k < (H : Int) → cp.covers (t * H + k)) →
          st.mask t = 0)) ∧
      (∀ t, st.mask t ≠ 0 → 0 ≤ t ∧ t < token_num) := by
  obtain ⟨st, hs, _⟩ := seqLoop_eq_batchCopies H true lens seqs bsz.toNat 0 0 0
    { copies := [], mask := fun _ => 0, have_embeddings := false }
    (fun m _ h2 => hpair m (by omega))
  have hinv := seqLoop_preserves H true lens seqs bsz.toNat
    (fun i cur mptr s => cur = mptr * H ∧ mptr = tokenOffset lens i ∧ 0 ≤ mptr ∧
      (∀ t, (s.mask t = 1 ∨ s.mask t = 0) ∧
        (s.mask t = 1 ↔ ∃ cp ∈ s.copies, ∀ k, 0 ≤ k → k < (H : Int) → cp.covers (t * H + k))) ∧
      (∀ t, s.mask t ≠ 0 → 0 ≤ t ∧ t < mptr))
    (by
      intro i cur mptr s s1 hi ⟨hcur, hm, hm0, hag, hb⟩ hscan
      have hl : 0 ≤ lens i := hlen i (by omega)
      refine ⟨by rw [hcur]; ring, by rw [hm]; rfl, by omega, ?_, ?_⟩
      · exact scanRanges_preserves H true (seqs i).cache_len (lens i) cur mptr _ _
          (fun s => ∀ t, (s.mask t = 1 ∨ s.mask t = 0) ∧
            (s.mask t = 1 ↔
              ∃ cp ∈ s.copies, ∀ k, 0 ≤ k → k < (H : Int) → cp.covers (t * H + k)))
          (fun s0 emb b e h0 => issueCopy_mask_agrees H hH cur mptr hcur emb _ _ _ _ s0 h0)
          _ s s1 hscan hag
      · exact scanRanges_preserves H true (seqs i).cache_len (lens i) cur mptr _ _
          (fun s => ∀ t, s.mask t ≠ 0 → 0 ≤ t ∧ t < mptr + lens i)
          (fun s0 emb b e h0 =>
            issueCopy_mask_bounds H (seqs i).cache_len (lens i) cur mptr hm0 emb b e s0 h0)
          _ s s1 hscan (fun t ht => by have := hb t ht; omega))
    bsz.toNat 0 0 0 _ st (by omega) hs
    ⟨by simp, rfl, Int.le_refl 0, fun t => ⟨Or.inr rfl, by simp⟩, fun t ht => by simp at ht⟩
  obtain ⟨cur1, mptr1, _, hm1, _, hag, hb⟩ := hinv
  rw [Nat.zero_add, hsum] at hm1
  subst hm1
  refine ⟨st, by simp only [updateEmbedding]; exact hs, ?_, hb⟩
  intro t _ _
  obtain ⟨h01, hiff⟩ := hag t
  refine ⟨fun hc => hiff.mpr hc, fun hn => ?_⟩
  rcases h01 with h1 | h0
  · exact absurd (hiff.mp h1) hn
  · exact h0

/-- Witness for C8: two copies of `sampleSequence`, 8 tokens each, 16 tokens in all. -/
theorem updateEmbedding_mask_marks_overwritten_witness :
    ∃ st, updateEmbedding 4 false 2 (fun _ => 8) (fun _ => sampleSequence) true false =
        some st ∧
      (∀ t, 0 ≤ t → t < 16 →
        ((∃ cp ∈ st.copies, ∀ k, 0 ≤ k → k < ((4 : Nat) : Int) →
            cp.covers (t * (4 : Nat) + k)) → st.mask t = 1) ∧
        ((¬ ∃ cp ∈ st.copies, ∀ k, 0 ≤ k → k < ((4 : Nat) : Int) →
            cp.covers (t * (4 : Nat) + k)) → st.mask t = 0)) ∧
      (∀ t, st.mask t ≠ 0 → 0 ≤ t ∧ t < 16) :=
  updateEmbedding_mask_marks_overwritten 4 (by decide) 2 (fun _ => 8)
    (fun _ => sampleSequence) false 16 (fun _ _ => rfl)
    (fun _ _ => by show (0 : Int) ≤ 8; decide) (by decide)

/-- C9, counterexample. One sequence with nothing cached, 8 tokens, one hidden unit and the
ranges `[0, 4)` (index 0) and `[2, 6)` (index 1): both ranges cover position 2 of the
window, and the value left at position 2 is row 2 of embedding 0 (value 102), not row 0 of
embedding 1 (value 200), the range with the higher index. -/
theorem updateEmbedding_overlap_counterexample :
    ∃ st, updateEmbedding 1 false 1 (fun _ => 8) (fun _ => overlapSequence) false false =
        some st ∧
      overlapSequence.input_embedding_ranges[0]? = some (0, 4) ∧
      overlapSequence.input_embedding_ranges[1]? = some (2, 6) ∧
      applyCopies (fun _ => 0) st.copies 2 = 102 ∧
      applyCopies (fun _ => 0) st.copies 2 ≠ 200 + (2 - 2) := by
  refine ⟨_, rfl, rfl, rfl, ?_, ?_⟩ <;> decide

/-- C9, amended. In a batch with one range per embedding and non-negative token counts, let
the range `[b, e)` of index `j` of sequence `i` cover the window position `p`, let no range
of higher index stop the scan (none is unskipped with `end ≤ cache_len`) and let no range of
lower index cover `p`. Then the value left in the row of `p` is row `p - b` of embedding `j`:
among the ranges covering `p`, the one with the lowest index wins, its copy being issued
last. -/
theorem updateEmbedding_overlap_lowest_index_wins {α : Type} (H : Nat) (bsz : Int)
    (lens : Nat → Int) (seqs : Nat → Sequence α) (lm he : Bool) (buf : Int → α)
    (hpair : ∀ i : Nat, (i : Int) < bsz →
      (seqs i).input_embedding_ranges.length = (seqs i).input_embeddings.length)
    (hlen : ∀ i : Nat, (i : Int) < bsz → 0 ≤ lens i)
    (i : Nat) (hi : (i : Int) < bsz) (p k : Int)
    (hp0 : (seqs i).cache_len ≤ p) (hp1 : p < (seqs i).cache_len + lens i)
    (hk0 : 0 ≤ k) (hk : k < H)
    (j : Nat) (emb : Int → α) (b e : Int)
    (hemb : (seqs i).input_embeddings[j]? = some emb)
    (hrange : (seqs i).input_embedding_ranges[j]? = some (b, e))
    (hb : b ≤ p) (hpe : p < e)
    (hreach : ∀ (j1 : Nat) (b1 e1 : Int), j < j1 →
      (seqs i).input_embedding_ranges[j1]? = some (b1, e1) →
      ¬ (¬ (seqs i).cache_len + lens i - 1 < b1 ∧ e1 ≤ (seqs i).cache_len))
    (hlow : ∀ (j2 : Nat) (b2 e2 : Int), j2 < j →
      (seqs i).input_embedding_ranges[j2]? = some (b2, e2) → ¬ (b2 ≤ p ∧ p < e2)) :
    ∃ st, updateEmbedding H false bsz lens seqs lm he = some st ∧
      applyCopies buf st.copies ((tokenOffset lens i + (p - (seqs i).cache_len)) * H + k) =
        emb ((p - b) * H + k) := by
  obtain ⟨st, hs, hc⟩ := seqLoop_eq_batchCopies H lm lens seqs bsz.toNat 0 0 0
    { copies := [], mask := fun _ => 0, have_embeddings := false }
    (fun m _ h2 => hpair m (by omega))
  refine ⟨st, by simp only [updateEmbedding]; exact hs, ?_⟩
  have hcop : st.copies = batchCopies H lens seqs bsz.toNat 0 0 := by
    rw [hc]; simp
  obtain ⟨buf1, cur1, hx, happ⟩ := batchCopies_apply_local H lens seqs bsz.toNat 0 0 buf
    (fun m _ h2 => hlen m (by omega)) i (Nat.zero_le _) (by omega) p k
    ((tokenOffset lens i + (p - (seqs i).cache_len)) * H + k) hp0 hp1 hk0 hk
    (by show _ = 0 + (tokenOffset lens i - 0) * (H : Int) + _ + k; ring)
  obtain ⟨L1, L2, hsplit, h1, h2⟩ := visitOrder_split (seqs i) j emb (b, e) hemb hrange
  rw [hcop, happ, hx, hsplit]
  apply scanCopies_apply_last H (seqs i).cache_len (lens i) cur1 p k hp0 hp1 hk0 hk emb b e
    hb hpe L2
  · intro y hy
    obtain ⟨j2, hj2, hr2⟩ := h2 y hy
    exact hlow j2 y.2.1 y.2.2 hj2 hr2
  · intro y hy
    obtain ⟨j1, hj1, hr1⟩ := h1 y hy
    exact hreach j1 y.2.1 y.2.2 hj1 hr1

/-- Witness for C9 amended: in `overlapSequence` with 8 tokens, position 2 is covered by
the ranges of index 0 and 1 and is left with row 2 of embedding 0. -/
theorem updateEmbedding_overlap_lowest_index_wins_witness :
    ∃ st, updateEmbedding 1 false 1 (fun _ => 8) (fun _ => overlapSequence) false false =
        some st ∧
      applyCopies (fun _ => 0) st.copies
        ((tokenOffset (fun _ => 8) 0 + (2 - overlapSequence.cache_len)) * ((1 : Nat) : Int)
          + 0) =
        (fun x : Int => 100 + x) (((2 : Int) - 0) * ((1 : Nat) : Int) + 0) :=
  updateEmbedding_overlap_lowest_index_wins 1 1 (fun _ => 8) (fun _ => overlapSequence)
    false false (fun _ => 0) (fun _ _ => rfl) (fun _ _ => by show (0 : Int) ≤ 8; decide)
    0 (by decide) 2 0 (by decide) (by decide) (by decide) (by decide)
    0 (fun x => 100 + x) 0 4 rfl rfl (by decide) (by decide)
    (fun j1 b1 e1 hj1 hr => by
      have hj : j1 = 1 := by
        have hlt : j1 < overlapSequence.input_embedding_ranges.length :=
          (List.getElem?_eq_some.mp hr).1
        simp only [overlapSequence, List.length_cons, List.length_nil] at hlt
        omega
      subst hj
      simp only [overlapSequence, List.getElem?_cons_succ, List.getElem?_cons_zero,
        Option.some.injEq, Prod.mk.injEq] at hr
      obtain ⟨rfl, rfl⟩ := hr
      decide)
    (fun j2 b2 e2 hj2 _ => absurd hj2 (Nat.not_lt_zero _))

/-- C6. For every width `w ≥ 1` with `vsp % w = 0`, with distinct scratch and final buffers
for the plain-sharded strategy and enough fuel for the stage loop: the plain-sharded run
(flag off) and the pipelined run (flag on, any staging constants with
`min_stage_tokens ≥ 1`) both succeed and leave, on every rank, the value `G r b v` that rank
`r` computes for row `b < batch_size` and shard column `v < vsp / w` at flat index
`b * vsp + r * (vsp / w) + v` of the logits buffer. Hence, when rank `r` holds the columns
`r * (vsp / w) + v` of the output embedding (value `F b col` for column `col`), the
single-device run, the plain-sharded run and the pipelined run all leave `F b col` at flat
index `b * vsp + col`: the three strategies produce the same logits buffer. (For `w = 1`
the code takes the single-device path whatever the flag.) -/
theorem postDecodeEmbedding_strategies_same_logits {α : Type} (w : Nat) (hw : 1 ≤ w)
    (vsp : Int) (hdiv : vsp % (w : Int) = 0) (bs : Int) (logits local_logits : Ptr)
    (hne : logits.region ≠ local_logits.region) (ms mst : Int) (hmst : 1 ≤ mst) (fuel : Nat)
    (hfuel : bs.toNat ≤ fuel) (G : Nat → Int → Int → α) (F : Int → Int → α)
    (world1 world2 world3 : World α) :
    (∃ fin, runRanks w G (fun r => postDecodeEmbeddingWith ms mst (rankModel w vsp false r)
          logits local_logits bs fuel) world1 = some fin ∧
        ∀ r q : Nat, r < w → q < w → ∀ b v : Int, 0 ≤ b → b < bs → 0 ≤ v → v < vsp / w →
          fin r logits.region (logits.off + b * vsp + q * (vsp / w) + v) = G q b v) ∧
    (∃ fin, runRanks w G (fun r => postDecodeEmbeddingWith ms mst (rankModel w vsp true r)
          logits logits bs fuel) world2 = some fin ∧
        ∀ r q : Nat, r < w → q < w → ∀ b v : Int, 0 ≤ b → b < bs → 0 ≤ v → v < vsp / w →
          fin r logits.region (logits.off + b * vsp + q * (vsp / w) + v) = G q b v) ∧
    (∃ finPlain finPipe finSingle,
      runRanks w (fun q b v => F b ((q : Int) * (vsp / w) + v))
        (fun r => postDecodeEmbeddingWith ms mst (rankModel w vsp false r)
          logits local_logits bs fuel) world1 = some finPlain ∧
      runRanks w (fun q b v => F b ((q : Int) * (vsp / w) + v))
        (fun r => postDecodeEmbeddingWith ms mst (rankModel w vsp true r)
          logits logits bs fuel) world2 = some finPipe ∧
      runRanks 1 (fun _ b v => F b v)
        (fun r => postDecodeEmbeddingWith ms mst (rankModel 1 vsp false r)
          logits local_logits bs fuel) world3 = some finSingle ∧
      ∀ r : Nat, r < w → ∀ b col : Int, 0 ≤ b → b < bs → 0 ≤ col → col < vsp →
        finPlain r logits.region (logits.off + b * vsp + col) = F b col ∧
        finPipe r logits.region (logits.off + b * vsp + col) = F b col ∧
        finSingle 0 logits.region (logits.off + b * vsp + col) = F b col) := by
  have hne1 : logits ≠ local_logits := fun h => hne (by rw [h])
  refine ⟨?_, ?_, ?_⟩
  · exact any_strategy_layout w hw vsp hdiv bs false logits local_logits (by simpa using hne1)
      ms mst hmst fuel hfuel G world1
  · exact any_strategy_layout w hw vsp hdiv bs true logits logits (by simp)
      ms mst hmst fuel hfuel G world2
  · obtain ⟨f1, hr1, hl1⟩ := any_strategy_flat w hw vsp hdiv bs false logits local_logits
      (by simpa using hne1) ms mst hmst fuel hfuel F world1
    obtain ⟨f2, hr2, hl2⟩ := any_strategy_flat w hw vsp hdiv bs true logits logits
      (by simp) ms mst hmst fuel hfuel F world2
    obtain ⟨f3, hr3, hl3⟩ := single_run_layout vsp false bs logits local_logits ms mst fuel
      (fun _ b v => F b v) world3
    refine ⟨f1, f2, f3, hr1, hr2, hr3, ?_⟩
    intro r hr b col hb0 hb hc0 hc
    refine ⟨hl1 r hr b col hb0 hb hc0 hc, hl2 r hr b col hb0 hb hc0 hc, ?_⟩
    have h3 := layout_flat 1 (fun _ b v => F b v) vsp vsp (by simp) logits bs f3 hl3 0
      (by decide) b col hb0 hb hc0 hc
    rw [h3, Int.emod_eq_of_lt hc0 hc]

/-- Witness for C6: two ranks, padded vocabulary 6, three rows, scratch buffer 1 and logits
buffer 0, values tagged `100 * rank + 10 * row + column`. -/
theorem postDecodeEmbedding_strategies_same_logits_witness :
    (∃ fin, runRanks 2 (fun q b v => 100 * (q : Int) + 10 * b + v)
          (fun r => postDecodeEmbeddingWith 1 512 (rankModel 2 6 false r)
            ⟨0, 0⟩ ⟨1, 0⟩ 3 3) (fun _ _ _ => 0) = some fin ∧
        ∀ r q : Nat, r < 2 → q < 2 → ∀ b v : Int, 0 ≤ b → b < 3 → 0 ≤ v →
          v < 6 / ((2 : Nat) : Int) →
          fin r 0 (0 + b * 6 + q * (6 / ((2 : Nat) : Int)) + v) = 100 * (q : Int) + 10 * b + v) ∧
    (∃ fin, runRanks 2 (fun q b v => 100 * (q : Int) + 10 * b + v)
          (fun r => postDecodeEmbeddingWith 1 512 (rankModel 2 6 true r)
            ⟨0, 0⟩ ⟨0, 0⟩ 3 3) (fun _ _ _ => 0) = some fin ∧
        ∀ r q : Nat, r < 2 → q < 2 → ∀ b v : Int, 0 ≤ b → b < 3 → 0 ≤ v →
          v < 6 / ((2 : Nat) : Int) →
          fin r 0 (0 + b * 6 + q * (6 / ((2 : Nat) : Int)) + v) = 100 * (q : Int) + 10 * b + v) :=
  ⟨(postDecodeEmbedding_strategies_same_logits 2 (by decide) 6 (by decide) 3 ⟨0, 0⟩ ⟨1, 0⟩
      (by decide) 1 512 (by decide) 3 (by decide)
      (fun q b v => 100 * (q : Int) + 10 * b + v) (fun b v => 10 * b + v)
      (fun _ _ _ => 0) (fun _ _ _ => 0) (fun _ _ _ => 0)).1,
   (postDecodeEmbedding_strategies_same_logits 2 (by decide) 6 (by decide) 3 ⟨0, 0⟩ ⟨1, 0⟩
      (by decide) 1 512 (by decide) 3 (by decide)
      (fun q b v => 100 * (q : Int) + 10 * b + v) (fun b v => 10 * b + v)
      (fun _ _ _ => 0) (fun _ _ _ => 0) (fun _ _ _ => 0)).2.1⟩

/-- C7. In the pipelined strategy with `step = max(min(batch_size, min_stage_tokens),
ceil(batch_size / max_stages))`, for `max_stages ≥ 1`, `min_stage_tokens ≥ 1` and
`batch_size ≥ 0`: the stage loop terminates (with `batch_size` iterations of fuel or more it
returns the same list of stages); every stage `(first, n)` is a non-empty row range inside
`[0, batch_size)`; the stages are ordered and pairwise disjoint and cover `[0, batch_size)`,
so every row lies in exactly one stage; there are at most `max_stages` of them; the
memory-writing calls of a rank are one matrix multiply and one 2-D all-gather per stage; and
the logits buffer after the run is the same for any other staging constants
`max_stages1`, `min_stage_tokens1 ≥ 1`. -/
theorem postDecodeEmbedding_stage_partition {α : Type} (ms mst bs : Int) (hms : 1 ≤ ms)
    (hmst : 1 ≤ mst) (hbs : 0 ≤ bs) (ms1 mst1 : Int) (hmst1 : 1 ≤ mst1)
    (w : Nat) (hw : 2 ≤ w) (vsp : Int) (hdiv : vsp % (w : Int) = 0) (buf : Ptr)
    (G : Nat → Int → Int → α) (world : World α) :
    ∃ stages : List (Int × Int),
      (∀ fuel : Nat, bs.toNat ≤ fuel →
        stageLoop bs (stageStep ms mst bs) fuel 0 = some stages) ∧
      (∀ s ∈ stages, 0 ≤ s.1 ∧ 1 ≤ s.2 ∧ s.1 + s.2 ≤ bs) ∧
      stages.Pairwise (fun s t => s.1 + s.2 ≤ t.1) ∧
      (∀ b : Int, 0 ≤ b → b < bs → ∃ s ∈ stages, s.1 ≤ b ∧ b < s.1 + s.2) ∧
      (∀ s ∈ stages, ∀ t ∈ stages, ∀ b : Int, s.1 ≤ b → b < s.1 + s.2 → t.1 ≤ b →
        b < t.1 + t.2 → s = t) ∧
      (stages.length : Int) ≤ ms ∧
      (∀ (fuel : Nat) (r : Nat), bs.toNat ≤ fuel →
        dataOps (stepsOf (postDecodeEmbeddingWith ms mst (rankModel w vsp true r) buf buf bs
          fuel)) =
        (stages.map (stageOps vsp (vsp / w) buf bs
          (if stageStep ms mst bs < bs then Stream.secondary else Stream.primary)
          r)).flatten) ∧
      (∀ fuel : Nat, bs.toNat ≤ fuel →
        ∃ fin fin1,
          runRanks w G (fun r => postDecodeEmbeddingWith ms mst (rankModel w vsp true r)
            buf buf bs fuel) world = some fin ∧
          runRanks w G (fun r => postDecodeEmbeddingWith ms1 mst1 (rankModel w vsp true r)
            buf buf bs fuel) world = some fin1 ∧
          ∀ r : Nat, r < w → ∀ b col : Int, 0 ≤ b → b < bs → 0 ≤ col → col < vsp →
            fin r buf.region (buf.off + b * vsp + col) =
              fin1 r buf.region (buf.off + b * vsp + col)) := by
  obtain ⟨stages, hst⟩ := stageLoop_terminates ms mst bs hmst bs.toNat (Nat.le_refl _)
  have hall : ∀ fuel : Nat, bs.toNat ≤ fuel →
      stageLoop bs (stageStep ms mst bs) fuel 0 = some stages :=
    fun fuel hf => stageLoop_fuel_mono bs _ _ 0 stages hst fuel hf
  have hw1 : w ≠ 1 := by omega
  have hvsp : vsp = w * (vsp / w) := (Int.mul_ediv_cancel' (Int.dvd_of_emod_eq_zero hdiv)).symm
  by_cases hb1 : 1 ≤ bs
  · have hstep := stageStep_pos ms mst bs hmst hb1
    obtain ⟨h1, h2, h3, h4⟩ := stageLoop_shape bs (stageStep ms mst bs) (by omega) _ 0 stages hst
    refine ⟨stages, hall, fun s hs => ?_, h2, fun b hb0 hb => h3 b hb0 hb,
      stages_unique stages h2, ?_, ?_, ?_⟩
    · have := h1 s hs; omega
    · rcases h4 with h4 | h4
      · subst h4; simp only [List.length_nil, Nat.cast_zero]; omega
      · have hge := stageStep_mul_ge ms mst bs hms hbs
        have hlt : ((stages.length : Int) - 1) * stageStep ms mst bs <
            ms * stageStep ms mst bs := by
          rw [Int.mul_comm ms]; omega
        have := lt_of_mul_lt_mul_right hlt (by omega)
        omega
    · intro fuel r hf
      exact (pipelined_program w hw1 vsp hdiv ms mst bs buf fuel stages (hall fuel hf) r).2
    · intro fuel hf
      obtain ⟨f1, hr1, hl1⟩ := pipelined_run_layout w hw1 vsp hdiv ms mst bs hmst buf fuel hf
        G world
      obtain ⟨f2, hr2, hl2⟩ := pipelined_run_layout w hw1 vsp hdiv ms1 mst1 bs hmst1 buf fuel hf
        G world
      refine ⟨f1, f2, hr1, hr2, ?_⟩
      intro r hr b col hb0 hb hc0 hc
      rw [layout_flat w G vsp (vsp / w) hvsp buf bs f1 hl1 r hr b col hb0 hb hc0 hc,
        layout_flat w G vsp (vsp / w) hvsp buf bs f2 hl2 r hr b col hb0 hb hc0 hc]
  · have hb0 : bs = 0 := by omega
    subst hb0
    have hnil : stages = [] := by
      have := hst
      simp [stageLoop] at this
      exact this
    subst hnil
    refine ⟨[], hall, by simp, List.Pairwise.nil, fun b h1 h2 => by omega, by simp,
      by simp only [List.length_nil, Nat.cast_zero]; omega, ?_, ?_⟩
    · intro fuel r hf
      exact (pipelined_program w hw1 vsp hdiv ms mst 0 buf fuel [] (hall fuel hf) r).2
    · intro fuel hf
      obtain ⟨f1, hr1, _⟩ := pipelined_run_layout w hw1 vsp hdiv ms mst 0 hmst buf fuel hf
        G world
      obtain ⟨f2, hr2, _⟩ := pipelined_run_layout w hw1 vsp hdiv ms1 mst1 0 hmst1 buf fuel hf
        G world
      exact ⟨f1, f2, hr1, hr2, fun r _ b col h1 h2 _ _ => by omega⟩

/-- Witness for C7: a batch of 16 on two ranks, staged with threshold 1 and up to 16 stages,
against the one-stage run with threshold 512. -/
theorem postDecodeEmbedding_stage_partition_witness :
    ∃ stages : List (Int × Int),
      stageLoop 16 (stageStep 16 1 16) 16 0 = some stages ∧
      (∀ b : Int, 0 ≤ b → b < 16 → ∃ s ∈ stages, s.1 ≤ b ∧ b < s.1 + s.2) ∧
      (stages.length : Int) ≤ 16 ∧
      ∃ fin fin1,
        runRanks 2 (fun q b v => 100 * (q : Int) + 10 * b + v)
          (fun r => postDecodeEmbeddingWith 16 1 (rankModel 2 6 true r) ⟨0, 0⟩ ⟨0, 0⟩ 16 16)
          (fun _ _ _ => 0) = some fin ∧
        runRanks 2 (fun q b v => 100 * (q : Int) + 10 * b + v)
          (fun r => postDecodeEmbeddingWith 1 512 (rankModel 2 6 true r) ⟨0, 0⟩ ⟨0, 0⟩ 16 16)
          (fun _ _ _ => 0) = some fin1 ∧
        ∀ r : Nat, r < 2 → ∀ b col : Int, 0 ≤ b → b < 16 → 0 ≤ col → col < 6 →
          fin r 0 (0 + b * 6 + col) = fin1 r 0 (0 + b * 6 + col) :=
  match postDecodeEmbedding_stage_partition 16 1 16 (by decide) (by decide) (by decide) 1 512
      (by decide) 2 (by decide) 6 (by decide) ⟨0, 0⟩
      (fun q b v => 100 * (q : Int) + 10 * b + v) (fun _ _ _ => 0) with
  | ⟨stages, h1, _, _, h4, _, h6, _, h8⟩ => ⟨stages, h1 16 (by decide), h4, h6, h8 16 (by decide)⟩

/-- C15. For a batch with one range per embedding, `cache_len ≥ 0`, non-negative token
counts summing to at most `token_num` and well-formed ranges, `updateEmbedding` returns and
every copy it issued is the copy of a range `[b, e)` of some sequence `i` with: token count
`n = min e (c + len) - max b c ≥ 0`; destination token offset `od = max 0 (b - c) ≥ 0` with
`od + n ≤ len`, so the write (and the mask fill, which uses the same offset and count) stays
in the slice `[tokenOffset i, tokenOffset (i + 1))` of that sequence and inside
`[0, token_num)`; and source token offset `os = max 0 (c - b) ≥ 0` with `os + n ≤ e - b`, so
the read stays inside the stored embedding. -/
theorem updateEmbedding_copies_in_bounds {α : Type} (H : Nat) (bsz : Int)
    (lens : Nat → Int) (seqs : Nat → Sequence α) (lm he : Bool) (token_num : Int)
    (hpair : ∀ i : Nat, (i : Int) < bsz →
      (seqs i).input_embedding_ranges.length = (seqs i).input_embeddings.length)
    (_hc : ∀ i : Nat, (i : Int) < bsz → 0 ≤ (seqs i).cache_len)
    (hlen : ∀ i : Nat, (i : Int) < bsz → 0 ≤ lens i)
    (hwf : ∀ i : Nat, (i : Int) < bsz → ∀ r ∈ (seqs i).input_embedding_ranges, r.1 ≤ r.2)
    (hsum : tokenOffset lens bsz.toNat ≤ token_num) :
    ∃ st, updateEmbedding H false bsz lens seqs lm he = some st ∧
      ∀ cp ∈ st.copies, ∃ (i : Nat) (b e : Int), (i : Int) < bsz ∧
        (b, e) ∈ (seqs i).input_embedding_ranges ∧
        cp.dst = (tokenOffset lens i + max 0 (b - (seqs i).cache_len)) * H ∧
        cp.src_off = max 0 ((seqs i).cache_len - b) * H ∧
        cp.count = (min e ((seqs i).cache_len + lens i) - max b (seqs i).cache_len) * H ∧
        0 ≤ min e ((seqs i).cache_len + lens i) - max b (seqs i).cache_len ∧
        0 ≤ max 0 (b - (seqs i).cache_len) ∧
        max 0 (b - (seqs i).cache_len) +
          (min e ((seqs i).cache_len + lens i) - max b (seqs i).cache_len) ≤ lens i ∧
        0 ≤ max 0 ((seqs i).cache_len - b) ∧
        max 0 ((seqs i).cache_len - b) +
          (min e ((seqs i).cache_len + lens i) - max b (seqs i).cache_len) ≤ e - b ∧
        tokenOffset lens i ≤ tokenOffset lens i + max 0 (b - (seqs i).cache_len) ∧
        tokenOffset lens i + max 0 (b - (seqs i).cache_len) +
          (min e ((seqs i).cache_len + lens i) - max b (seqs i).cache_len) ≤
            tokenOffset lens (i + 1) ∧
        0 ≤ tokenOffset lens i + max 0 (b - (seqs i).cache_len) ∧
        tokenOffset lens i + max 0 (b - (seqs i).cache_len) +
          (min e ((seqs i).cache_len + lens i) - max b (seqs i).cache_len) ≤ token_num := by
  obtain ⟨st, hs, hcs⟩ := seqLoop_eq_batchCopies H lm lens seqs bsz.toNat 0 0 0
    { copies := [], mask := fun _ => 0, have_embeddings := false }
    (fun m _ h2 => hpair m (by omega))
  refine ⟨st, by simp only [updateEmbedding]; exact hs, ?_⟩
  intro cp hcp
  rw [hcs, List.nil_append] at hcp
  obtain ⟨i, _, hi, x, hx, h1, h2, hcopy⟩ := batchCopies_origin H lens seqs _ 0 0 cp hcp
  obtain ⟨emb, b, e⟩ := x
  have hib : (i : Int) < bsz := by omega
  have hmem : (b, e) ∈ (seqs i).input_embedding_ranges := visitOrder_range_mem _ _ hx
  have hbe : b ≤ e := hwf i hib (b, e) hmem
  obtain ⟨b1, b2, b3, b4, b5⟩ := rangeCopy_bounds (seqs i).cache_len (lens i) b e
    (hlen i hib) hbe h1 h2
  have hm0 : tokenOffset lens 0 ≤ tokenOffset lens (0 + i) :=
    tokenOffset_mono lens 0 i (fun m _ h => hlen m (by omega))
  have hm1 : tokenOffset lens (i + 1) ≤ tokenOffset lens (i + 1 + (bsz.toNat - (i + 1))) :=
    tokenOffset_mono lens (i + 1) _ (fun m _ h => hlen m (by omega))
  rw [show i + 1 + (bsz.toNat - (i + 1)) = bsz.toNat by omega] at hm1
  rw [Nat.zero_add] at hm0
  have h00 : tokenOffset lens 0 = 0 := rfl
  have hstep : tokenOffset lens (i + 1) = tokenOffset lens i + lens i := rfl
  refine ⟨i, b, e, hib, hmem, ?_, ?_, ?_, b3, b1, b4, b2, b5, by omega, by omega, by omega,
    by omega⟩
  · rw [hcopy]
    show 0 + (tokenOffset lens i - tokenOffset lens 0) * (H : Int) +
      max 0 (b - (seqs i).cache_len) * H = _
    rw [h00]; ring
  · rw [hcopy]; rfl
  · rw [hcopy]; rfl

/-- Witness for C15: two copies of `sampleSequence`, 8 tokens each, 16 tokens in all. -/
theorem updateEmbedding_copies_in_bounds_witness :
    ∃ st, updateEmbedding 4 false 2 (fun _ => 8) (fun _ => sampleSequence) true false =
        some st ∧
      ∀ cp ∈ st.copies, ∃ (i : Nat) (b e : Int), (i : Int) < 2 ∧
        (b, e) ∈ sampleSequence.input_embedding_ranges ∧
        cp.dst = (tokenOffset (fun _ => 8) i + max 0 (b - sampleSequence.cache_len)) *
          ((4 : Nat) : Int) ∧
        cp.src_off = max 0 (sampleSequence.cache_len - b) * ((4 : Nat) : Int) ∧
        cp.count = (min e (sampleSequence.cache_len + 8) - max b sampleSequence.cache_len) *
          ((4 : Nat) : Int) ∧
        0 ≤ min e (sampleSequence.cache_len + 8) - max b sampleSequence.cache_len ∧
        0 ≤ max 0 (b - sampleSequence.cache_len) ∧
        max 0 (b - sampleSequence.cache_len) +
          (min e (sampleSequence.cache_len + 8) - max b sampleSequence.cache_len) ≤ 8 ∧
        0 ≤ max 0 (sampleSequence.cache_len - b) ∧
        max 0 (sampleSequence.cache_len - b) +
          (min e (sampleSequence.cache_len + 8) - max b sampleSequence.cache_len) ≤ e - b ∧
        tokenOffset (fun _ => 8) i ≤
          tokenOffset (fun _ => 8) i + max 0 (b - sampleSequence.cache_len) ∧
        tokenOffset (fun _ => 8) i + max 0 (b - sampleSequence.cache_len) +
          (min e (sampleSequence.cache_len + 8) - max b sampleSequence.cache_len) ≤
            tokenOffset (fun _ => 8) (i + 1) ∧
        0 ≤ tokenOffset (fun _ => 8) i + max 0 (b - sampleSequence.cache_len) ∧
        tokenOffset (fun _ => 8) i + max 0 (b - sampleSequence.cache_len) +
          (min e (sampleSequence.cache_len + 8) - max b sampleSequence.cache_len) ≤ 16 :=
  updateEmbedding_copies_in_bounds 4 2 (fun _ => 8) (fun _ => sampleSequence) true false 16
    (fun _ _ => rfl) (fun _ _ => by show (0 : Int) ≤ sampleSequence.cache_len; decide)
    (fun _ _ => by show (0 : Int) ≤ 8; decide)
    (fun _ _ r hr => by
      simp only [sampleSequence, List.mem_cons, List.mem_singleton, List.not_mem_nil,
        or_false] at hr
      rcases hr with rfl | rfl <;> decide)
    (by decide)

/-- C16. With the compiled constants (`max_stages = 1`, `min_stage_tokens = 512`), for every
`batch_size ≥ 1` the step equals `batch_size`, the stage loop yields the single stage
`(0, batch_size)`, and the pipelined strategy executes exactly: the matrix multiply of all
rows, a status check, one 2-D all-gather on the primary stream tagged first and last stage,
and a status check; no stream or event call is made. For `batch_size = 0` it executes
nothing. -/
theorem postDecodeEmbedding_compiled_single_stage (w : Nat) (hw : w ≠ 1) (vsp : Int)
    (hdiv : vsp % (w : Int) = 0) (bs : Int) (hbs : 1 ≤ bs) (buf : Ptr) (r : Nat)
    (fuel : Nat) (hfuel : 1 ≤ fuel) :
    stageStep 1 512 bs = bs ∧
    stageLoop bs (stageStep 1 512 bs) fuel 0 = some [(0, bs)] ∧
    postDecodeEmbedding (rankModel w vsp true r) buf buf bs fuel =
      Except.ok
        [Step.submit (DeviceOp.gemm (vsp / w) bs 0
            { region := buf.region, off := buf.off + 0 * vsp + (r : Int) * (vsp / w) } vsp),
         Step.sync_check,
         Step.submit (DeviceOp.allGather2D
            { region := buf.region, off := buf.off + 0 * vsp + (r : Int) * (vsp / w) }
            { region := buf.region, off := buf.off + 0 * vsp } vsp (vsp / w) (vsp / w) bs
            true true Stream.primary),
         Step.sync_check] ∧
    (∀ fuel0 : Nat,
      postDecodeEmbedding (rankModel w vsp true r) buf buf 0 fuel0 = Except.ok []) := by
  have hstep := stageStep_compiled bs
  have hloop : stageLoop bs (stageStep 1 512 bs) fuel 0 = some [(0, bs)] := by
    rw [hstep]; exact stageLoop_single bs hbs fuel hfuel
  refine ⟨hstep, hloop, ?_, ?_⟩
  · unfold postDecodeEmbedding
    rw [pipelined_steps w hw vsp hdiv 1 512 bs buf fuel _ hloop r]
    simp only [hstep, Int.lt_irrefl, if_false, List.nil_append, List.append_nil, List.map_cons,
      List.map_nil, List.flatten_cons, List.flatten_nil, stageSteps, invoke_gemm, rankModel,
      ne_eq, not_true_eq_false, List.cons_append]
    simp
  · intro fuel0
    have h0 : stageLoop 0 (stageStep 1 512 0) fuel0 0 = some [] := by
      cases fuel0 <;> simp [stageLoop]
    unfold postDecodeEmbedding
    rw [pipelined_steps w hw vsp hdiv 1 512 0 buf fuel0 _ h0 r]
    simp [stageStep_compiled]

/-- Witness for C16: a batch of 3 on rank 1 of two ranks with padded vocabulary 6. -/
theorem postDecodeEmbedding_compiled_single_stage_witness :
    stageStep 1 512 3 = 3 ∧
    stageLoop 3 (stageStep 1 512 3) 1 0 = some [(0, 3)] ∧
    postDecodeEmbedding (rankModel 2 6 true 1) ⟨0, 0⟩ ⟨0, 0⟩ 3 1 =
      Except.ok
        [Step.submit (DeviceOp.gemm (6 / ((2 : Nat) : Int)) 3 0
            { region := 0, off := 0 + 0 * 6 + ((1 : Nat) : Int) * (6 / ((2 : Nat) : Int)) } 6),
         Step.sync_check,
         Step.submit (DeviceOp.allGather2D
            { region := 0, off := 0 + 0 * 6 + ((1 : Nat) : Int) * (6 / ((2 : Nat) : Int)) }
            { region := 0, off := 0 + 0 * 6 } 6 (6 / ((2 : Nat) : Int))
            (6 / ((2 : Nat) : Int)) 3 true true Stream.primary),
         Step.sync_check] ∧
    (∀ fuel0 : Nat,
      postDecodeEmbedding (rankModel 2 6 true 1) ⟨0, 0⟩ ⟨0, 0⟩ 0 fuel0 = Except.ok []) :=
  postDecodeEmbedding_compiled_single_stage 2 (by decide) 6 (by decide) 3 (by decide) ⟨0, 0⟩ 1
    1 (by decide)

/-- C13. In the pipelined strategy, for staging constants `max_stages`,
`min_stage_tokens ≥ 1` and enough fuel, the run has its stages and statements, and: the
step is below `batch_size` exactly when there are two stages or more; `cudaStreamCreate` and
`cudaEventCreate` are called exactly when the step is below `batch_size`; when it is not
(single stage or empty batch) no call wrapped in `check_cuda_error` is made at all (no stream
or event creation, record, wait or destruction) and every 2-D all-gather is issued on the
primary stream; when it is, every 2-D all-gather is issued on the secondary stream. -/
theorem postDecodeEmbedding_secondary_stream_iff_split (w : Nat) (hw : w ≠ 1) (vsp : Int)
    (hdiv : vsp % (w : Int) = 0) (ms mst bs : Int) (hmst : 1 ≤ mst) (buf : Ptr) (r : Nat)
    (fuel : Nat) (hfuel : bs.toNat ≤ fuel) :
    ∃ stages steps,
      stageLoop bs (stageStep ms mst bs) fuel 0 = some stages ∧
      postDecodeEmbeddingWith ms mst (rankModel w vsp true r) buf buf bs fuel =
        Except.ok steps ∧
      (stageStep ms mst bs < bs ↔ 2 ≤ stages.length) ∧
      (Step.checked DeviceOp.streamCreate ∈ steps ↔ stageStep ms mst bs < bs) ∧
      (Step.checked DeviceOp.eventCreate ∈ steps ↔ stageStep ms mst bs < bs) ∧
      (¬ stageStep ms mst bs < bs → ∀ op, Step.checked op ∉ steps) ∧
      (∀ (sb rb : Ptr) (p st wd h : Int) (f l : Bool) (cs : Stream),
        Step.submit (DeviceOp.allGather2D sb rb p st wd h f l cs) ∈ steps →
        cs = if stageStep ms mst bs < bs then Stream.secondary else Stream.primary) := by
  obtain ⟨stages, hst⟩ := stageLoop_terminates ms mst bs hmst fuel hfuel
  have hsteps := pipelined_steps w hw vsp hdiv ms mst bs buf fuel stages hst r
  refine ⟨stages, _, hst, hsteps, stages_split_iff ms mst bs hmst fuel stages hst, ?_, ?_, ?_, ?_⟩
  · by_cases hlt : stageStep ms mst bs < bs
    · simp [hlt]
    · simp only [hlt, if_false, List.nil_append, List.append_nil, iff_false,
        List.mem_flatten, List.mem_map, not_exists, not_and]
      rintro l ⟨s, _, rfl⟩
      exact stageSteps_primary_no_checked _ _ _ _ s _
  · by_cases hlt : stageStep ms mst bs < bs
    · simp [hlt]
    · simp only [hlt, if_false, List.nil_append, List.append_nil, iff_false,
        List.mem_flatten, List.mem_map, not_exists, not_and]
      rintro l ⟨s, _, rfl⟩
      exact stageSteps_primary_no_checked _ _ _ _ s _
  · intro hlt op
    simp only [hlt, if_false, List.nil_append, List.append_nil,
      List.mem_flatten, List.mem_map, not_exists, not_and]
    rintro l ⟨s, _, rfl⟩
    exact stageSteps_primary_no_checked _ _ _ _ s _
  · intro sb rb p st wd h f l cs hmem
    rw [List.mem_append, List.mem_append] at hmem
    rcases hmem with (hmem | hmem) | hmem
    · split_ifs at hmem <;> simp at hmem
    · simp only [List.mem_flatten, List.mem_map] at hmem
      obtain ⟨l1, ⟨s, _, rfl⟩, hl⟩ := hmem
      exact stageSteps_allGather2D_stream _ _ _ _ _ s sb rb p st wd h f l cs hl
    · split_ifs at hmem <;> simp at hmem

/-- Witness for C13: a batch of 2 split in two stages (`max_stages = 2`,
`min_stage_tokens = 1`) on rank 0 of two ranks. -/
theorem postDecodeEmbedding_secondary_stream_iff_split_witness :
    ∃ stages steps,
      stageLoop 2 (stageStep 2 1 2) 2 0 = some stages ∧
      postDecodeEmbeddingWith 2 1 (rankModel 2 4 true 0) ⟨0, 0⟩ ⟨0, 0⟩ 2 2 = Except.ok steps ∧
      (stageStep 2 1 2 < 2 ↔ 2 ≤ stages.length) ∧
      (Step.checked DeviceOp.streamCreate ∈ steps ↔ stageStep 2 1 2 < 2) ∧
      (Step.checked DeviceOp.eventCreate ∈ steps ↔ stageStep 2 1 2 < 2) ∧
      (¬ stageStep 2 1 2 < 2 → ∀ op, Step.checked op ∉ steps) ∧
      (∀ (sb rb : Ptr) (p st wd h : Int) (f l : Bool) (cs : Stream),
        Step.submit (DeviceOp.allGather2D sb rb p st wd h f l cs) ∈ steps →
        cs = if stageStep 2 1 2 < 2 then Stream.secondary else Stream.primary) :=
  postDecodeEmbedding_secondary_stream_iff_split 2 (by decide) 4 (by decide) 2 1 2 (by decide)
    ⟨0, 0⟩ 0 2 (by decide)

/-- C14. In `forwardUnified`, for a batch with one range per embedding (so that
`updateEmbedding` returns), the call reaches the decoder and the map `inputs` handed to it has
the key `lora_mask` if and only if `lora_mask` is non-null and the local `have_embeddings` is
true after `updateEmbedding`; that local is the flag reported by `updateEmbedding` when
`token_num ≠ 0` and is false when `token_num = 0`, where the key is absent. The keys of
`inputs` are those of its initializer list followed by `lora_mask` when inserted, the keys of
`outputs` are those of its initializer list (no entry is dropped as a duplicate), and the keys
are pairwise distinct within `inputs`, within `outputs`, and across the two maps. -/
theorem forwardUnified_lora_mask_key {α : Type} (self : LlamaV2) (tuning : Bool)
    (count_and_fix : List Step) (out decoder_output decoder_input : Ptr) (p : UnifiedPtrs)
    (h_input_length : Nat → Int) (token_num : Nat) (dc_batch_size pf_batch_size : Int)
    (lora_mask : Option Nat) (sequences : Nat → Sequence α)
    (hpair : ∀ i : Nat, (i : Int) < dc_batch_size + pf_batch_size →
      (sequences i).input_embedding_ranges.length = (sequences i).input_embeddings.length) :
    ∃ res, forwardUnified self tuning count_and_fix out decoder_output decoder_input p
        h_input_length token_num dc_batch_size pf_batch_size lora_mask sequences = some res ∧
      (token_num ≠ 0 → ∃ st, updateEmbedding self.hidden_units_ tuning
          (dc_batch_size + pf_batch_size) h_input_length sequences lora_mask.isSome false =
            some st ∧ res.have_embeddings = st.have_embeddings) ∧
      (token_num = 0 → res.have_embeddings = false) ∧
      (res.inputs.isExist "lora_mask" = true ↔
        lora_mask.isSome = true ∧ res.have_embeddings = true) ∧
      (token_num = 0 → res.inputs.isExist "lora_mask" = false) ∧
      res.inputs.keys =
        (unifiedInputs self p decoder_input token_num dc_batch_size pf_batch_size).map
            Prod.fst ++
          (if lora_mask.isSome = true ∧ res.have_embeddings = true then ["lora_mask"]
           else []) ∧
      res.outputs.keys =
        (unifiedOutputs self p out decoder_output token_num dc_batch_size
          pf_batch_size).map Prod.fst ∧
      res.inputs.keys.Nodup ∧ res.outputs.keys.Nodup ∧
      (res.inputs.keys ++ res.outputs.keys).Nodup := by
  -- `updateEmbedding` returns
  have hret : ∃ st, updateEmbedding self.hidden_units_ tuning (dc_batch_size + pf_batch_size)
      h_input_length sequences lora_mask.isSome false = some st := by
    cases tuning with
    | true => exact ⟨_, rfl⟩
    | false =>
      obtain ⟨st, hs, _⟩ := seqLoop_eq_batchCopies self.hidden_units_ lora_mask.isSome
        h_input_length sequences (dc_batch_size + pf_batch_size).toNat 0 0 0
        { copies := [], mask := fun _ => 0, have_embeddings := false }
        (fun m _ h2 => hpair m (by omega))
      exact ⟨st, by simp only [updateEmbedding]; exact hs⟩
  obtain ⟨st, hst⟩ := hret
  -- the keys of the two maps, for any value of the flag
  have hkeys : ∀ he : Bool,
      (decoderInputs self p decoder_input token_num dc_batch_size pf_batch_size lora_mask
        he).keys =
      (unifiedInputs self p decoder_input token_num dc_batch_size pf_batch_size).map
          Prod.fst ++
        (if lora_mask.isSome = true ∧ he = true then ["lora_mask"] else []) :=
    fun he => decoderInputs_keys self p decoder_input token_num dc_batch_size pf_batch_size
      lora_mask he
  have hokeys : (TensorMap.ofList (unifiedOutputs self p out decoder_output token_num
      dc_batch_size pf_batch_size)).keys =
      (unifiedOutputs self p out decoder_output token_num dc_batch_size pf_batch_size).map
        Prod.fst := by
    rw [ofList_unifiedOutputs]; rfl
  have hmain : ∀ he : Bool,
      ((decoderInputs self p decoder_input token_num dc_batch_size pf_batch_size lora_mask
          he).isExist "lora_mask" = true ↔ lora_mask.isSome = true ∧ he = true) ∧
      (decoderInputs self p decoder_input token_num dc_batch_size pf_batch_size lora_mask
          he).keys.Nodup ∧
      (TensorMap.ofList (unifiedOutputs self p out decoder_output token_num
          dc_batch_size pf_batch_size)).keys.Nodup ∧
      ((decoderInputs self p decoder_input token_num dc_batch_size pf_batch_size lora_mask
          he).keys ++
        (TensorMap.ofList (unifiedOutputs self p out decoder_output token_num
          dc_batch_size pf_batch_size)).keys).Nodup := by
    intro he
    rw [isExist_iff_mem_keys, hkeys, hokeys, unifiedInputs_keys, unifiedOutputs_keys]
    by_cases hc : lora_mask.isSome = true ∧ he = true
    · rw [if_pos hc]
      exact ⟨⟨fun _ => hc, fun _ => by decide⟩, by decide, by decide, by decide⟩
    · rw [if_neg hc]
      exact ⟨⟨fun h => absurd h (by decide), fun h => absurd h hc⟩, by decide, by decide,
        by decide⟩
  unfold forwardUnified
  by_cases h0 : token_num = 0
  · simp only [h0, if_true, Option.map_some']
    subst h0
    obtain ⟨m1, m2, m3, m4⟩ := hmain false
    refine ⟨_, rfl, fun h => absurd rfl h, fun _ => rfl, m1, fun _ => ?_, hkeys false,
      hokeys, m2, m3, m4⟩
    cases hx : (decoderInputs self p decoder_input 0 dc_batch_size pf_batch_size lora_mask
      false).isExist "lora_mask" with
    | false => rfl
    | true => exact absurd (m1.mp hx).2 (by decide)
  · simp only [h0, if_false, hst, Option.map_some']
    obtain ⟨m1, m2, m3, m4⟩ := hmain st.have_embeddings
    exact ⟨_, rfl, fun _ => ⟨st, rfl, rfl⟩, fun h => h.elim, m1, fun h => h.elim,
      hkeys st.have_embeddings, hokeys, m2, m3, m4⟩

/-- Witness for C14: two copies of `sampleSequence`, 8 tokens each, with a mask buffer. -/
theorem forwardUnified_lora_mask_key_witness :
    (∀ i : Nat, (i : Int) < 0 + 2 →
      ((fun _ : Nat => sampleSequence) i).input_embedding_ranges.length =
        ((fun _ : Nat => sampleSequence) i).input_embeddings.length) ∧
    ∃ res, forwardUnified singleModel false [] ⟨2, 0⟩ ⟨1, 0⟩ ⟨0, 0⟩ samplePtrs (fun _ => 8) 16
        0 2 (some 9) (fun _ => sampleSequence) = some res ∧
      ((16 : Nat) ≠ 0 → ∃ st, updateEmbedding singleModel.hidden_units_ false
          ((0 : Int) + 2) (fun _ => 8) (fun _ => sampleSequence) (some 9 : Option Nat).isSome
          false = some st ∧ res.have_embeddings = st.have_embeddings) ∧
      ((16 : Nat) = 0 → res.have_embeddings = false) ∧
      (res.inputs.isExist "lora_mask" = true ↔
        (some 9 : Option Nat).isSome = true ∧ res.have_embeddings = true) ∧
      ((16 : Nat) = 0 → res.inputs.isExist "lora_mask" = false) ∧
      res.inputs.keys =
        (unifiedInputs singleModel samplePtrs ⟨0, 0⟩ 16 0 2).map Prod.fst ++
          (if (some 9 : Option Nat).isSome = true ∧ res.have_embeddings = true then
            ["lora_mask"]
           else []) ∧
      res.outputs.keys =
        (unifiedOutputs singleModel samplePtrs ⟨2, 0⟩ ⟨1, 0⟩ 16 0 2).map Prod.fst ∧
      res.inputs.keys.Nodup ∧ res.outputs.keys.Nodup ∧
      (res.inputs.keys ++ res.outputs.keys).Nodup :=
  ⟨fun _ _ => rfl,
    forwardUnified_lora_mask_key singleModel false [] ⟨2, 0⟩ ⟨1, 0⟩ ⟨0, 0⟩ samplePtrs
      (fun _ => 8) 16 0 2 (some 9) (fun _ => sampleSequence) (fun _ _ => rfl)⟩

/-- C12, counterexample. A single-device run of `forwardUnified` on a batch of two copies of
`sampleSequence` (10 cached tokens and 8 new tokens each, 16 tokens in all, one hidden unit,
no mask buffer): `updateEmbedding` issues one overlay copy per sequence, and the second
`cudaMemcpyAsync` is issued right after the first, with no status check between the two
submissions; the only checks are the two `sync_check_cuda_error()` after the loop. -/
theorem forwardUnified_unchecked_copies_counterexample :
    ∃ res, forwardUnified singleModel false [] ⟨2, 0⟩ ⟨1, 0⟩ ⟨0, 0⟩ samplePtrs (fun _ => 8) 16
        0 2 none (fun _ => sampleSequence) = some res ∧
      res.steps =
        [Step.submit (DeviceOp.embeddingLookup ⟨0, 0⟩ 16 1), Step.sync_check,
         Step.submit (DeviceOp.memcpyAsync ⟨0, 2⟩ 0 3),
         Step.submit (DeviceOp.memcpyAsync ⟨0, 10⟩ 0 3),
         Step.sync_check, Step.sync_check] ∧
      (DeviceOp.memcpyAsync ⟨0, 2⟩ 0 3).isSubmission = true ∧
      (DeviceOp.memcpyAsync ⟨0, 10⟩ 0 3).isSubmission = true ∧
      checkedBeforeNext res.steps = false := by
  refine ⟨_, rfl, rfl, rfl, rfl, ?_⟩
  show checkedBeforeNext
    [Step.submit (DeviceOp.embeddingLookup ⟨0, 0⟩ 16 1), Step.sync_check,
     Step.submit (DeviceOp.memcpyAsync ⟨0, 2⟩ 0 3),
     Step.submit (DeviceOp.memcpyAsync ⟨0, 10⟩ 0 3),
     Step.sync_check, Step.sync_check] = false
  rfl

/-- C12, amended. For every run of `forwardUnified` that reaches the decoder and every run of
`postDecodeEmbedding` that passes its `FT_CHECK`s (staging constants as parameters), with the
statements of the helper `count_and_fix` keeping the discipline: every submission of the
embedding assembly (lookup kernel, all-gather, transpose) and of the projection (matrix
multiply, all-gather, transpose, 2-D all-gather) is followed by a status check before the next
submission. The statements of `forwardUnified` are the assembly, then the calls of
`updateEmbedding` (`overlay`), then `k` status checks: `overlay` holds one `cudaMemcpyAsync`
per overlay copy and, with a mask and the flag set, the mask copy and the stream wait, none of
them checked at the call and with no status check between them; it is empty when
`token_num = 0` or `isTuning()`; and `k ≥ 1` when `token_num ≠ 0`, so a status check follows
the last of them before any later submission. The whole list keeps the discipline of one
check per submission exactly when `updateEmbedding` issues at most one copy. -/
theorem pipeline_status_checks {α : Type} (self : LlamaV2) (tuning : Bool)
    (count_and_fix : List Step) (out decoder_output decoder_input : Ptr) (p : UnifiedPtrs)
    (h_input_length : Nat → Int) (token_num : Nat) (dc_batch_size pf_batch_size : Int)
    (lora_mask : Option Nat) (sequences : Nat → Sequence α) (res : ForwardUnifiedResult)
    (max_stages min_stage_tokens : Int) (logits local_logits : Ptr) (batch_size : Int)
    (fuel : Nat) (projection : List Step)
    (hcf : checkedBeforeNext count_and_fix = true)
    (hres : forwardUnified self tuning count_and_fix out decoder_output decoder_input p
      h_input_length token_num dc_batch_size pf_batch_size lora_mask sequences = some res)
    (hproj : postDecodeEmbeddingWith max_stages min_stage_tokens self logits local_logits
      batch_size fuel = Except.ok projection) :
    checkedBeforeNext
      (embeddingSteps self decoder_input decoder_output token_num count_and_fix) = true ∧
    checkedBeforeNext projection = true ∧
    ∃ (overlay : List Step) (k : Nat),
      res.steps = embeddingSteps self decoder_input decoder_output token_num count_and_fix ++
        overlay ++ List.replicate k Step.sync_check ∧
      (token_num ≠ 0 → 0 < k) ∧
      (token_num = 0 → overlay = [] ∧ k = 0) ∧
      (tuning = true → overlay = []) ∧
      (token_num ≠ 0 → tuning = false →
        ∃ st, updateEmbedding self.hidden_units_ tuning (dc_batch_size + pf_batch_size)
            h_input_length sequences lora_mask.isSome false = some st ∧
          overlay =
            st.copies.map (fun cp =>
              Step.submit (DeviceOp.memcpyAsync
                { region := decoder_input.region, off := decoder_input.off + cp.dst }
                cp.src_off cp.count)) ++
            (if lora_mask.isSome && st.have_embeddings then
              [Step.submit (DeviceOp.maskCopy token_num),
               Step.submit DeviceOp.streamSynchronize]
             else [])) ∧
      (∀ s ∈ overlay, ∃ op, s = Step.submit op) ∧
      (checkedBeforeNext res.steps = true ↔ (overlay.filter Step.submits).length ≤ 1) := by
  have hE := embeddingSteps_checked self decoder_input decoder_output token_num count_and_fix
    hcf
  refine ⟨hE, postDecodeEmbeddingWith_checked _ _ _ _ _ _ _ _ hproj, ?_⟩
  obtain ⟨overlay, k, h1, h2, h3, h4, h5, h6⟩ := forwardUnified_steps self tuning
    count_and_fix out decoder_output decoder_input p h_input_length token_num dc_batch_size
    pf_batch_size lora_mask sequences res hres
  refine ⟨overlay, k, h1, h2, h3, h4, h5, h6, ?_⟩
  have hE1 : checkedFrom false
      (embeddingSteps self decoder_input decoder_output token_num count_and_fix) =
        some false := by
    simpa [checkedBeforeNext] using hE
  unfold checkedBeforeNext
  rw [h1, checkedFrom_append, checkedFrom_append, hE1]
  simp only [Option.some_bind]
  rw [checkedFrom_submits overlay h6 false, Bool.toNat_false, Nat.add_zero]
  by_cases hle : (overlay.filter Step.submits).length ≤ 1
  · rw [if_pos hle]
    simp only [Option.some_bind, checkedFrom_replicate]
    by_cases h0 : token_num = 0
    · obtain ⟨ho, hk⟩ := h3 h0
      subst ho; subst hk
      simp
    · have hk := h2 h0
      have hk0 : k ≠ 0 := by omega
      simp [hk0, hle]
  · rw [if_neg hle]
    simp [hle]


/-- Witness for C12 (amended): rank 0 of two ranks, a batch of two copies of
`sampleSequence` with a mask buffer, and the pipelined projection of a batch of 2 in two
stages. -/
theorem pipeline_status_checks_witness :
    checkedBeforeNext ([] : List Step) = true ∧
    ∃ (res : ForwardUnifiedResult) (projection : List Step),
      forwardUnified sampleModel false [] ⟨2, 0⟩ ⟨1, 0⟩ ⟨0, 0⟩ samplePtrs (fun _ => 8) 16
        0 2 (some 9) (fun _ => sampleSequence) = some res ∧
      postDecodeEmbeddingWith 2 1 sampleModel ⟨3, 0⟩ ⟨3, 0⟩ 2 2 = Except.ok projection ∧
      checkedBeforeNext (embeddingSteps sampleModel ⟨0, 0⟩ ⟨1, 0⟩ 16 []) = true ∧
      checkedBeforeNext projection = true ∧
      ∃ (overlay : List Step) (k : Nat),
        res.steps = embeddingSteps sampleModel ⟨0, 0⟩ ⟨1, 0⟩ 16 [] ++
          overlay ++ List.replicate k Step.sync_check ∧
        ((16 : Nat) ≠ 0 → 0 < k) ∧
        ((16 : Nat) = 0 → overlay = [] ∧ k = 0) ∧
        (false = true → overlay = []) ∧
        ((16 : Nat) ≠ 0 → false = false →
          ∃ st, updateEmbedding sampleModel.hidden_units_ false ((0 : Int) + 2)
              (fun _ => 8) (fun _ => sampleSequence) (some 9 : Option Nat).isSome false =
                some st ∧
            overlay =
              st.copies.map (fun cp =>
                Step.submit (DeviceOp.memcpyAsync
                  { region := (⟨0, 0⟩ : Ptr).region, off := (⟨0, 0⟩ : Ptr).off + cp.dst }
                  cp.src_off cp.count)) ++
              (if (some 9 : Option Nat).isSome && st.have_embeddings then
                [Step.submit (DeviceOp.maskCopy ((16 : Nat) : Int)),
                 Step.submit DeviceOp.streamSynchronize]
               else [])) ∧
        (∀ s ∈ overlay, ∃ op, s = Step.submit op) ∧
        (checkedBeforeNext res.steps = true ↔ (overlay.filter Step.submits).length ≤ 1) :=
  ⟨rfl, _, _, rfl, rfl,
    pipeline_status_checks sampleModel false [] ⟨2, 0⟩ ⟨1, 0⟩ ⟨0, 0⟩ samplePtrs (fun _ => 8)
      16 0 2 (some 9) (fun _ => sampleSequence) _ 2 1 ⟨3, 0⟩ ⟨3, 0⟩ 2 2 _ rfl rfl rfl⟩

end turbomind
